import Mathlib

/-!
The class `aisdi::LinkedList` of `include/LinkedList.h`, as a shallow embedding.

The C++ class is a doubly linked list with two sentinel nodes.  The embedding
keeps the pointer structure: nodes live in a heap of cells addressed by natural
numbers, list objects live in an object store, and every member function is a
state transformer over that world which can return, throw a C++ exception, or
run into undefined behaviour (null or dangling dereference, double delete).

Modelling conventions
* `Ptr = Option Nat`, `none` is `nullptr`.
* `new` hands out the address `brk` and bumps it; `delete` empties the cell.
* The counters (`int i`, `int elementsDeleted`, `size_type _size`) are natural
  numbers: the development is about lists far below `2^31` nodes, where none of
  them wraps.
* The pointer-chasing loops (`operator[]`, `deleteNodesFrom`, the range-`for`
  of the copy operations) are run for at most `brk + 1` rounds, one more than
  the number of cells ever allocated; running out is reported as `diverge`.
-/

namespace aisdi

/-- Node pointer; `none` is `nullptr`. -/
abbrev Ptr := Option Nat

/-- The private `struct Node`: `elem`, `next`, `prev`. -/
structure Node (T : Type) where
  elem : T
  next : Ptr
  prev : Ptr

/-- The data members of a `LinkedList` object: `_head`, `_tail`, `_size`. -/
structure LinkedList where
  head : Ptr
  tail : Ptr
  size : Nat
deriving DecidableEq, Repr

/-- Program state: the node heap, the allocation frontier and the list objects. -/
structure World (T : Type) where
  cells : Nat → Option (Node T)
  brk : Nat
  objs : Nat → Option LinkedList

/-- The two exception classes the header throws: `std::out_of_range` and
`std::runtime_error`. -/
inductive Exc where
  | outOfRange
  | runtimeError
deriving DecidableEq, Repr

/-- Outcome of running a piece of code from a state: normal return, a thrown
exception (with the state at the throw), undefined behaviour, or a loop that
never ends. -/
inductive Res (σ α : Type) where
  | ok (a : α) (s : σ)
  | throw (e : Exc) (s : σ)
  | ub
  | diverge

/-- Computations over a state `σ`. -/
def M (σ α : Type) : Type := σ → Res σ α

/-- Return a value, leaving the state alone. -/
def M.pure {σ α : Type} (a : α) : M σ α := fun s => Res.ok a s

/-- Sequencing: an exception, undefined behaviour or divergence of the first
part ends the whole computation. -/
def M.bind {σ α β : Type} (m : M σ α) (f : α → M σ β) : M σ β := fun s =>
  match m s with
  | Res.ok a s' => f a s'
  | Res.throw e s' => Res.throw e s'
  | Res.ub => Res.ub
  | Res.diverge => Res.diverge

instance instMonadM {σ : Type} : Monad (M σ) where
  pure := M.pure
  bind := M.bind

/-- The C++ `throw`. -/
def raise {σ α : Type} (e : Exc) : M σ α := fun s => Res.throw e s

/-- Undefined behaviour. -/
def undefined {σ α : Type} : M σ α := fun _ => Res.ub

/-- A loop that ran out of rounds. -/
def forever {σ α : Type} : M σ α := fun _ => Res.diverge

/-- The returned value, when the computation returned. -/
def Res.value? {σ α : Type} : Res σ α → Option α
  | Res.ok a _ => some a
  | _ => none

/-- The exception, when the computation threw. -/
def Res.exc? {σ α : Type} : Res σ α → Option Exc
  | Res.throw e _ => some e
  | _ => none

/-- The state left behind by a return or a throw. -/
def Res.state? {σ α : Type} : Res σ α → Option σ
  | Res.ok _ s => some s
  | Res.throw _ s => some s
  | _ => none

section Memory
variable {T : Type}

/-- Read the node `*p`; null and dangling pointers are undefined behaviour. -/
def getCell (p : Ptr) : M (World T) (Node T) := fun w =>
  match p with
  | none => Res.ub
  | some a =>
    match w.cells a with
    | none => Res.ub
    | some n => Res.ok n w

/-- Overwrite the node `*p`. -/
def putCell (p : Ptr) (f : Node T → Node T) : M (World T) Unit := fun w =>
  match p with
  | none => Res.ub
  | some a =>
    match w.cells a with
    | none => Res.ub
    | some n => Res.ok () { w with cells := Function.update w.cells a (some (f n)) }

/-- The assignment `p->next = v`. -/
def setNext (p v : Ptr) : M (World T) Unit := putCell p (fun n => { n with next := v })

/-- The assignment `p->prev = v`. -/
def setPrev (p v : Ptr) : M (World T) Unit := putCell p (fun n => { n with prev := v })

/-- The assignment `p->elem = v`. -/
def setElem (p : Ptr) (v : T) : M (World T) Unit := putCell p (fun n => { n with elem := v })

/-- The expression `new Node(...)`: the fresh cell is at the frontier. -/
def newNode (n : Node T) : M (World T) Ptr := fun w =>
  Res.ok (some w.brk)
    { w with cells := Function.update w.cells w.brk (some n), brk := w.brk + 1 }

/-- The statement `delete p` for a non-null `p`; deleting a cell that is not
allocated is undefined behaviour, `delete nullptr` does nothing. -/
def deleteCell (p : Ptr) : M (World T) Unit := fun w =>
  match p with
  | none => Res.ok () w
  | some a =>
    match w.cells a with
    | none => Res.ub
    | some _ => Res.ok () { w with cells := Function.update w.cells a none }

/-- Read the data members of the list object `this`. -/
def getList (this : Nat) : M (World T) LinkedList := fun w =>
  match w.objs this with
  | none => Res.ub
  | some l => Res.ok l w

/-- Update the data members of the list object `this`. -/
def modifyList (this : Nat) (f : LinkedList → LinkedList) : M (World T) Unit := fun w =>
  match w.objs this with
  | none => Res.ub
  | some l => Res.ok () { w with objs := Function.update w.objs this (some (f l)) }

/-- The current allocation frontier, used to bound the pointer-chasing loops. -/
def rounds : M (World T) Nat := fun w => Res.ok (w.brk + 1) w

end Memory

section NodeOps
variable {T : Type}

/-- The method `Node::insertInBetween(left, right)` called on `*self`. -/
def Node.insertInBetween (self left right : Ptr) : M (World T) Unit := do
  setNext left self
  setPrev self left
  setPrev right self
  setNext self right

/-- The method `Node::connectWith(other)` called on `*self`. -/
def Node.connectWith (self other : Ptr) : M (World T) Unit := do
  setNext self other
  setPrev other self

/-- The method `Node::disconnect()` called on `*self`: a node without a
successor is refused with `std::out_of_range`. -/
def Node.disconnect (self : Ptr) : M (World T) Unit := do
  let n ← getCell self
  if n.next = none then
    raise Exc.outOfRange
  else do
    let left := n.prev
    let right := n.next
    setPrev self none
    setNext self none
    Node.connectWith left right

end NodeOps

/-- The classes `ConstIterator` and `Iterator`: one node pointer `itr`. The
derived class `Iterator` adds no data and forwards every operator to the base
class, so both are this structure. -/
structure ConstIterator where
  itr : Ptr
deriving DecidableEq, Repr

/-- The mutable iterator class. -/
abbrev Iterator := ConstIterator

section IteratorOps
variable {T : Type}

/-- Heap code run from inside a member function of an iterator object. -/
def onWorld {α : Type} (m : M (World T) α) : M (ConstIterator × World T) α := fun s =>
  match m s.2 with
  | Res.ok a w => Res.ok a (s.1, w)
  | Res.throw e w => Res.throw e (s.1, w)
  | Res.ub => Res.ub
  | Res.diverge => Res.diverge

/-- Call a mutating member function on the iterator variable `it`; the result
carries the variable's new value. -/
def withIter {α : Type} (it : ConstIterator) (m : M (ConstIterator × World T) α) :
    M (World T) (α × ConstIterator) := fun w =>
  match m (it, w) with
  | Res.ok a s => Res.ok (a, s.1) s.2
  | Res.throw e s => Res.throw e s.2
  | Res.ub => Res.ub
  | Res.diverge => Res.diverge

/-- Read the member `itr` of the iterator object. -/
def getItr : M (ConstIterator × World T) Ptr := fun s => Res.ok s.1.itr s

/-- Assign the member `itr` of the iterator object. -/
def setItr (p : Ptr) : M (ConstIterator × World T) Unit := fun s => Res.ok () (⟨p⟩, s.2)

/-- The const method `ConstIterator::operator*`. -/
def ConstIterator.deref (it : ConstIterator) : M (World T) T := do
  if it.itr = none then
    raise Exc.outOfRange
  else do
    let n ← getCell it.itr
    if n.next = none then
      raise Exc.outOfRange
    else
      pure n.elem

/-- The statement `*it = v` through the mutable `Iterator::operator*`. -/
def Iterator.assign (it : Iterator) (v : T) : M (World T) Unit := do
  let _ ← ConstIterator.deref (T := T) it
  setElem it.itr v

/-- The pre-increment `ConstIterator::operator++()`. -/
def ConstIterator.preInc : M (ConstIterator × World T) ConstIterator := do
  let itr ← getItr
  if itr = none then
    raise Exc.outOfRange
  else do
    let n ← onWorld (getCell itr)
    if n.next = none then
      raise Exc.outOfRange
    else do
      setItr n.next
      pure ⟨n.next⟩

/-- The post-increment `ConstIterator::operator++(int)`. -/
def ConstIterator.postInc : M (ConstIterator × World T) ConstIterator := do
  let itr ← getItr
  if itr = none then
    raise Exc.outOfRange
  else do
    let n ← onWorld (getCell itr)
    if n.next = none then
      raise Exc.outOfRange
    else do
      let temp : ConstIterator := ⟨itr⟩
      setItr n.next
      pure temp

/-- The pre-decrement `ConstIterator::operator--()`. -/
def ConstIterator.preDec : M (ConstIterator × World T) ConstIterator := do
  let itr ← getItr
  if itr = none then
    raise Exc.outOfRange
  else do
    let n ← onWorld (getCell itr)
    let p ← onWorld (getCell n.prev)
    if p.prev = none then
      raise Exc.outOfRange
    else do
      setItr n.prev
      pure ⟨n.prev⟩

/-- The post-decrement `ConstIterator::operator--(int)`. -/
def ConstIterator.postDec : M (ConstIterator × World T) ConstIterator := do
  let itr ← getItr
  if itr = none then
    raise Exc.outOfRange
  else do
    let n ← onWorld (getCell itr)
    let p ← onWorld (getCell n.prev)
    if p.prev = none then
      raise Exc.outOfRange
    else do
      let temp : ConstIterator := ⟨itr⟩
      setItr n.prev
      pure temp

/-- The loop of `ConstIterator::operator+`: `k` rounds remain. -/
def ConstIterator.addLoop : Nat → Ptr → M (World T) Ptr
  | 0, temp => pure temp
  | k + 1, temp =>
    if temp = none then
      raise Exc.outOfRange
    else do
      let n ← getCell temp
      if n.next = none then
        raise Exc.outOfRange
      else
        ConstIterator.addLoop k n.next

/-- The const method `ConstIterator::operator+(d)`; the loop body runs `d`
times, not at all for `d ≤ 0`. -/
def ConstIterator.add (it : ConstIterator) (d : Int) : M (World T) ConstIterator := do
  let temp ← ConstIterator.addLoop (T := T) d.toNat it.itr
  pure ⟨temp⟩

/-- The loop of `ConstIterator::operator-`: `k` rounds remain. -/
def ConstIterator.subLoop : Nat → Ptr → M (World T) Ptr
  | 0, temp => pure temp
  | k + 1, temp =>
    if temp = none then
      raise Exc.outOfRange
    else do
      let n ← getCell temp
      let p ← getCell n.prev
      if p.prev = none then
        raise Exc.outOfRange
      else
        ConstIterator.subLoop k n.prev

/-- The const method `ConstIterator::operator-(d)`. -/
def ConstIterator.sub (it : ConstIterator) (d : Int) : M (World T) ConstIterator := do
  let temp ← ConstIterator.subLoop (T := T) d.toNat it.itr
  pure ⟨temp⟩

/-- The method `ConstIterator::operator==`: node identity. -/
def ConstIterator.eq (it other : ConstIterator) : Bool := decide (it.itr = other.itr)

/-- The method `ConstIterator::operator!=`. -/
def ConstIterator.ne (it other : ConstIterator) : Bool := !(it.eq other)

/-- The method `node()`. -/
def ConstIterator.node (it : ConstIterator) : Ptr := it.itr

end IteratorOps

section ListOps
variable {T : Type}

/-- The default constructor `LinkedList()`, building the object `this`. -/
def LinkedList.construct [Inhabited T] (this : Nat) : M (World T) Unit := do
  let h ← newNode (T := T) ⟨default, none, none⟩
  let t ← newNode (T := T) ⟨default, none, none⟩
  fun w => Res.ok () { w with objs := Function.update w.objs this (some ⟨h, t, 0⟩) }
  setNext (T := T) h t
  setPrev (T := T) t h

/-- The method `isEmpty()`. -/
def LinkedList.isEmpty (this : Nat) : M (World T) Bool := do
  let l ← getList this
  pure (decide (l.size = 0))

/-- The method `getSize()`. -/
def LinkedList.getSize (this : Nat) : M (World T) Nat := do
  let l ← getList this
  pure l.size

/-- The loop of `operator[]`: `it` is the node under the cursor, `i` its
position. -/
def LinkedList.indexLoop (tail : Ptr) (pos : Int) : Nat → Ptr → Nat → M (World T) T
  | 0, _, _ => forever
  | fuel + 1, it, i =>
    if it ≠ none ∧ it ≠ tail then do
      let n ← getCell it
      if pos = (i : Int) then
        pure n.elem
      else
        LinkedList.indexLoop tail pos fuel n.next (i + 1)
    else
      raise Exc.outOfRange

/-- The method `operator[](pos)`. -/
def LinkedList.index (this : Nat) (pos : Int) : M (World T) T := do
  let l ← getList this
  if l.head = none then
    raise Exc.runtimeError
  else do
    let hd ← getCell (T := T) l.head
    let fuel ← rounds (T := T)
    LinkedList.indexLoop l.tail pos fuel hd.next 0

/-- The method `append(item)`. -/
def LinkedList.append (this : Nat) (item : T) : M (World T) Unit := do
  let newElem ← newNode ⟨item, none, none⟩
  let l ← getList this
  let tl ← getCell (T := T) l.tail
  Node.insertInBetween (T := T) newElem tl.prev l.tail
  modifyList this (fun l => { l with size := l.size + 1 })

/-- The method `prepend(item)`. -/
def LinkedList.prepend (this : Nat) (item : T) : M (World T) Unit := do
  let newElem ← newNode ⟨item, none, none⟩
  let l ← getList this
  let hd ← getCell (T := T) l.head
  Node.insertInBetween (T := T) newElem l.head hd.next
  modifyList this (fun l => { l with size := l.size + 1 })

/-- The method `insert(insertPosition, item)`. -/
def LinkedList.insert (this : Nat) (insertPosition : ConstIterator) (item : T) :
    M (World T) Unit := do
  let newElem ← newNode ⟨item, none, none⟩
  let right := insertPosition.node
  let r ← getCell (T := T) right
  let left := r.prev
  Node.insertInBetween (T := T) newElem left right
  modifyList this (fun l => { l with size := l.size + 1 })

/-- The method `popFirst()`. -/
def LinkedList.popFirst (this : Nat) : M (World T) T := do
  let l ← getList this
  if l.size = 0 then
    raise Exc.outOfRange
  else do
    let hd ← getCell (T := T) l.head
    let elementToPop := hd.next
    let e ← getCell (T := T) elementToPop
    let returnValue := e.elem
    Node.disconnect (T := T) elementToPop
    deleteCell (T := T) elementToPop
    modifyList this (fun l => { l with size := l.size - 1 })
    pure returnValue

/-- The method `popLast()`. -/
def LinkedList.popLast (this : Nat) : M (World T) T := do
  let l ← getList this
  if l.size = 0 then
    raise Exc.outOfRange
  else do
    let tl ← getCell (T := T) l.tail
    let elementToPop := tl.prev
    let e ← getCell (T := T) elementToPop
    let returnValue := e.elem
    Node.disconnect (T := T) elementToPop
    deleteCell (T := T) elementToPop
    modifyList this (fun l => { l with size := l.size - 1 })
    pure returnValue

/-- The method `erase(possition)`. -/
def LinkedList.erase (this : Nat) (possition : ConstIterator) : M (World T) Unit := do
  let l ← getList this
  if l.size = 0 then
    raise Exc.outOfRange
  else do
    let nodeToErase := possition.node
    Node.disconnect (T := T) nodeToErase
    deleteCell (T := T) nodeToErase
    modifyList this (fun l => { l with size := l.size - 1 })

/-- The loop of `deleteNodesFrom`. -/
def LinkedList.deleteLoop (toExcluded : Ptr) : Nat → Ptr → Nat → M (World T) Nat
  | 0, _, _ => forever
  | fuel + 1, it, elementsDeleted =>
    if it ≠ none ∧ it ≠ toExcluded then do
      let n ← getCell (T := T) it
      let next := n.next
      deleteCell (T := T) it
      LinkedList.deleteLoop toExcluded fuel next (elementsDeleted + 1)
    else
      pure elementsDeleted

/-- The static method `deleteNodesFrom(fromIncluded, toExcluded)`. -/
def LinkedList.deleteNodesFrom (fromIncluded toExcluded : Ptr) : M (World T) Nat := do
  let fuel ← rounds (T := T)
  LinkedList.deleteLoop toExcluded fuel fromIncluded 0

/-- The method `erase(firstIncluded, lastExcluded)`. -/
def LinkedList.eraseRange (this : Nat) (firstIncluded lastExcluded : ConstIterator) :
    M (World T) Unit := do
  let first := firstIncluded.node
  let last := lastExcluded.node
  let f ← getCell (T := T) first
  Node.connectWith (T := T) f.prev last
  let k ← LinkedList.deleteNodesFrom (T := T) first last
  modifyList this (fun l => { l with size := l.size - k })

/-- The methods `begin()` and `cbegin()`: an iterator at `_head->next`. -/
def LinkedList.begin (this : Nat) : M (World T) ConstIterator := do
  let l ← getList this
  let hd ← getCell (T := T) l.head
  pure ⟨hd.next⟩

/-- The methods `end()` and `cend()`: an iterator at `_tail`. -/
def LinkedList.end (this : Nat) : M (World T) ConstIterator := do
  let l ← getList (T := T) this
  pure ⟨l.tail⟩

/-- The range-`for` loop `for (const auto &elem : other) append(elem);` run by
the object `this`, with the cursor `it` and the end iterator `e`. -/
def LinkedList.appendAll (this : Nat) (e : ConstIterator) : Nat → ConstIterator → M (World T) Unit
  | 0, _ => forever
  | fuel + 1, it =>
    if it.ne e then do
      let elem ← ConstIterator.deref (T := T) it
      LinkedList.append this elem
      let r ← withIter it (ConstIterator.preInc (T := T))
      LinkedList.appendAll this e fuel r.2
    else
      pure ()

/-- The loop `for (const auto &elem : l) append(elem);` over an initializer list. -/
def LinkedList.appendEach (this : Nat) : List T → M (World T) Unit
  | [] => pure ()
  | elem :: rest => do
    LinkedList.append this elem
    LinkedList.appendEach this rest

/-- The initializer-list constructor `LinkedList(std::initializer_list<Type> l)`. -/
def LinkedList.constructFrom [Inhabited T] (this : Nat) (l : List T) : M (World T) Unit := do
  LinkedList.construct (T := T) this
  LinkedList.appendEach this l

/-- The copy constructor `LinkedList(const LinkedList &other)`. -/
def LinkedList.copyConstruct [Inhabited T] (this other : Nat) : M (World T) Unit := do
  LinkedList.construct (T := T) this
  let b ← LinkedList.begin (T := T) other
  let e ← LinkedList.end (T := T) other
  let fuel ← rounds (T := T)
  LinkedList.appendAll this e fuel b

/-- The move constructor `LinkedList(LinkedList &&other)`. -/
def LinkedList.moveConstruct (this other : Nat) : M (World T) Unit := do
  let o ← getList (T := T) other
  fun w => Res.ok () { w with objs := Function.update w.objs this (some ⟨o.head, o.tail, o.size⟩) }
  modifyList (T := T) other (fun l => { l with head := none })
  modifyList (T := T) other (fun l => { l with tail := none })

/-- The destructor. -/
def LinkedList.destruct (this : Nat) : M (World T) Unit := do
  let l ← getList (T := T) this
  let _ ← LinkedList.deleteNodesFrom (T := T) l.head none
  fun w => Res.ok () { w with objs := Function.update w.objs this none }

/-- Copy assignment `operator=(const LinkedList &other)`. -/
def LinkedList.copyAssign (this other : Nat) : M (World T) Unit := do
  if this = other then
    pure ()
  else do
    let l ← getList (T := T) this
    let hd ← getCell (T := T) l.head
    let _ ← LinkedList.deleteNodesFrom (T := T) hd.next l.tail
    Node.connectWith (T := T) l.head l.tail
    modifyList (T := T) this (fun l => { l with size := 0 })
    let b ← LinkedList.begin (T := T) other
    let e ← LinkedList.end (T := T) other
    let fuel ← rounds (T := T)
    LinkedList.appendAll this e fuel b

/-- Move assignment `operator=(LinkedList &&other)`. -/
def LinkedList.moveAssign (this other : Nat) : M (World T) Unit := do
  if this = other then
    pure ()
  else do
    let l ← getList (T := T) this
    let hd ← getCell (T := T) l.head
    let _ ← LinkedList.deleteNodesFrom (T := T) hd.next l.tail
    Node.connectWith (T := T) l.head l.tail
    let o ← getList (T := T) other
    modifyList (T := T) this (fun l => { l with head := o.head })
    modifyList (T := T) other (fun x => { x with head := l.head })
    modifyList (T := T) this (fun l => { l with tail := o.tail })
    modifyList (T := T) other (fun x => { x with tail := l.tail })
    modifyList (T := T) this (fun l => { l with size := o.size })

/-- The loop behind the range-`for` statement `for (auto i : list) ...` of
`Source.cpp` and the tests, `for (it = begin(); it != end(); ++it)` with the
body reading `*it`; `it` is the cursor and `e` the end iterator. The result
lists the nodes visited, each with the value read there. -/
def LinkedList.visitLoop (e : ConstIterator) : Nat → ConstIterator → M (World T) (List (Ptr × T))
  | 0, _ => forever
  | fuel + 1, it =>
    if it.ne e then do
      let v ← ConstIterator.deref (T := T) it
      let r ← withIter it (ConstIterator.preInc (T := T))
      let rest ← LinkedList.visitLoop e fuel r.2
      pure ((it.node, v) :: rest)
    else
      pure []

/-- The range-`for` statement over the list object `this`. -/
def LinkedList.forEach (this : Nat) : M (World T) (List (Ptr × T)) := do
  let b ← LinkedList.begin (T := T) this
  let e ← LinkedList.end (T := T) this
  let fuel ← rounds (T := T)
  LinkedList.visitLoop e fuel b

/-- The state before the program starts: no node, no list object. -/
def World.empty : World T := ⟨fun _ => none, 0, fun _ => none⟩

end ListOps

/-! ## The representation predicate

A chain of cells is described by the list of its `(address, element)` pairs.
-/

section Shape
variable {T : Type}

/-- The pointer that leads into the segment `cs`: its first address, or `nxt`
when the segment is empty. -/
def headPtr (cs : List (Nat × T)) (nxt : Ptr) : Ptr :=
  match cs with
  | [] => nxt
  | c :: _ => some c.1

/-- The pointer that leads back into the segment `cs` from the right: its last
address, or `prv` when the segment is empty. -/
def lastPtr (prv : Ptr) : List (Nat × T) → Ptr
  | [] => prv
  | c :: rest => lastPtr (some c.1) rest

/-- The cells of `cs` form a doubly linked segment in the heap `c`: each cell
holds its element, points forward to its successor (the cell after the segment
is `nxt`) and backward to its predecessor (the cell before the segment is
`prv`). -/
def DSeg (c : Nat → Option (Node T)) : Ptr → List (Nat × T) → Ptr → Prop
  | _, [], _ => True
  | prv, x :: rest, nxt =>
    c x.1 = some ⟨x.2, headPtr rest nxt, prv⟩ ∧ DSeg c (some x.1) rest nxt

/-- The addresses of a chain of cells. -/
def addrs (l : List (Nat × T)) : List Nat := l.map Prod.fst

/-- The whole chain of a list: head sentinel, live cells, tail sentinel. The
sentinels are built by `Node()` and carry a default element. -/
def nodes [Inhabited T] (hd tl : Nat) (cs : List (Nat × T)) : List (Nat × T) :=
  (hd, default) :: (cs ++ [(tl, default)])

/-- The list object `this` is well formed in `w`: its sentinels are `hd` and
`tl`, its live cells are `cs` in order, `_size` is their number, the chain
`hd → cs → tl` is doubly linked with null outer links, all addresses are
distinct and allocated below the frontier. -/
structure Wf [Inhabited T] (w : World T) (this hd tl : Nat) (cs : List (Nat × T)) : Prop where
  obj : w.objs this = some ⟨some hd, some tl, cs.length⟩
  nodup : (addrs (nodes hd tl cs)).Nodup
  bound : ∀ a ∈ addrs (nodes hd tl cs), a < w.brk
  chain : DSeg w.cells none (nodes hd tl cs) none

/-- The list object `this` holds exactly the elements `xs`, in order. -/
def Repr [Inhabited T] (w : World T) (this : Nat) (xs : List T) : Prop :=
  ∃ hd tl cs, Wf w this hd tl cs ∧ cs.map Prod.snd = xs

/-- Two distinct list objects `a` and `b` hold `xs` and `ys` and share no
cell. -/
def Repr2 [Inhabited T] (w : World T) (a : Nat) (xs : List T) (b : Nat) (ys : List T) : Prop :=
  ∃ hd1 tl1 cs1 hd2 tl2 cs2, a ≠ b ∧ Wf w a hd1 tl1 cs1 ∧ Wf w b hd2 tl2 cs2 ∧
    cs1.map Prod.snd = xs ∧ cs2.map Prod.snd = ys ∧
    List.Disjoint (addrs (nodes hd1 tl1 cs1)) (addrs (nodes hd2 tl2 cs2))

/-- The world after `new Node(n)`. -/
def World.alloc (w : World T) (n : Node T) : World T :=
  { w with cells := Function.update w.cells w.brk (some n), brk := w.brk + 1 }

/-- What a call on the list `this` with cells `fp` may change between `w` and
`w2`: the frontier only grows, other list objects and all other allocated
cells stay as they are. -/
structure Frame (w w2 : World T) (this : Nat) (fp : List Nat) : Prop where
  brk_le : w.brk ≤ w2.brk
  objs_eq : ∀ o, o ≠ this → w2.objs o = w.objs o
  cells_eq : ∀ a, a ∉ fp → a < w.brk → w2.cells a = w.cells a

/-- A call on the well-formed list `this` took `w` to `w2`: the list is well
formed again, now with the cells `cs2`; nothing outside it was touched; and
every cell it has now is one it had before or a newly allocated one. -/
def Step [Inhabited T] (w w2 : World T) (this hd tl : Nat) (cs cs2 : List (Nat × T)) : Prop :=
  Wf w2 this hd tl cs2 ∧ Frame w w2 this (addrs (nodes hd tl cs)) ∧
    ∀ a ∈ addrs (nodes hd tl cs2), a ∈ addrs (nodes hd tl cs) ∨ w.brk ≤ a

/-- The `next` link of the node at `a`, when there is a node at `a`. -/
def nextOf (w : World T) (a : Nat) : Option Ptr := (w.cells a).map Node.next

/-- The `prev` link of the node at `a`, when there is a node at `a`. -/
def prevOf (w : World T) (a : Nat) : Option Ptr := (w.cells a).map Node.prev

/-- The representation invariant of the list object `this`, with `path` the
nodes strictly between the sentinels: (1) following `next` from `_head` leads
through `path` to `_tail`, which is not met earlier, and `path` has `_size`
nodes; (2) on every adjacent pair `a`, `b` of that chain `a.next == b` holds
exactly when `b.prev == a` does; (3) `_head->prev` and `_tail->next` are
null. -/
def RepInv (w : World T) (this : Nat) : Prop :=
  ∃ (l : LinkedList) (hd tl : Nat) (path : List Nat),
    w.objs this = some l ∧ l.head = some hd ∧ l.tail = some tl ∧
    (List.Chain' (fun a b => nextOf w a = some (some b)) (hd :: (path ++ [tl])) ∧
      tl ∉ hd :: path ∧ hd ∉ path ∧ path.length = l.size) ∧
    List.Chain' (fun a b => (nextOf w a = some (some b) ↔ prevOf w b = some (some a)))
      (hd :: (path ++ [tl])) ∧
    (prevOf w hd = some none ∧ nextOf w tl = some none)

end Shape

/-! ## Call sequences and sample states -/

section Scenarios
variable {T : Type}

/-- One call of `append(v)` or `prepend(v)`. -/
inductive Call (T : Type) where
  | append (v : T)
  | prepend (v : T)

/-- Perform the call on the list object `this`. -/
def Call.run (this : Nat) : Call T → M (World T) Unit
  | Call.append v => LinkedList.append this v
  | Call.prepend v => LinkedList.prepend this v

/-- Perform the calls one after the other. -/
def runCalls (this : Nat) : List (Call T) → M (World T) Unit
  | [] => pure ()
  | c :: rest => do
    Call.run this c
    runCalls this rest

/-- The sequence a call is meant to produce: an appended value goes to the
back, a prepended value to the front. -/
def Call.apply (xs : List T) : Call T → List T
  | Call.append v => xs ++ [v]
  | Call.prepend v => v :: xs

/-- The sequence a series of calls is meant to produce from `xs`. -/
def expected (xs : List T) (calls : List (Call T)) : List T :=
  calls.foldl Call.apply xs

/-- One call of `popFirst()` or `popLast()`. -/
inductive Pop where
  | first
  | last
deriving DecidableEq

/-- Perform the pop on the list object `this`. -/
def Pop.run (this : Nat) : Pop → M (World T) T
  | Pop.first => LinkedList.popFirst this
  | Pop.last => LinkedList.popLast this

/-- Perform the pops one after the other, collecting the returned values. -/
def runPops (this : Nat) : List Pop → M (World T) (List T)
  | [] => pure []
  | p :: rest => do
    let v ← Pop.run this p
    let vs ← runPops this rest
    pure (v :: vs)

/-- One mutating call on a list: `append(v)`, `prepend(v)`,
`insert(begin()+k, v)`, `popFirst()`, `popLast()`, `erase(begin()+k)`,
`erase(begin()+i, begin()+j)`, or the write `*(begin()+k) = v` through a
mutable iterator. -/
inductive Mut (T : Type) where
  | append (v : T)
  | prepend (v : T)
  | insert (k : Nat) (v : T)
  | popFirst
  | popLast
  | erase (k : Nat)
  | eraseRange (i j : Nat)
  | write (k : Nat) (v : T)

/-- Perform the mutating call on the list object `this`. -/
def Mut.run (this : Nat) : Mut T → M (World T) Unit
  | Mut.append v => LinkedList.append this v
  | Mut.prepend v => LinkedList.prepend this v
  | Mut.insert k v => do
    let b ← LinkedList.begin this
    let p ← ConstIterator.add b (k : Int)
    LinkedList.insert this p v
  | Mut.popFirst => do
    let _ ← LinkedList.popFirst (T := T) this
    pure ()
  | Mut.popLast => do
    let _ ← LinkedList.popLast (T := T) this
    pure ()
  | Mut.erase k => do
    let b ← LinkedList.begin (T := T) this
    let p ← ConstIterator.add (T := T) b (k : Int)
    LinkedList.erase this p
  | Mut.eraseRange i j => do
    let b ← LinkedList.begin (T := T) this
    let first ← ConstIterator.add (T := T) b (i : Int)
    let b2 ← LinkedList.begin (T := T) this
    let last ← ConstIterator.add (T := T) b2 (j : Int)
    LinkedList.eraseRange this first last
  | Mut.write k v => do
    let b ← LinkedList.begin (T := T) this
    let p ← ConstIterator.add (T := T) b (k : Int)
    Iterator.assign p v

/-- A range erase is called with its first iterator not after its last one;
the other calls have no such condition. -/
def Mut.ordered : Mut T → Prop
  | Mut.eraseRange i j => i ≤ j
  | _ => True

/-- Perform the mutating calls one after the other; a call that throws is
caught and the next call goes on from the state at the throw. The result is
`none` when a call runs into undefined behaviour or does not end. -/
def runMuts (this : Nat) : List (Mut T) → World T → Option (World T)
  | [], w => some w
  | m :: rest, w =>
    match Mut.run this m w with
    | Res.ok _ w2 => runMuts this rest w2
    | Res.throw _ w2 => runMuts this rest w2
    | Res.ub => none
    | Res.diverge => none

/-- One call on the list object `this` in the presence of another list `src`:
a mutating call, or the copy assignment `this = src`. -/
inductive Op (T : Type) where
  | call (m : Mut T)
  | copyFrom

/-- Perform the call. -/
def Op.run (this src : Nat) : Op T → M (World T) Unit
  | Op.call m => Mut.run this m
  | Op.copyFrom => LinkedList.copyAssign this src

/-- A range erase is called with its first iterator not after its last one. -/
def Op.ordered : Op T → Prop
  | Op.call m => m.ordered
  | Op.copyFrom => True

/-- Perform the calls one after the other, catching what they throw, as
`runMuts` does. -/
def runOps (this src : Nat) : List (Op T) → World T → Option (World T)
  | [], w => some w
  | o :: rest, w =>
    match Op.run this src o w with
    | Res.ok _ w2 => runOps this src rest w2
    | Res.throw _ w2 => runOps this src rest w2
    | Res.ub => none
    | Res.diverge => none

/-- A sample state: the list object `0` holds `[10, 20]`; its sentinels are
the cells `0` and `1`, its live cells `2` and `3`. -/
def demo : World Nat where
  cells := fun a =>
    if a = 0 then some ⟨default, some 2, none⟩
    else if a = 1 then some ⟨default, none, some 3⟩
    else if a = 2 then some ⟨10, some 3, some 0⟩
    else if a = 3 then some ⟨20, some 1, some 2⟩
    else none
  brk := 4
  objs := fun o => if o = 0 then some ⟨some 0, some 1, 2⟩ else none

/-- A second sample state: beside the list object `0` holding `[10, 20]` as
in `demo`, the list object `1` holds `[30]` in cell `6`, between the sentinels
`4` and `5`. -/
def demo2 : World Nat where
  cells := fun a =>
    if a = 0 then some ⟨default, some 2, none⟩
    else if a = 1 then some ⟨default, none, some 3⟩
    else if a = 2 then some ⟨10, some 3, some 0⟩
    else if a = 3 then some ⟨20, some 1, some 2⟩
    else if a = 4 then some ⟨default, some 6, none⟩
    else if a = 5 then some ⟨default, none, some 6⟩
    else if a = 6 then some ⟨30, some 5, some 4⟩
    else none
  brk := 7
  objs := fun o =>
    if o = 0 then some ⟨some 0, some 1, 2⟩
    else if o = 1 then some ⟨some 4, some 5, 1⟩
    else none

end Scenarios

/-! ## Running the monad -/

section Run
variable {σ α β : Type}

@[simp] theorem bind_run (m : M σ α) (f : α → M σ β) (s : σ) :
    (m >>= f) s = M.bind m f s := rfl

@[simp] theorem pure_run (a : α) (s : σ) : (pure a : M σ α) s = Res.ok a s := rfl

@[simp] theorem raise_run (e : Exc) (s : σ) : (raise e : M σ α) s = Res.throw e s := rfl

@[simp] theorem forever_run (s : σ) : (forever : M σ α) s = Res.diverge := rfl

theorem bind_ok {m : M σ α} {f : α → M σ β} {s s2 : σ} {a : α} (h : m s = Res.ok a s2) :
    M.bind m f s = f a s2 := by
  simp [M.bind, h]

theorem bind_throw {m : M σ α} {f : α → M σ β} {s s2 : σ} {e : Exc}
    (h : m s = Res.throw e s2) : M.bind m f s = Res.throw e s2 := by
  simp [M.bind, h]

end Run

section SegLemmas
variable {T : Type}

@[simp] theorem headPtr_nil (n : Ptr) : headPtr ([] : List (Nat × T)) n = n := rfl

@[simp] theorem headPtr_cons (x : Nat × T) (l : List (Nat × T)) (n : Ptr) :
    headPtr (x :: l) n = some x.1 := rfl

@[simp] theorem lastPtr_nil (p : Ptr) : lastPtr p ([] : List (Nat × T)) = p := rfl

@[simp] theorem lastPtr_cons (p : Ptr) (x : Nat × T) (l : List (Nat × T)) :
    lastPtr p (x :: l) = lastPtr (some x.1) l := rfl

theorem headPtr_append (l1 l2 : List (Nat × T)) (n : Ptr) :
    headPtr (l1 ++ l2) n = headPtr l1 (headPtr l2 n) := by
  cases l1 <;> simp

theorem lastPtr_append (p : Ptr) (l1 l2 : List (Nat × T)) :
    lastPtr p (l1 ++ l2) = lastPtr (lastPtr p l1) l2 := by
  induction l1 generalizing p with
  | nil => simp
  | cons x l ih => simp [ih]

@[simp] theorem lastPtr_concat (p : Ptr) (l : List (Nat × T)) (x : Nat × T) :
    lastPtr p (l ++ [x]) = some x.1 := by
  simp [lastPtr_append]

@[simp] theorem DSeg_nil (c : Nat → Option (Node T)) (p n : Ptr) : DSeg c p [] n := trivial

theorem DSeg_cons (c : Nat → Option (Node T)) (p n : Ptr) (x : Nat × T) (l : List (Nat × T)) :
    DSeg c p (x :: l) n ↔
      c x.1 = some ⟨x.2, headPtr l n, p⟩ ∧ DSeg c (some x.1) l n := Iff.rfl

theorem DSeg_append (c : Nat → Option (Node T)) (p n : Ptr) (l1 l2 : List (Nat × T)) :
    DSeg c p (l1 ++ l2) n ↔
      DSeg c p l1 (headPtr l2 n) ∧ DSeg c (lastPtr p l1) l2 n := by
  induction l1 generalizing p with
  | nil => simp
  | cons x l ih =>
    simp only [List.cons_append, DSeg_cons, ih, headPtr_append, lastPtr_cons]
    tauto

theorem DSeg_congr {c c2 : Nat → Option (Node T)} {p n : Ptr} {l : List (Nat × T)}
    (h : ∀ a ∈ l.map Prod.fst, c2 a = c a) (hs : DSeg c p l n) : DSeg c2 p l n := by
  induction l generalizing p with
  | nil => trivial
  | cons x l ih =>
    rw [DSeg_cons] at hs ⊢
    refine ⟨?_, ih (fun a ha => h a (by simp at ha ⊢; exact Or.inr ha)) hs.2⟩
    rw [h x.1 (by simp)]
    exact hs.1

/-- The cell in the middle of a segment. -/
theorem DSeg_mid {c : Nat → Option (Node T)} {p n : Ptr} (l1 : List (Nat × T))
    (x : Nat × T) (l2 : List (Nat × T)) (hs : DSeg c p (l1 ++ x :: l2) n) :
    c x.1 = some ⟨x.2, headPtr l2 n, lastPtr p l1⟩ :=
  ((DSeg_append c p n l1 (x :: l2)).1 hs).2.1

theorem lastPtr_mem (p : Ptr) {l : List (Nat × T)} (h : l ≠ []) :
    ∃ x ∈ l, lastPtr p l = some x.1 := by
  induction l generalizing p with
  | nil => exact absurd rfl h
  | cons x l ih =>
    by_cases hl : l = []
    · subst hl
      exact ⟨x, by simp, rfl⟩
    · obtain ⟨y, hy, e⟩ := ih (some x.1) hl
      exact ⟨y, List.mem_cons_of_mem _ hy, by simpa using e⟩

theorem headPtr_mem (n : Ptr) {l : List (Nat × T)} (h : l ≠ []) :
    ∃ x rest, l = x :: rest ∧ headPtr l n = some x.1 := by
  cases l with
  | nil => exact absurd rfl h
  | cons x rest => exact ⟨x, rest, rfl, rfl⟩

/-- Redirecting the forward link of the last cell of a segment. -/
theorem DSeg_relink_last {c c2 : Nat → Option (Node T)} {p n n2 : Ptr} {l1 : List (Nat × T)}
    {l : Nat} {nl : Node T}
    (hs : DSeg c p l1 n) (hnd : (l1.map Prod.fst).Nodup) (hne : l1 ≠ [])
    (hlast : lastPtr p l1 = some l) (hl : c l = some nl)
    (hl2 : c2 l = some { nl with next := n2 })
    (hothers : ∀ a ∈ l1.map Prod.fst, a ≠ l → c2 a = c a) : DSeg c2 p l1 n2 := by
  induction l1 generalizing p with
  | nil => exact absurd rfl hne
  | cons x rest ih =>
    rw [DSeg_cons] at hs ⊢
    by_cases hr : rest = []
    · subst hr
      simp only [lastPtr_cons, lastPtr_nil, Option.some.injEq] at hlast
      subst hlast
      rw [hs.1] at hl
      cases hl
      exact ⟨by simpa using hl2, trivial⟩
    · simp only [List.map_cons, List.nodup_cons] at hnd
      obtain ⟨y, hy, e⟩ := lastPtr_mem (some x.1) hr
      have hly : l = y.1 := by
        rw [lastPtr_cons, e] at hlast
        exact (Option.some.inj hlast).symm
      have hxl : x.1 ≠ l := by
        intro hx
        apply hnd.1
        rw [hx, hly]
        exact List.mem_map_of_mem _ hy
      refine ⟨?_, ih hs.2 hnd.2 hr (by simpa using hlast)
        (fun a ha hal => hothers a (by simp at ha ⊢; exact Or.inr ha) hal)⟩
      rw [hothers x.1 (by simp) hxl, hs.1]
      obtain ⟨z, rest2, hz, _⟩ := headPtr_mem n hr
      subst hz
      rfl

/-- Redirecting the backward link of the first cell of a segment. -/
theorem DSeg_relink_first {c c2 : Nat → Option (Node T)} {p p2 n : Ptr} {l2 : List (Nat × T)}
    {r : Nat} {nr : Node T}
    (hs : DSeg c p l2 n) (hnd : (l2.map Prod.fst).Nodup) (hne : l2 ≠ [])
    (hfirst : headPtr l2 n = some r) (hr : c r = some nr)
    (hr2 : c2 r = some { nr with prev := p2 })
    (hothers : ∀ a ∈ l2.map Prod.fst, a ≠ r → c2 a = c a) : DSeg c2 p2 l2 n := by
  cases l2 with
  | nil => exact absurd rfl hne
  | cons x rest =>
    rw [DSeg_cons] at hs ⊢
    simp only [headPtr_cons, Option.some.injEq] at hfirst
    subst hfirst
    simp only [List.map_cons, List.nodup_cons] at hnd
    rw [hs.1] at hr
    cases hr
    refine ⟨by simpa using hr2, DSeg_congr (fun a ha => ?_) hs.2⟩
    apply hothers a (by simp at ha ⊢; exact Or.inr ha)
    rintro rfl
    exact hnd.1 ha

/-- Linking a new cell `b` between the two halves of a segment. -/
theorem DSeg_link {c c2 : Nat → Option (Node T)} {p n : Ptr} {l1 l2 : List (Nat × T)}
    {b l r : Nat} {v : T} {nl nr : Node T}
    (hs : DSeg c p (l1 ++ l2) n) (hnd : ((l1 ++ l2).map Prod.fst).Nodup)
    (h1 : l1 ≠ []) (h2 : l2 ≠ [])
    (hlast : lastPtr p l1 = some l) (hfirst : headPtr l2 n = some r)
    (hl : c l = some nl) (hr : c r = some nr)
    (hb2 : c2 b = some ⟨v, some r, some l⟩)
    (hl2 : c2 l = some { nl with next := some b })
    (hr2 : c2 r = some { nr with prev := some b })
    (hothers : ∀ a, a ≠ b → a ≠ l → a ≠ r → c2 a = c a)
    (hfresh : b ∉ (l1 ++ l2).map Prod.fst) :
    DSeg c2 p (l1 ++ (b, v) :: l2) n := by
  rw [DSeg_append] at hs ⊢
  simp only [List.map_append, List.nodup_append, List.mem_append, not_or] at hnd hfresh
  obtain ⟨y, hy, ey⟩ := lastPtr_mem p h1
  obtain ⟨z, rest, hz, ez⟩ := headPtr_mem n h2
  have hly : l = y.1 := by rw [ey] at hlast; exact (Option.some.inj hlast).symm
  have hrz : r = z.1 := by rw [ez] at hfirst; exact (Option.some.inj hfirst).symm
  have hlmem : l ∈ l1.map Prod.fst := by rw [hly]; exact List.mem_map_of_mem _ hy
  have hrmem : r ∈ l2.map Prod.fst := by rw [hrz, hz]; simp
  refine ⟨?_, ?_⟩
  · refine DSeg_relink_last hs.1 hnd.1 h1 hlast hl (by simpa using hl2) (fun a ha hal => ?_)
    apply hothers a _ hal
    · rintro rfl
      exact hnd.2.2 ha hrmem
    · rintro rfl
      exact hfresh.1 ha
  · rw [DSeg_cons]
    refine ⟨by simpa [hfirst, hlast] using hb2, ?_⟩
    refine DSeg_relink_first hs.2 hnd.2.1 h2 hfirst hr (by simpa using hr2) (fun a ha har => ?_)
    apply hothers a _ _ har
    · rintro rfl
      exact hfresh.2 ha
    · rintro rfl
      exact hnd.2.2 hlmem ha

/-- Cutting the middle part out of a segment. -/
theorem DSeg_unlink {c c2 : Nat → Option (Node T)} {p n : Ptr} {l1 mid l2 : List (Nat × T)}
    {l r : Nat} {nl nr : Node T}
    (hs : DSeg c p (l1 ++ (mid ++ l2)) n) (hnd : ((l1 ++ (mid ++ l2)).map Prod.fst).Nodup)
    (h1 : l1 ≠ []) (h2 : l2 ≠ [])
    (hlast : lastPtr p l1 = some l) (hfirst : headPtr l2 n = some r)
    (hl : c l = some nl) (hr : c r = some nr)
    (hl2 : c2 l = some { nl with next := some r })
    (hr2 : c2 r = some { nr with prev := some l })
    (hothers : ∀ a, a ∉ mid.map Prod.fst → a ≠ l → a ≠ r → c2 a = c a) :
    DSeg c2 p (l1 ++ l2) n := by
  rw [DSeg_append, DSeg_append] at hs
  rw [DSeg_append]
  simp only [List.map_append, List.nodup_append, List.mem_append, not_or] at hnd
  obtain ⟨hnd1, ⟨hndm, hnd2, hm2⟩, h1m2⟩ := hnd
  obtain ⟨y, hy, ey⟩ := lastPtr_mem p h1
  obtain ⟨z, rest, hz, ez⟩ := headPtr_mem n h2
  have hly : l = y.1 := by rw [ey] at hlast; exact (Option.some.inj hlast).symm
  have hrz : r = z.1 := by rw [ez] at hfirst; exact (Option.some.inj hfirst).symm
  have hlmem : l ∈ l1.map Prod.fst := by rw [hly]; exact List.mem_map_of_mem _ hy
  have hrmem : r ∈ l2.map Prod.fst := by rw [hrz, hz]; simp
  refine ⟨?_, ?_⟩
  · rw [hfirst]
    refine DSeg_relink_last hs.1 hnd1 h1 hlast hl hl2 (fun a ha hal => ?_)
    apply hothers a _ hal
    · rintro rfl
      exact h1m2 ha (List.mem_append.2 (Or.inr hrmem))
    · intro hm
      exact h1m2 ha (List.mem_append.2 (Or.inl hm))
  · rw [hlast]
    refine DSeg_relink_first hs.2.2 hnd2 h2 hfirst hr hr2 (fun a ha har => ?_)
    apply hothers a _ _ har
    · intro hm
      exact hm2 hm ha
    · rintro rfl
      exact h1m2 hlmem (List.mem_append.2 (Or.inr ha))

end SegLemmas

section Prim
variable {T : Type}

theorem getCell_ok {w : World T} {a : Nat} {n : Node T} (h : w.cells a = some n) :
    getCell (some a) w = Res.ok n w := by
  simp [getCell, h]

theorem getList_ok {w : World T} {this : Nat} {l : LinkedList} (h : w.objs this = some l) :
    getList this w = Res.ok l w := by
  simp [getList, h]

theorem insertInBetween_run (w : World T) (b l r : Nat) (nb nl nr : Node T)
    (hb : w.cells b = some nb) (hl : w.cells l = some nl) (hr : w.cells r = some nr)
    (hbl : b ≠ l) (hbr : b ≠ r) (hlr : l ≠ r) :
    ∃ w2, Node.insertInBetween (some b) (some l) (some r) w = Res.ok () w2 ∧
      w2.brk = w.brk ∧ w2.objs = w.objs ∧
      w2.cells b = some ⟨nb.elem, some r, some l⟩ ∧
      w2.cells l = some { nl with next := some b } ∧
      w2.cells r = some { nr with prev := some b } ∧
      ∀ a, a ≠ b → a ≠ l → a ≠ r → w2.cells a = w.cells a := by
  simp [Node.insertInBetween, M.bind, setNext, setPrev, putCell, hl, hb, hr, Function.update,
    hbl, hbr, hlr, Ne.symm hbl, Ne.symm hbr, Ne.symm hlr]
  intro a h1 h2 h3
  simp [h1, h2, h3]

theorem connectWith_run (w : World T) (l r : Nat) (nl nr : Node T)
    (hl : w.cells l = some nl) (hr : w.cells r = some nr) (hlr : l ≠ r) :
    ∃ w2, Node.connectWith (some l) (some r) w = Res.ok () w2 ∧
      w2.brk = w.brk ∧ w2.objs = w.objs ∧
      w2.cells l = some { nl with next := some r } ∧
      w2.cells r = some { nr with prev := some l } ∧
      ∀ a, a ≠ l → a ≠ r → w2.cells a = w.cells a := by
  simp [Node.connectWith, M.bind, setNext, setPrev, putCell, hl, hr, Function.update,
    hlr, Ne.symm hlr]
  intro a h1 h2
  simp [h1, h2]

theorem newNode_run (w : World T) (n : Node T) :
    newNode n w = Res.ok (some w.brk) (w.alloc n) := rfl

@[simp] theorem alloc_brk (w : World T) (n : Node T) : (w.alloc n).brk = w.brk + 1 := rfl

@[simp] theorem alloc_objs (w : World T) (n : Node T) : (w.alloc n).objs = w.objs := rfl

@[simp] theorem alloc_cells_self (w : World T) (n : Node T) :
    (w.alloc n).cells w.brk = some n := by
  simp [World.alloc]

theorem alloc_cells_of_lt (w : World T) (n : Node T) {a : Nat} (h : a < w.brk) :
    (w.alloc n).cells a = w.cells a := by
  simp [World.alloc, Function.update, h.ne]

theorem modifyList_ok {w : World T} {this : Nat} {l : LinkedList} (f : LinkedList → LinkedList)
    (h : w.objs this = some l) :
    modifyList this f w =
      Res.ok () { w with objs := Function.update w.objs this (some (f l)) } := by
  simp [modifyList, h]

theorem DSeg_mem {c : Nat → Option (Node T)} {p n : Ptr} {l : List (Nat × T)} {x : Nat × T}
    (hs : DSeg c p l n) (hx : x ∈ l) : ∃ nd, c x.1 = some nd ∧ nd.elem = x.2 := by
  obtain ⟨l1, l2, rfl⟩ := List.append_of_mem hx
  exact ⟨_, DSeg_mid _ _ _ hs, rfl⟩

theorem indexLoop_spec {w : World T} {tl : Nat} (pos : Int) :
    ∀ (cs : List (Nat × T)) (p : Ptr) (i fuel : Nat),
      DSeg w.cells p cs (some tl) → tl ∉ addrs cs → cs.length < fuel →
      LinkedList.indexLoop (some tl) pos fuel (headPtr cs (some tl)) i w =
        match (if (i : Int) ≤ pos then cs[(pos - i).toNat]? else none) with
        | some x => Res.ok x.2 w
        | none => Res.throw Exc.outOfRange w := by
  intro cs
  induction cs with
  | nil =>
    intro p i fuel _ _ hf
    obtain ⟨f, rfl⟩ : ∃ f, fuel = f + 1 := ⟨fuel - 1, by simp at hf; omega⟩
    simp [LinkedList.indexLoop]
  | cons x rest ih =>
    intro p i fuel hs htl hf
    obtain ⟨f, rfl⟩ : ∃ f, fuel = f + 1 := ⟨fuel - 1, by simp at hf; omega⟩
    rw [DSeg_cons] at hs
    have hx : x.1 ≠ tl := by
      intro e
      apply htl
      simp [addrs, ← e]
    have hrest : tl ∉ addrs rest := by
      intro e
      apply htl
      simp only [addrs, List.map_cons, List.mem_cons]
      exact Or.inr e
    simp only [LinkedList.indexLoop, headPtr_cons, ne_eq, Option.some.injEq, hx,
      not_false_eq_true, and_self, if_true, bind_run, bind_ok (getCell_ok hs.1), reduceCtorEq]
    by_cases hp : pos = (i : Int)
    · subst hp
      simp
    · simp only [hp, if_false]
      rw [ih (some x.1) (i + 1) f hs.2 hrest (by simp at hf; omega)]
      by_cases hlt : (i : Int) ≤ pos
      · have h1 : ((i + 1 : Nat) : Int) ≤ pos := by
          have : (i : Int) ≠ pos := fun e => hp e.symm
          omega
        have h2 : (pos - (i : Int)).toNat = (pos - ((i + 1 : Nat) : Int)).toNat + 1 := by omega
        simp only [hlt, h1, if_true, h2, List.getElem?_cons_succ]
      · have h1 : ¬ ((i + 1 : Nat) : Int) ≤ pos := by omega
        simp only [hlt, h1, if_false]

theorem expected_length (xs : List T) (calls : List (Call T)) :
    (expected xs calls).length = xs.length + calls.length := by
  induction calls generalizing xs with
  | nil => simp [expected]
  | cons c rest ih =>
    have := ih (Call.apply xs c)
    simp only [expected, List.foldl_cons, List.length_cons] at this ⊢
    rw [this]
    cases c <;> simp [Call.apply] <;> omega

theorem addLoop_spec {w : World T} {tl : Nat} :
    ∀ (k : Nat) (cs : List (Nat × T)) (p : Ptr),
      DSeg w.cells p cs (some tl) → k ≤ cs.length →
      ConstIterator.addLoop k (headPtr cs (some tl)) w =
        Res.ok (headPtr (cs.drop k) (some tl)) w := by
  intro k
  induction k with
  | zero =>
    intro cs p _ _
    simp [ConstIterator.addLoop]
  | succ k ih =>
    intro cs p hs hk
    cases cs with
    | nil => simp at hk
    | cons x rest =>
      rw [DSeg_cons] at hs
      have hnext : headPtr rest (some tl) ≠ none := by cases rest <;> simp
      simp only [ConstIterator.addLoop, headPtr_cons, reduceCtorEq, if_false, bind_run,
        bind_ok (getCell_ok hs.1), hnext, List.drop_succ_cons]
      exact ih rest (some x.1) hs.2 (by simpa using hk)

theorem disconnect_run (w : World T) (x l r : Nat) (e : T) (nl nr : Node T)
    (hx : w.cells x = some ⟨e, some r, some l⟩)
    (hl : w.cells l = some nl) (hr : w.cells r = some nr)
    (hxl : x ≠ l) (hxr : x ≠ r) (hlr : l ≠ r) :
    ∃ w2, Node.disconnect (some x) w = Res.ok () w2 ∧
      w2.brk = w.brk ∧ w2.objs = w.objs ∧
      w2.cells x = some ⟨e, none, none⟩ ∧
      w2.cells l = some { nl with next := some r } ∧
      w2.cells r = some { nr with prev := some l } ∧
      ∀ a, a ≠ x → a ≠ l → a ≠ r → w2.cells a = w.cells a := by
  simp [Node.disconnect, Node.connectWith, M.bind, getCell, setNext, setPrev, putCell, hx, hl,
    hr, Function.update, hxl, hxr, hlr, Ne.symm hxl, Ne.symm hxr, Ne.symm hlr]
  intro a h1 h2 h3
  simp [h1, h2, h3]

theorem deleteCell_ok {w : World T} {a : Nat} {n : Node T} (h : w.cells a = some n) :
    deleteCell (some a) w = Res.ok () ⟨Function.update w.cells a none, w.brk, w.objs⟩ := by
  simp [deleteCell, h]

theorem addrs_ne_of_nodup {l1 l2 : List (Nat × T)} (h : (addrs (l1 ++ l2)).Nodup)
    {a b : Nat × T} (ha : a ∈ l1) (hb : b ∈ l2) : a.1 ≠ b.1 := by
  rw [addrs, List.map_append, List.nodup_append] at h
  intro e
  exact h.2.2 (List.mem_map_of_mem _ ha) (e ▸ List.mem_map_of_mem _ hb)

theorem addrs_nodup_right {l1 l2 : List (Nat × T)} (h : (addrs (l1 ++ l2)).Nodup) :
    (addrs l2).Nodup := by
  rw [addrs, List.map_append, List.nodup_append] at h
  exact h.2.1

theorem disconnect_no_next {w : World T} {a : Nat} {e : T} {p : Ptr}
    (h : w.cells a = some ⟨e, none, p⟩) :
    Node.disconnect (some a) w = Res.throw Exc.outOfRange w := by
  simp only [Node.disconnect, bind_run, bind_ok (getCell_ok h), if_true, raise_run]

theorem deleteLoop_spec {r : Nat} :
    ∀ (mid : List (Nat × T)) (p : Ptr) (w : World T) (count fuel : Nat),
      DSeg w.cells p mid (some r) → (addrs mid).Nodup → r ∉ addrs mid → mid.length < fuel →
      ∃ w2, LinkedList.deleteLoop (some r) fuel (headPtr mid (some r)) count w =
          Res.ok (count + mid.length) w2 ∧
        w2.brk = w.brk ∧ w2.objs = w.objs ∧
        ∀ a, a ∉ addrs mid → w2.cells a = w.cells a := by
  intro mid
  induction mid with
  | nil =>
    intro p w count fuel _ _ _ hf
    obtain ⟨f, rfl⟩ : ∃ f, fuel = f + 1 := ⟨fuel - 1, by simp at hf; omega⟩
    exact ⟨w, by simp [LinkedList.deleteLoop], rfl, rfl, fun _ _ => rfl⟩
  | cons x rest ih =>
    intro p w count fuel hs hnd hr hf
    obtain ⟨f, rfl⟩ : ∃ f, fuel = f + 1 := ⟨fuel - 1, by simp at hf; omega⟩
    rw [DSeg_cons] at hs
    simp only [addrs, List.map_cons, List.nodup_cons, List.mem_cons, not_or] at hnd hr
    have hseg : DSeg (Function.update w.cells x.1 none) (some x.1) rest (some r) := by
      refine DSeg_congr (fun a ha => ?_) hs.2
      have : a ≠ x.1 := by
        rintro rfl
        exact hnd.1 ha
      simp [Function.update, this]
    obtain ⟨w2, hrun, hbrk, hobjs, hoth⟩ :=
      ih (some x.1) ⟨Function.update w.cells x.1 none, w.brk, w.objs⟩ (count + 1) f hseg hnd.2
        hr.2 (by simp at hf; omega)
    refine ⟨w2, ?_, hbrk, hobjs, fun a ha => ?_⟩
    · have hx : x.1 ≠ r := fun e => hr.1 e.symm
      simp only [LinkedList.deleteLoop, headPtr_cons, ne_eq, reduceCtorEq, not_false_eq_true,
        Option.some.injEq, hx, and_self, if_true, bind_run, bind_ok (getCell_ok hs.1),
        bind_ok (deleteCell_ok hs.1)]
      rw [hrun]
      simp only [List.length_cons]
      congr 1
      omega
    · simp only [addrs, List.map_cons, List.mem_cons, not_or] at ha
      rw [hoth a ha.2]
      simp [Function.update, ha.1]

theorem modifyList5_run {w : World T} {this other : Nat} {l o : LinkedList}
    (hne : this ≠ other) (hl : w.objs this = some l) (ho : w.objs other = some o) :
    (do
      modifyList (T := T) this (fun x => { x with head := o.head })
      modifyList (T := T) other (fun x => { x with head := l.head })
      modifyList (T := T) this (fun x => { x with tail := o.tail })
      modifyList (T := T) other (fun x => { x with tail := l.tail })
      modifyList (T := T) this (fun x => { x with size := o.size }) : M (World T) Unit) w =
    Res.ok () ⟨w.cells, w.brk,
      Function.update (Function.update w.objs other (some ⟨l.head, l.tail, o.size⟩)) this
        (some ⟨o.head, o.tail, o.size⟩)⟩ := by
  simp only [bind_run, M.bind, modifyList, hl, ho, Function.update, hne, Ne.symm hne, dite_true,
    dite_false, eq_rec_constant, Res.ok.injEq, true_and, World.mk.injEq, and_true]
  funext x
  by_cases h1 : x = this
  · subst h1
    simp [hne]
  · by_cases h2 : x = other
    · subst h2
      simp [Ne.symm hne]
    · simp [h1, h2]

theorem addLoop_throw {w : World T} {tl : Nat} {e : T} {q : Ptr}
    (htl : w.cells tl = some ⟨e, none, q⟩) :
    ∀ (cs : List (Nat × T)) (p : Ptr) (k : Nat),
      DSeg w.cells p cs (some tl) → cs.length < k →
      ConstIterator.addLoop k (headPtr cs (some tl)) w = Res.throw Exc.outOfRange w := by
  intro cs
  induction cs with
  | nil =>
    intro p k _ hk
    obtain ⟨j, rfl⟩ : ∃ j, k = j + 1 := ⟨k - 1, by simp at hk; omega⟩
    simp only [ConstIterator.addLoop, headPtr_nil, reduceCtorEq, if_false, bind_run,
      bind_ok (getCell_ok htl), if_true, raise_run]
  | cons x rest ih =>
    intro p k hs hk
    obtain ⟨j, rfl⟩ : ∃ j, k = j + 1 := ⟨k - 1, by simp at hk; omega⟩
    rw [DSeg_cons] at hs
    have hnext : headPtr rest (some tl) ≠ none := by cases rest <;> simp
    simp only [ConstIterator.addLoop, headPtr_cons, reduceCtorEq, if_false, bind_run,
      bind_ok (getCell_ok hs.1), hnext]
    exact ih (some x.1) j hs.2 (by simp at hk; omega)

theorem Frame.refl (w : World T) (this : Nat) (fp : List Nat) : Frame w w this fp :=
  ⟨le_refl _, fun _ _ => rfl, fun _ _ _ => rfl⟩

/-- Overwriting the element of a cell of a segment. -/
theorem DSeg_setElem {c c2 : Nat → Option (Node T)} {p n : Ptr} (l1 : List (Nat × T))
    (x : Nat × T) (l2 : List (Nat × T)) (v : T)
    (hs : DSeg c p (l1 ++ x :: l2) n) (hnd : (addrs (l1 ++ x :: l2)).Nodup)
    (hx : c2 x.1 = some ⟨v, headPtr l2 n, lastPtr p l1⟩)
    (hoth : ∀ a, a ≠ x.1 → c2 a = c a) :
    DSeg c2 p (l1 ++ (x.1, v) :: l2) n := by
  rw [DSeg_append, DSeg_cons] at hs ⊢
  refine ⟨DSeg_congr (fun a ha => hoth a ?_) hs.1, hx, DSeg_congr (fun a ha => hoth a ?_) hs.2.2⟩
  · rintro rfl
    obtain ⟨m, hm1, hm2⟩ := List.mem_map.1 ha
    exact addrs_ne_of_nodup hnd hm1 (List.mem_cons_self _ _) hm2
  · rintro rfl
    obtain ⟨m, hm1, hm2⟩ := List.mem_map.1 ha
    have hr : (addrs ([x] ++ l2)).Nodup := addrs_nodup_right hnd
    exact addrs_ne_of_nodup hr (List.mem_singleton.2 rfl) hm1 hm2.symm

theorem deref_ok {w : World T} {a : Nat} {n : Node T} (h : w.cells a = some n)
    (hn : n.next ≠ none) : ConstIterator.deref ⟨some a⟩ w = Res.ok n.elem w := by
  simp only [ConstIterator.deref, reduceCtorEq, if_false, bind_run, bind_ok (getCell_ok h), hn,
    pure_run]

theorem deref_no_next {w : World T} {a : Nat} {e : T} {p : Ptr}
    (h : w.cells a = some ⟨e, none, p⟩) :
    ConstIterator.deref ⟨some a⟩ w = Res.throw Exc.outOfRange w := by
  simp only [ConstIterator.deref, reduceCtorEq, if_false, bind_run, bind_ok (getCell_ok h),
    if_true, raise_run]

theorem split_range (cs : List (Nat × T)) (i j : Nat) (hij : i ≤ j) :
    cs.drop i = (cs.drop i).take (j - i) ++ cs.drop j := by
  conv_lhs => rw [← List.take_append_drop (j - i) (cs.drop i)]
  rw [List.drop_drop]
  congr 2
  omega

theorem preInc_ok {w : World T} {a : Nat} {n : Node T} (h : w.cells a = some n)
    (hn : n.next ≠ none) :
    withIter ⟨some a⟩ (ConstIterator.preInc (T := T)) w = Res.ok (⟨n.next⟩, ⟨n.next⟩) w := by
  simp [withIter, ConstIterator.preInc, M.bind, getItr, onWorld, getCell, h, hn, setItr]

theorem lastPtr_ne_none (a : Nat) (l : List (Nat × T)) : lastPtr (some a) l ≠ none := by
  induction l generalizing a with
  | nil => simp
  | cons x l ih => simpa using ih x.1

theorem lastPtr_take_succ (p q : Ptr) (cs : List (Nat × T)) (k : Nat) (hk : k < cs.length) :
    lastPtr p (cs.take (k + 1)) = headPtr (cs.drop k) q := by
  rw [List.drop_eq_getElem_cons hk, headPtr_cons, List.take_succ, lastPtr_append]
  simp [List.getElem?_eq_getElem hk]

theorem preInc_run_ok {w : World T} {a : Nat} {n : Node T} (h : w.cells a = some n)
    (hn : n.next ≠ none) :
    ConstIterator.preInc (⟨some a⟩, w) = Res.ok ⟨n.next⟩ (⟨n.next⟩, w) := by
  simp [ConstIterator.preInc, M.bind, getItr, onWorld, getCell, h, hn, setItr]

theorem postInc_run_ok {w : World T} {a : Nat} {n : Node T} (h : w.cells a = some n)
    (hn : n.next ≠ none) :
    ConstIterator.postInc (⟨some a⟩, w) = Res.ok ⟨some a⟩ (⟨n.next⟩, w) := by
  simp [ConstIterator.postInc, M.bind, getItr, onWorld, getCell, h, hn, setItr]

theorem preInc_run_end {w : World T} {a : Nat} {e : T} {p : Ptr}
    (h : w.cells a = some ⟨e, none, p⟩) :
    ConstIterator.preInc (⟨some a⟩, w) = Res.throw Exc.outOfRange (⟨some a⟩, w) := by
  simp [ConstIterator.preInc, M.bind, getItr, onWorld, getCell, h, raise]

theorem postInc_run_end {w : World T} {a : Nat} {e : T} {p : Ptr}
    (h : w.cells a = some ⟨e, none, p⟩) :
    ConstIterator.postInc (⟨some a⟩, w) = Res.throw Exc.outOfRange (⟨some a⟩, w) := by
  simp [ConstIterator.postInc, M.bind, getItr, onWorld, getCell, h, raise]

theorem preDec_run_ok {w : World T} {a b : Nat} {n m : Node T} (h : w.cells a = some n)
    (hp : n.prev = some b) (hb : w.cells b = some m) (hm : m.prev ≠ none) :
    ConstIterator.preDec (⟨some a⟩, w) = Res.ok ⟨some b⟩ (⟨some b⟩, w) := by
  simp [ConstIterator.preDec, M.bind, getItr, onWorld, getCell, h, hp, hb, hm, setItr]

theorem postDec_run_ok {w : World T} {a b : Nat} {n m : Node T} (h : w.cells a = some n)
    (hp : n.prev = some b) (hb : w.cells b = some m) (hm : m.prev ≠ none) :
    ConstIterator.postDec (⟨some a⟩, w) = Res.ok ⟨some a⟩ (⟨some b⟩, w) := by
  simp [ConstIterator.postDec, M.bind, getItr, onWorld, getCell, h, hp, hb, hm, setItr]

theorem preDec_run_first {w : World T} {a b : Nat} {n m : Node T} (h : w.cells a = some n)
    (hp : n.prev = some b) (hb : w.cells b = some m) (hm : m.prev = none) :
    ConstIterator.preDec (⟨some a⟩, w) = Res.throw Exc.outOfRange (⟨some a⟩, w) := by
  simp [ConstIterator.preDec, M.bind, getItr, onWorld, getCell, h, hp, hb, hm, raise]

theorem postDec_run_first {w : World T} {a b : Nat} {n m : Node T} (h : w.cells a = some n)
    (hp : n.prev = some b) (hb : w.cells b = some m) (hm : m.prev = none) :
    ConstIterator.postDec (⟨some a⟩, w) = Res.throw Exc.outOfRange (⟨some a⟩, w) := by
  simp [ConstIterator.postDec, M.bind, getItr, onWorld, getCell, h, hp, hb, hm, raise]

theorem subLoop_step {w : World T} {a b : Nat} {n m : Node T} (k : Nat)
    (h : w.cells a = some n) (hp : n.prev = some b) (hb : w.cells b = some m)
    (hm : m.prev ≠ none) :
    ConstIterator.subLoop (k + 1) (some a) w = ConstIterator.subLoop k (some b) w := by
  simp only [ConstIterator.subLoop, reduceCtorEq, if_false, bind_run, bind_ok (getCell_ok h), hp,
    bind_ok (getCell_ok hb), hm]

theorem subLoop_first {w : World T} {a b : Nat} {n m : Node T} (k : Nat)
    (h : w.cells a = some n) (hp : n.prev = some b) (hb : w.cells b = some m)
    (hm : m.prev = none) :
    ConstIterator.subLoop (k + 1) (some a) w = Res.throw Exc.outOfRange w := by
  simp only [ConstIterator.subLoop, reduceCtorEq, if_false, bind_run, bind_ok (getCell_ok h), hp,
    bind_ok (getCell_ok hb), hm, if_true, raise_run]


theorem mem_erase_split {α : Type} (cs : List α) (kp : Nat) (hp : kp < cs.length) {x : α}
    (hx : x ∈ cs) (hxne : x ≠ cs[kp]) : x ∈ cs.take kp ++ cs.drop (kp + 1) := by
  have hmem : x ∈ cs.take kp ++ cs[kp] :: cs.drop (kp + 1) := by
    rw [← List.drop_eq_getElem_cons hp, List.take_append_drop]
    exact hx
  rcases List.mem_append.1 hmem with hm | hm
  · exact List.mem_append.2 (Or.inl hm)
  · rcases List.mem_cons.1 hm with hm | hm
    · exact absurd hm hxne
    · exact List.mem_append.2 (Or.inr hm)

theorem mem_insert_split {α : Type} (cs : List α) (kp : Nat) (y : α) {x : α}
    (hx : x ∈ cs) : x ∈ cs.take kp ++ y :: cs.drop kp := by
  have hmem : x ∈ cs.take kp ++ cs.drop kp := by
    rw [List.take_append_drop]
    exact hx
  rcases List.mem_append.1 hmem with hm | hm
  · exact List.mem_append.2 (Or.inl hm)
  · exact List.mem_append.2 (Or.inr (List.mem_cons_of_mem _ hm))

/-- `operator[]` on an object whose `_head` is null. -/
theorem index_null_head {w : World T} {this : Nat} {t : Ptr} {n : Nat}
    (h : w.objs this = some ⟨none, t, n⟩) (pos : Int) :
    LinkedList.index this pos w = Res.throw Exc.runtimeError w := by
  simp only [LinkedList.index, bind_run, bind_ok (getList_ok h), if_true, raise_run]

/-- `operator[]` on an object whose head sentinel points straight at its tail
sentinel. -/
theorem index_empty_chain {w : World T} {this hd tl n : Nat} {e : T} {p : Ptr}
    (h : w.objs this = some ⟨some hd, some tl, n⟩) (hc : w.cells hd = some ⟨e, some tl, p⟩)
    (pos : Int) :
    LinkedList.index this pos w = Res.throw Exc.outOfRange w := by
  simp only [LinkedList.index, bind_run, bind_ok (getList_ok h), reduceCtorEq, if_false,
    bind_ok (getCell_ok hc)]
  simp [M.bind, rounds, LinkedList.indexLoop]

theorem getSize_of_obj {w : World T} {this : Nat} {l : LinkedList} (h : w.objs this = some l) :
    LinkedList.getSize this w = Res.ok l.size w := by
  simp only [LinkedList.getSize, bind_run, bind_ok (getList_ok h), pure_run]

theorem isEmpty_of_obj {w : World T} {this : Nat} {l : LinkedList} (h : w.objs this = some l) :
    LinkedList.isEmpty this w = Res.ok (decide (l.size = 0)) w := by
  simp only [LinkedList.isEmpty, bind_run, bind_ok (getList_ok h), pure_run]

/-- `disconnect` on a node that has a successor but no predecessor. -/
theorem disconnect_no_prev {w : World T} {a : Nat} {e : T} {nx : Nat}
    (h : w.cells a = some ⟨e, some nx, none⟩) :
    Node.disconnect (some a) w = Res.ub := by
  simp [Node.disconnect, M.bind, getCell, h, setPrev, setNext, putCell, Node.connectWith]

/-- In a doubly linked segment every adjacent pair is linked both ways. -/
theorem DSeg_chain {w : World T} {p n : Ptr} :
    ∀ (l : List (Nat × T)), DSeg w.cells p l n →
      List.Chain' (fun a b => nextOf w a = some (some b) ∧ prevOf w b = some (some a))
        (l.map Prod.fst) := by
  intro l
  induction l generalizing p with
  | nil => intro _; exact List.chain'_nil
  | cons x rest ih =>
    intro hs
    rw [DSeg_cons] at hs
    cases rest with
    | nil => exact List.chain'_singleton _
    | cons y rest2 =>
      have hy := hs.2
      rw [DSeg_cons] at hy
      simp only [List.map_cons, List.chain'_cons]
      refine ⟨⟨by simp [nextOf, hs.1], by simp [prevOf, hy.1]⟩, ?_⟩
      simpa using ih hs.2

end Prim

section WfLemmas
variable {T : Type} [Inhabited T]

theorem nodes_length (hd tl : Nat) (cs : List (Nat × T)) :
    (nodes hd tl cs).length = cs.length + 2 := by
  simp [nodes]

/-- The common tail of `append`, `prepend` and `insert`: the node `b` just
allocated is linked between the halves `l1` and `l2` of the chain and `_size`
is incremented. -/
theorem link_tail {w : World T} {this hd tl : Nat} {cs : List (Nat × T)}
    {l r : Nat} (v : T) (cs2 l1 l2 : List (Nat × T))
    (h : Wf w this hd tl cs) (hsplit : nodes hd tl cs = l1 ++ l2)
    (hsplit2 : nodes hd tl cs2 = l1 ++ (w.brk, v) :: l2)
    (h1 : l1 ≠ []) (h2 : l2 ≠ [])
    (hlast : lastPtr none l1 = some l) (hfirst : headPtr l2 none = some r) :
    ∃ w2, M.bind (Node.insertInBetween (some w.brk) (some l) (some r))
        (fun _ => modifyList this (fun l => { l with size := l.size + 1 }))
        (w.alloc ⟨v, none, none⟩) = Res.ok () w2 ∧
      Wf w2 this hd tl cs2 ∧ Frame w w2 this (addrs (nodes hd tl cs)) := by
  have hchain := h.chain
  have hnd := h.nodup
  have hbound := h.bound
  rw [hsplit] at hchain hnd hbound
  obtain ⟨y, hy, ey⟩ := lastPtr_mem none h1
  obtain ⟨z, rest, hz, ez⟩ := headPtr_mem none h2
  have hly : l = y.1 := by rw [ey] at hlast; exact (Option.some.inj hlast).symm
  have hrz : r = z.1 := by rw [ez] at hfirst; exact (Option.some.inj hfirst).symm
  have hlmem : l ∈ addrs l1 := by rw [hly]; exact List.mem_map_of_mem _ hy
  have hrmem : r ∈ addrs l2 := by rw [hrz, hz]; simp [addrs]
  have hlb : l < w.brk := hbound l (by simp [addrs] at hlmem ⊢; exact Or.inl hlmem)
  have hrb : r < w.brk := hbound r (by simp [addrs] at hrmem ⊢; exact Or.inr hrmem)
  obtain ⟨nl, hnl, _⟩ := DSeg_mem hchain (List.mem_append.2 (Or.inl hy))
  obtain ⟨nr, hnr, _⟩ := DSeg_mem hchain
    (List.mem_append.2 (Or.inr (by rw [hz]; exact List.mem_cons_self _ _)))
  rw [← hly] at hnl
  rw [← hrz] at hnr
  have hlr : l ≠ r := by
    rintro rfl
    simp only [addrs, List.map_append, List.nodup_append] at hnd
    exact hnd.2.2 hlmem hrmem
  have hfresh : w.brk ∉ (l1 ++ l2).map Prod.fst := fun hb => lt_irrefl _ (hbound _ hb)
  obtain ⟨w2, hrun, hbrk, hobjs, hcb, hcl, hcr, hoth⟩ :=
    insertInBetween_run (w.alloc ⟨v, none, none⟩)
      w.brk l r ⟨v, none, none⟩ nl nr (by simp)
      (by rw [alloc_cells_of_lt w _ hlb, hnl]) (by rw [alloc_cells_of_lt w _ hrb, hnr])
      hlb.ne' hrb.ne' hlr
  have hseg : DSeg w2.cells none (l1 ++ (w.brk, v) :: l2) none := by
    refine DSeg_link hchain hnd h1 h2 hlast hfirst hnl hnr hcb hcl hcr (fun a ha hal har => ?_)
      hfresh
    rw [hoth a ha hal har]
    simp [World.alloc, Function.update, ha]
  refine ⟨⟨w2.cells, w2.brk,
    Function.update w2.objs this (some ⟨some hd, some tl, cs.length + 1⟩)⟩, ?_, ?_, ?_⟩
  · rw [bind_ok hrun]
    exact modifyList_ok _ (by rw [hobjs]; exact h.obj)
  · have hlen : cs2.length = cs.length + 1 := by
      have e1 := congrArg List.length hsplit
      have e2 := congrArg List.length hsplit2
      simp only [nodes_length, List.length_append, List.length_cons] at e1 e2
      omega
    refine ⟨by simp [hlen], ?_, ?_, ?_⟩
    · rw [hsplit2]
      simp only [addrs, List.map_append, List.map_cons]
      rw [List.nodup_middle, List.nodup_cons, ← List.map_append]
      exact ⟨hfresh, hnd⟩
    · intro a ha
      rw [hsplit2] at ha
      simp only [addrs, List.map_append, List.map_cons, List.mem_append, List.mem_cons] at ha
      rw [hbrk]
      rcases ha with ha | rfl | ha
      · exact Nat.lt_succ_of_lt (hbound a (by simp [addrs]; exact Or.inl (by simpa using ha)))
      · exact Nat.lt_succ_self _
      · exact Nat.lt_succ_of_lt (hbound a (by simp [addrs]; exact Or.inr (by simpa using ha)))
    · rw [hsplit2]
      exact hseg
  · refine ⟨by simp [hbrk], fun o ho => by simp [Function.update, ho, hobjs], fun a ha hab => ?_⟩
    rw [hsplit] at ha
    have hal : a ≠ l := by
      rintro rfl
      exact ha (by simp [addrs] at hlmem ⊢; exact Or.inl hlmem)
    have har : a ≠ r := by
      rintro rfl
      exact ha (by simp [addrs] at hrmem ⊢; exact Or.inr hrmem)
    show w2.cells a = w.cells a
    rw [hoth a hab.ne hal har]
    exact alloc_cells_of_lt w _ hab

theorem nodes_split (hd tl : Nat) (cs : List (Nat × T)) (k : Nat) :
    nodes hd tl cs = ((hd, default) :: cs.take k) ++ (cs.drop k ++ [(tl, default)]) := by
  simp only [nodes, List.cons_append, ← List.append_assoc, List.take_append_drop]

/-- The head sentinel's cell. -/
theorem Wf.head_cell {w : World T} {this hd tl : Nat} {cs : List (Nat × T)}
    (h : Wf w this hd tl cs) :
    w.cells hd = some ⟨default, headPtr cs (some tl), none⟩ := by
  have := h.chain
  rw [nodes, DSeg_cons] at this
  simpa [headPtr_append] using this.1

/-- The tail sentinel's cell. -/
theorem Wf.tail_cell {w : World T} {this hd tl : Nat} {cs : List (Nat × T)}
    (h : Wf w this hd tl cs) :
    w.cells tl = some ⟨default, none, lastPtr (some hd) cs⟩ := by
  have := h.chain
  rw [nodes, ← List.cons_append] at this
  simpa using DSeg_mid _ _ _ this

/-- The cell at position `k` of the chain. -/
theorem Wf.cell_at {w : World T} {this hd tl : Nat} {cs : List (Nat × T)}
    (h : Wf w this hd tl cs) (k : Nat) (x : Nat × T) (rest : List (Nat × T))
    (hk : cs.drop k = x :: rest) :
    w.cells x.1 = some ⟨x.2, headPtr rest (some tl), lastPtr (some hd) (cs.take k)⟩ := by
  have := h.chain
  rw [nodes_split hd tl cs k, hk, List.cons_append] at this
  have e := DSeg_mid ((hd, default) :: cs.take k) x (rest ++ [(tl, default)]) this
  rw [headPtr_append] at e
  simpa using e

theorem append_spec {w : World T} {this hd tl : Nat} {cs : List (Nat × T)}
    (h : Wf w this hd tl cs) (v : T) :
    ∃ w2, LinkedList.append this v w = Res.ok () w2 ∧
      Wf w2 this hd tl (cs ++ [(w.brk, v)]) ∧ Frame w w2 this (addrs (nodes hd tl cs)) := by
  obtain ⟨y, hy, ey⟩ := lastPtr_mem (T := T) none (l := (hd, default) :: cs) (by simp)
  have htl := h.tail_cell
  have htlb : tl < w.brk := h.bound tl (by simp [addrs, nodes])
  obtain ⟨w2, hrun, hwf, hfr⟩ := link_tail (l := y.1) (r := tl) v
    (cs ++ [(w.brk, v)]) ((hd, default) :: cs) [(tl, default)] h
    (by simp [nodes]) (by simp [nodes]) (by simp) (by simp) ey rfl
  refine ⟨w2, ?_, hwf, hfr⟩
  have e1 : lastPtr (some hd) cs = some y.1 := by simpa using ey
  simp only [LinkedList.append, bind_run, bind_ok (newNode_run w _)]
  rw [bind_ok (getList_ok (w := w.alloc ⟨v, none, none⟩) h.obj)]
  simp only [bind_run]
  rw [bind_ok (getCell_ok (w := w.alloc ⟨v, none, none⟩) (n := ⟨default, none, some y.1⟩)
    (by rw [alloc_cells_of_lt w _ htlb, htl, e1]))]
  simp only [bind_run]
  exact hrun

theorem prepend_spec {w : World T} {this hd tl : Nat} {cs : List (Nat × T)}
    (h : Wf w this hd tl cs) (v : T) :
    ∃ w2, LinkedList.prepend this v w = Res.ok () w2 ∧
      Wf w2 this hd tl ((w.brk, v) :: cs) ∧ Frame w w2 this (addrs (nodes hd tl cs)) := by
  obtain ⟨z, rest, hz, ez⟩ := headPtr_mem (T := T) none (l := cs ++ [(tl, default)]) (by simp)
  have hhd := h.head_cell
  have hhdb : hd < w.brk := h.bound hd (by simp [addrs, nodes])
  obtain ⟨w2, hrun, hwf, hfr⟩ := link_tail (l := hd) (r := z.1) v
    ((w.brk, v) :: cs) [(hd, default)] (cs ++ [(tl, default)]) h
    (by simp [nodes]) (by simp [nodes]) (by simp) (by simp) rfl ez
  refine ⟨w2, ?_, hwf, hfr⟩
  have e1 : headPtr cs (some tl) = some z.1 := by simpa [headPtr_append] using ez
  simp only [LinkedList.prepend, bind_run, bind_ok (newNode_run w _)]
  rw [bind_ok (getList_ok (w := w.alloc ⟨v, none, none⟩) h.obj)]
  simp only [bind_run]
  rw [bind_ok (getCell_ok (w := w.alloc ⟨v, none, none⟩) (n := ⟨default, some z.1, none⟩)
    (by rw [alloc_cells_of_lt w _ hhdb, hhd, e1]))]
  simp only [bind_run]
  exact hrun

theorem construct_spec (w : World T) (this : Nat) :
    ∃ w2, LinkedList.construct this w = Res.ok () w2 ∧ Wf w2 this w.brk (w.brk + 1) [] ∧
      w2.brk = w.brk + 2 ∧ (∀ o, o ≠ this → w2.objs o = w.objs o) ∧
      (∀ a, a < w.brk → w2.cells a = w.cells a) := by
  refine ⟨_, by simp [LinkedList.construct, M.bind, newNode, setNext, setPrev, putCell,
    Function.update]; rfl, ⟨by simp, by simp [addrs, nodes], by simp [addrs, nodes]; omega, ?_⟩,
    rfl, fun o ho => by simp [Function.update, ho], fun a ha => ?_⟩
  · simp [nodes, DSeg_cons, Function.update]
  · have h1 : a ≠ w.brk := ha.ne
    have h2 : a ≠ w.brk + 1 := by omega
    simp [Function.update, h1, h2]

/-- A well-formed list has fewer cells than the frontier. -/
theorem Wf.length_lt {w : World T} {this hd tl : Nat} {cs : List (Nat × T)}
    (h : Wf w this hd tl cs) : cs.length + 2 ≤ w.brk := by
  have hsub : (addrs (nodes hd tl cs)).toFinset ⊆ Finset.range w.brk := by
    intro a ha
    simp only [List.mem_toFinset] at ha
    exact Finset.mem_range.2 (h.bound a ha)
  have hcard := Finset.card_le_card hsub
  rw [List.toFinset_card_of_nodup h.nodup, Finset.card_range] at hcard
  simpa [addrs, nodes] using hcard

theorem index_spec {w : World T} {this hd tl : Nat} {cs : List (Nat × T)}
    (h : Wf w this hd tl cs) (pos : Int) :
    LinkedList.index this pos w =
      match (if 0 ≤ pos then cs[pos.toNat]? else none) with
      | some x => Res.ok x.2 w
      | none => Res.throw Exc.outOfRange w := by
  have hseg : DSeg w.cells (some hd) cs (some tl) := by
    have := h.chain
    rw [nodes, DSeg_cons, DSeg_append] at this
    exact this.2.1
  have htl : tl ∉ addrs cs := by
    have := h.nodup
    simp only [nodes, addrs, List.map_cons, List.map_append, List.nodup_cons,
      List.nodup_append, List.mem_append, not_or] at this
    intro e
    exact this.2.2.2 e (by simp)
  have hlen := h.length_lt
  simp only [LinkedList.index, bind_run, bind_ok (getList_ok h.obj), reduceCtorEq, if_false,
    bind_ok (getCell_ok h.head_cell), rounds]
  have := indexLoop_spec (w := w) pos cs (some hd) 0 (w.brk + 1) hseg htl (by omega)
  simpa [M.bind] using this

theorem getSize_spec {w : World T} {this hd tl : Nat} {cs : List (Nat × T)}
    (h : Wf w this hd tl cs) : LinkedList.getSize this w = Res.ok cs.length w := by
  simp only [LinkedList.getSize, bind_run, bind_ok (getList_ok h.obj), pure_run]

theorem isEmpty_spec {w : World T} {this hd tl : Nat} {cs : List (Nat × T)}
    (h : Wf w this hd tl cs) :
    LinkedList.isEmpty this w = Res.ok (decide (cs.length = 0)) w := by
  simp only [LinkedList.isEmpty, bind_run, bind_ok (getList_ok h.obj), pure_run]

theorem begin_spec {w : World T} {this hd tl : Nat} {cs : List (Nat × T)}
    (h : Wf w this hd tl cs) :
    LinkedList.begin this w = Res.ok ⟨headPtr cs (some tl)⟩ w := by
  simp only [LinkedList.begin, bind_run, bind_ok (getList_ok h.obj),
    bind_ok (getCell_ok h.head_cell), pure_run]

theorem end_spec {w : World T} {this hd tl : Nat} {cs : List (Nat × T)}
    (h : Wf w this hd tl cs) :
    LinkedList.end this w = Res.ok ⟨some tl⟩ w := by
  simp only [LinkedList.end, bind_run, bind_ok (getList_ok h.obj), pure_run]

theorem Wf.live_seg {w : World T} {this hd tl : Nat} {cs : List (Nat × T)}
    (h : Wf w this hd tl cs) : DSeg w.cells (some hd) cs (some tl) := by
  have := h.chain
  rw [nodes, DSeg_cons, DSeg_append] at this
  exact this.2.1

/-- The iterator `begin() + k` for `k` up to the size: it is at the `k`-th
cell, or at the tail sentinel for `k = size`. -/
theorem begin_add_spec {w : World T} {this hd tl : Nat} {cs : List (Nat × T)}
    (h : Wf w this hd tl cs) (k : Nat) (hk : k ≤ cs.length) :
    ConstIterator.add ⟨headPtr cs (some tl)⟩ (k : Int) w =
      Res.ok ⟨headPtr (cs.drop k) (some tl)⟩ w := by
  simp only [bind_run, ConstIterator.add, Int.toNat_ofNat,
    bind_ok (addLoop_spec k cs (some hd) h.live_seg hk), pure_run]

theorem insert_spec {w : World T} {this hd tl : Nat} {cs : List (Nat × T)}
    (h : Wf w this hd tl cs) (k : Nat) (v : T) :
    ∃ w2, LinkedList.insert this ⟨headPtr (cs.drop k) (some tl)⟩ v w = Res.ok () w2 ∧
      Wf w2 this hd tl (cs.take k ++ (w.brk, v) :: cs.drop k) ∧
      Frame w w2 this (addrs (nodes hd tl cs)) := by
  obtain ⟨y, hy, ey⟩ := lastPtr_mem (T := T) none (l := (hd, default) :: cs.take k) (by simp)
  obtain ⟨z, rest, hz, ez⟩ :=
    headPtr_mem (T := T) none (l := cs.drop k ++ [(tl, default)]) (by simp)
  have hpos : headPtr (cs.drop k) (some tl) = some z.1 := by
    rw [← ez, headPtr_append]
    rfl
  have hchain := h.chain
  rw [nodes_split hd tl cs k, hz] at hchain
  have hcell := DSeg_mid _ _ _ hchain
  rw [ey] at hcell
  have hzb : z.1 < w.brk := by
    apply h.bound
    rw [nodes_split hd tl cs k, hz]
    simp [addrs]
  obtain ⟨w2, hrun, hwf, hfr⟩ := link_tail (l := y.1) (r := z.1) v
    (cs.take k ++ (w.brk, v) :: cs.drop k) ((hd, default) :: cs.take k)
    (cs.drop k ++ [(tl, default)]) h (nodes_split hd tl cs k) (by simp [nodes])
    (by simp) (by simp) ey ez
  refine ⟨w2, ?_, hwf, hfr⟩
  simp only [LinkedList.insert, ConstIterator.node, hpos, bind_run, bind_ok (newNode_run w _)]
  rw [bind_ok (getCell_ok (w := w.alloc ⟨v, none, none⟩)
    (by rw [alloc_cells_of_lt w _ hzb, hcell]))]
  exact hrun

theorem insert_end_eq_append {w : World T} {this hd tl : Nat} {cs : List (Nat × T)}
    (h : Wf w this hd tl cs) (v : T) :
    (do let e ← LinkedList.end this; LinkedList.insert this e v : M (World T) Unit) w =
      LinkedList.append this v w := by
  have htlb : tl < w.brk := h.bound tl (by simp [addrs, nodes])
  have hcell : (w.alloc ⟨v, none, none⟩).cells tl = some ⟨default, none, lastPtr (some hd) cs⟩ := by
    rw [alloc_cells_of_lt w _ htlb, h.tail_cell]
  simp only [bind_run, bind_ok (end_spec h), LinkedList.insert, ConstIterator.node,
    LinkedList.append, bind_ok (newNode_run w _), bind_ok (getCell_ok hcell)]
  rw [bind_ok (getList_ok (w := w.alloc ⟨v, none, none⟩) h.obj)]
  simp only [bind_run, bind_ok (getCell_ok hcell)]

/-- The effect of cutting the cells `mid` out of the chain, given the state
`w2` reached after relinking their neighbours and updating `_size`. -/
theorem unlink_tail {w : World T} (w2 : World T) {this hd tl : Nat} {cs : List (Nat × T)}
    {l r : Nat} {nl nr : Node T} (cs2 l1 mid l2 : List (Nat × T))
    (h : Wf w this hd tl cs) (hsplit : nodes hd tl cs = l1 ++ (mid ++ l2))
    (hsplit2 : nodes hd tl cs2 = l1 ++ l2) (h1 : l1 ≠ []) (h2 : l2 ≠ [])
    (hlast : lastPtr none l1 = some l) (hfirst : headPtr l2 none = some r)
    (hl : w.cells l = some nl) (hr : w.cells r = some nr)
    (hbrk : w2.brk = w.brk)
    (hobjs : w2.objs = Function.update w.objs this (some ⟨some hd, some tl, cs2.length⟩))
    (hl2 : w2.cells l = some { nl with next := some r })
    (hr2 : w2.cells r = some { nr with prev := some l })
    (hoth : ∀ a, a ∉ addrs mid → a ≠ l → a ≠ r → w2.cells a = w.cells a) :
    Wf w2 this hd tl cs2 ∧ Frame w w2 this (addrs (nodes hd tl cs)) := by
  have hchain := h.chain
  have hnd := h.nodup
  have hbound := h.bound
  rw [hsplit] at hchain hnd hbound
  have hsub : (l1 ++ l2).Sublist (l1 ++ (mid ++ l2)) :=
    List.Sublist.append_left (List.sublist_append_right mid l2) l1
  obtain ⟨y, hy, ey⟩ := lastPtr_mem none h1
  obtain ⟨z, rest, hz, ez⟩ := headPtr_mem none h2
  have hly : l = y.1 := by rw [ey] at hlast; exact (Option.some.inj hlast).symm
  have hrz : r = z.1 := by rw [ez] at hfirst; exact (Option.some.inj hfirst).symm
  have hlmem : l ∈ addrs (l1 ++ (mid ++ l2)) := by
    rw [hly]
    exact List.mem_map_of_mem _ (List.mem_append.2 (Or.inl hy))
  have hrmem : r ∈ addrs (l1 ++ (mid ++ l2)) := by
    rw [hrz]
    refine List.mem_map_of_mem _ (List.mem_append.2 (Or.inr (List.mem_append.2 (Or.inr ?_))))
    rw [hz]
    exact List.mem_cons_self _ _
  refine ⟨⟨by rw [hobjs]; simp, ?_, ?_, ?_⟩, ?_⟩
  · rw [hsplit2]
    exact hnd.sublist (hsub.map _)
  · intro a ha
    rw [hsplit2] at ha
    rw [hbrk]
    exact hbound a ((hsub.map _).subset ha)
  · rw [hsplit2]
    exact DSeg_unlink hchain hnd h1 h2 hlast hfirst hl hr hl2 hr2 hoth
  · refine ⟨by rw [hbrk], fun o ho => by rw [hobjs]; simp [Function.update, ho],
      fun a ha _ => ?_⟩
    rw [hsplit] at ha
    apply hoth a
    · intro hm
      apply ha
      simp only [addrs, List.map_append, List.mem_append] at hm ⊢
      exact Or.inr (Or.inl hm)
    · rintro rfl
      exact ha hlmem
    · rintro rfl
      exact ha hrmem

/-- The common part of `popFirst`, `popLast` and `erase(pos)`: disconnect the
live cell `x`, delete it, decrement `_size`. -/
theorem remove_spec {w : World T} {this hd tl : Nat} {cs : List (Nat × T)}
    (pre : List (Nat × T)) (x : Nat × T) (post : List (Nat × T))
    (h : Wf w this hd tl cs) (hcs : cs = pre ++ x :: post) :
    ∃ w1 w2 w3, Node.disconnect (some x.1) w = Res.ok () w1 ∧
      deleteCell (some x.1) w1 = Res.ok () w2 ∧
      modifyList this (fun l => { l with size := l.size - 1 }) w2 = Res.ok () w3 ∧
      Wf w3 this hd tl (pre ++ post) ∧ Frame w w3 this (addrs (nodes hd tl cs)) := by
  subst hcs
  have hsplit : nodes hd tl (pre ++ x :: post) =
      ((hd, default) :: pre) ++ ([x] ++ (post ++ [(tl, default)])) := by
    simp [nodes]
  obtain ⟨y, hy, ey⟩ := lastPtr_mem (T := T) none (l := (hd, default) :: pre) (by simp)
  obtain ⟨z, rest, hz, ez⟩ :=
    headPtr_mem (T := T) none (l := post ++ [(tl, default)]) (by simp)
  have hchain := h.chain
  have hnd := h.nodup
  rw [hsplit] at hchain hnd
  have hx : w.cells x.1 = some ⟨x.2, some z.1, some y.1⟩ := by
    have := DSeg_mid ((hd, default) :: pre) x (post ++ [(tl, default)]) hchain
    rw [ey, ez] at this
    exact this
  obtain ⟨nl, hnl, _⟩ := DSeg_mem hchain (List.mem_append.2 (Or.inl hy))
  obtain ⟨nr, hnr, _⟩ := DSeg_mem hchain (x := z) (by rw [hz]; simp)
  have hzl2 : z ∈ post ++ [(tl, default)] := by rw [hz]; exact List.mem_cons_self _ _
  have hxl : x.1 ≠ y.1 :=
    (addrs_ne_of_nodup hnd hy (List.mem_append.2 (Or.inl (List.mem_singleton.2 rfl)))).symm
  have hxr : x.1 ≠ z.1 :=
    addrs_ne_of_nodup (addrs_nodup_right hnd) (List.mem_singleton.2 rfl) hzl2
  have hlr : y.1 ≠ z.1 :=
    addrs_ne_of_nodup hnd hy (List.mem_append.2 (Or.inr hzl2))
  obtain ⟨w1, hrun, hbrk, hobjs, hcx, hcl, hcr, hoth⟩ :=
    disconnect_run w x.1 y.1 z.1 x.2 nl nr hx hnl hnr hxl hxr hlr
  have hobj1 : w1.objs this = some ⟨some hd, some tl, (pre ++ x :: post).length⟩ := by
    rw [hobjs]
    exact h.obj
  refine ⟨w1, _, _, hrun, deleteCell_ok hcx, modifyList_ok _ hobj1, ?_⟩
  refine unlink_tail _ (pre ++ post) ((hd, default) :: pre) [x] (post ++ [(tl, default)]) h hsplit
    (by simp [nodes]) (by simp) (by simp) ey ez hnl hnr hbrk ?_ ?_ ?_ ?_
  · simp [hobjs]
  · simp [Function.update, Ne.symm hxl, hcl]
  · simp [Function.update, Ne.symm hxr, hcr]
  · intro a ha hal har
    have hax : a ≠ x.1 := by simpa [addrs] using ha
    simp [Function.update, hax, hoth a hax hal har]

theorem erase_spec {w : World T} {this hd tl : Nat} {cs : List (Nat × T)}
    (pre : List (Nat × T)) (x : Nat × T) (post : List (Nat × T))
    (h : Wf w this hd tl cs) (hcs : cs = pre ++ x :: post) :
    ∃ w2, LinkedList.erase this ⟨some x.1⟩ w = Res.ok () w2 ∧
      Wf w2 this hd tl (pre ++ post) ∧ Frame w w2 this (addrs (nodes hd tl cs)) := by
  obtain ⟨w1, w2, w3, h1, h2, h3, hwf, hfr⟩ := remove_spec pre x post h hcs
  refine ⟨w3, ?_, hwf, hfr⟩
  have hne : cs.length ≠ 0 := by simp [hcs]
  simp only [LinkedList.erase, ConstIterator.node, bind_run, bind_ok (getList_ok h.obj), hne,
    if_false, bind_ok h1, bind_ok h2]
  exact h3

theorem erase_empty {w : World T} {this hd tl : Nat} (h : Wf w this hd tl [])
    (pos : ConstIterator) :
    LinkedList.erase this pos w = Res.throw Exc.outOfRange w := by
  simp only [LinkedList.erase, bind_run, bind_ok (getList_ok h.obj), List.length_nil, if_true,
    raise_run]

theorem erase_end {w : World T} {this hd tl : Nat} {cs : List (Nat × T)}
    (h : Wf w this hd tl cs) (hne : cs ≠ []) :
    LinkedList.erase this ⟨some tl⟩ w = Res.throw Exc.outOfRange w := by
  have hlen : cs.length ≠ 0 := by simpa using hne
  simp only [LinkedList.erase, ConstIterator.node, bind_run, bind_ok (getList_ok h.obj), hlen,
    if_false, bind_throw (disconnect_no_next h.tail_cell)]

theorem popFirst_spec {w : World T} {this hd tl : Nat} {cs : List (Nat × T)}
    (x : Nat × T) (post : List (Nat × T)) (h : Wf w this hd tl cs) (hcs : cs = x :: post) :
    ∃ w2, LinkedList.popFirst this w = Res.ok x.2 w2 ∧
      Wf w2 this hd tl post ∧ Frame w w2 this (addrs (nodes hd tl cs)) := by
  obtain ⟨w1, w2, w3, h1, h2, h3, hwf, hfr⟩ := remove_spec [] x post h hcs
  refine ⟨w3, ?_, hwf, hfr⟩
  have hne : cs.length ≠ 0 := by simp [hcs]
  have hhd : w.cells hd = some ⟨default, some x.1, none⟩ := by
    rw [h.head_cell, hcs]
    rfl
  have hx : w.cells x.1 = some ⟨x.2, headPtr post (some tl), lastPtr (some hd) (cs.take 0)⟩ :=
    h.cell_at 0 x post (by simpa using hcs)
  simp only [LinkedList.popFirst, bind_run, bind_ok (getList_ok h.obj), hne, if_false,
    bind_ok (getCell_ok hhd), bind_ok (getCell_ok hx), bind_ok h1, bind_ok h2, bind_ok h3,
    pure_run]

theorem popLast_spec {w : World T} {this hd tl : Nat} {cs : List (Nat × T)}
    (pre : List (Nat × T)) (x : Nat × T) (h : Wf w this hd tl cs) (hcs : cs = pre ++ [x]) :
    ∃ w2, LinkedList.popLast this w = Res.ok x.2 w2 ∧
      Wf w2 this hd tl pre ∧ Frame w w2 this (addrs (nodes hd tl cs)) := by
  obtain ⟨w1, w2, w3, h1, h2, h3, hwf, hfr⟩ := remove_spec pre x [] h hcs
  refine ⟨w3, ?_, by simpa using hwf, hfr⟩
  have hne : cs.length ≠ 0 := by simp [hcs]
  have htl : w.cells tl = some ⟨default, none, some x.1⟩ := by
    rw [h.tail_cell, hcs]
    simp
  have hx : w.cells x.1 =
      some ⟨x.2, headPtr [] (some tl), lastPtr (some hd) (cs.take pre.length)⟩ :=
    h.cell_at pre.length x [] (by simp [hcs])
  simp only [LinkedList.popLast, bind_run, bind_ok (getList_ok h.obj), hne, if_false,
    bind_ok (getCell_ok htl), bind_ok (getCell_ok hx), bind_ok h1, bind_ok h2, bind_ok h3,
    pure_run]

theorem popFirst_empty {w : World T} {this hd tl : Nat} (h : Wf w this hd tl []) :
    LinkedList.popFirst this w = Res.throw Exc.outOfRange w := by
  simp only [LinkedList.popFirst, bind_run, bind_ok (getList_ok h.obj), List.length_nil,
    if_true, raise_run]

theorem popLast_empty {w : World T} {this hd tl : Nat} (h : Wf w this hd tl []) :
    LinkedList.popLast this w = Res.throw Exc.outOfRange w := by
  simp only [LinkedList.popLast, bind_run, bind_ok (getList_ok h.obj), List.length_nil,
    if_true, raise_run]

theorem eraseRange_spec {w : World T} {this hd tl : Nat} {cs : List (Nat × T)}
    (pre mid post : List (Nat × T)) (h : Wf w this hd tl cs) (hcs : cs = pre ++ (mid ++ post)) :
    ∃ w2, LinkedList.eraseRange this ⟨headPtr (mid ++ post) (some tl)⟩
        ⟨headPtr post (some tl)⟩ w = Res.ok () w2 ∧
      Wf w2 this hd tl (pre ++ post) ∧ Frame w w2 this (addrs (nodes hd tl cs)) := by
  subst hcs
  have hsplit : nodes hd tl (pre ++ (mid ++ post)) =
      ((hd, default) :: pre) ++ (mid ++ (post ++ [(tl, default)])) := by
    simp [nodes]
  obtain ⟨y, hy, ey⟩ := lastPtr_mem (T := T) none (l := (hd, default) :: pre) (by simp)
  obtain ⟨z, rest, hz, ez⟩ :=
    headPtr_mem (T := T) none (l := post ++ [(tl, default)]) (by simp)
  obtain ⟨f, frest, hf, ef⟩ :=
    headPtr_mem (T := T) none (l := mid ++ (post ++ [(tl, default)])) (by simp)
  have hchain := h.chain
  have hnd := h.nodup
  rw [hsplit] at hchain hnd
  have hzl2 : z ∈ post ++ [(tl, default)] := by rw [hz]; exact List.mem_cons_self _ _
  have hlr : y.1 ≠ z.1 := addrs_ne_of_nodup hnd hy (List.mem_append.2 (Or.inr hzl2))
  obtain ⟨nl, hnl, _⟩ := DSeg_mem hchain (List.mem_append.2 (Or.inl hy))
  obtain ⟨nr, hnr, _⟩ := DSeg_mem hchain (x := z)
    (List.mem_append.2 (Or.inr (List.mem_append.2 (Or.inr hzl2))))
  have hlast : headPtr post (some tl) = some z.1 := by
    rw [← ez, headPtr_append]
    rfl
  have hfirst : headPtr (mid ++ post) (some tl) = some f.1 := by
    rw [← ef, headPtr_append, headPtr_append, headPtr_append]
    rfl
  have hfirst2 : headPtr mid (some z.1) = some f.1 := by
    rw [← ef, headPtr_append, ez]
  have hfcell : w.cells f.1 = some ⟨f.2, headPtr frest none, some y.1⟩ := by
    have := hchain
    rw [hf] at this
    have e := DSeg_mid _ _ _ this
    rw [ey] at e
    exact e
  obtain ⟨w1, hrun1, hbrk1, hobjs1, hcl1, hcr1, hoth1⟩ :=
    connectWith_run w y.1 z.1 nl nr hnl hnr hlr
  have hmidy : y.1 ∉ addrs mid := fun hm => by
    obtain ⟨m, hm1, hm2⟩ := List.mem_map.1 hm
    exact addrs_ne_of_nodup hnd hy (List.mem_append.2 (Or.inl hm1)) hm2.symm
  have hmidz : z.1 ∉ addrs mid := fun hm => by
    obtain ⟨m, hm1, hm2⟩ := List.mem_map.1 hm
    exact addrs_ne_of_nodup (addrs_nodup_right hnd) hm1 hzl2 hm2
  have hmidnd : (addrs mid).Nodup := by
    have := addrs_nodup_right hnd
    rw [addrs, List.map_append, List.nodup_append] at this
    exact this.1
  have hseg1 : DSeg w1.cells (some y.1) mid (some z.1) := by
    have := ((DSeg_append _ _ _ _ _).1 ((DSeg_append _ _ _ _ _).1 hchain).2).1
    rw [ey, ez] at this
    refine DSeg_congr (fun a ha => hoth1 a ?_ ?_) this
    · rintro rfl
      exact hmidy ha
    · rintro rfl
      exact hmidz ha
  have hlen : mid.length < w1.brk + 1 := by
    have := h.length_lt
    simp only [List.length_append] at this
    omega
  obtain ⟨w2, hrun2, hbrk2, hobjs2, hoth2⟩ :=
    deleteLoop_spec mid (some y.1) w1 0 (w1.brk + 1) hseg1 hmidnd hmidz hlen
  have hobj2 : w2.objs this = some ⟨some hd, some tl, (pre ++ (mid ++ post)).length⟩ := by
    rw [hobjs2, hobjs1]
    exact h.obj
  refine ⟨_, ?_, unlink_tail ⟨w2.cells, w2.brk, Function.update w2.objs this
      (some ⟨some hd, some tl, (pre ++ (mid ++ post)).length - (0 + mid.length)⟩)⟩
    (pre ++ post) ((hd, default) :: pre) mid (post ++ [(tl, default)]) h hsplit
    (by simp [nodes]) (by simp) (by simp) ey ez hnl hnr (by simp [hbrk2, hbrk1]) ?_ ?_ ?_ ?_⟩
  · have hdel : LinkedList.deleteNodesFrom (some f.1) (some z.1) w1 =
        Res.ok (0 + mid.length) w2 := by
      rw [← hfirst2]
      exact hrun2
    simp only [LinkedList.eraseRange, ConstIterator.node, hfirst, hlast, bind_run,
      bind_ok (getCell_ok hfcell), bind_ok hrun1, bind_ok hdel]
    exact modifyList_ok _ hobj2
  · have e : (pre ++ (mid ++ post)).length - (0 + mid.length) = (pre ++ post).length := by
      simp only [List.length_append]
      omega
    simp only [hobjs2, hobjs1, e]
  · show w2.cells y.1 = _
    rw [hoth2 _ hmidy, hcl1]
  · show w2.cells z.1 = _
    rw [hoth2 _ hmidz, hcr1]
  · intro a ha hal har
    show w2.cells a = _
    rw [hoth2 a ha, hoth1 a hal har]

/-- Erasing an empty range changes nothing at all. -/
theorem eraseRange_same {w : World T} {this hd tl : Nat} {cs : List (Nat × T)}
    (h : Wf w this hd tl cs) (k : Nat) :
    LinkedList.eraseRange this ⟨headPtr (cs.drop k) (some tl)⟩
      ⟨headPtr (cs.drop k) (some tl)⟩ w = Res.ok () w := by
  obtain ⟨z, rest, hz, ez⟩ :=
    headPtr_mem (T := T) none (l := cs.drop k ++ [(tl, default)]) (by simp)
  have hpos : headPtr (cs.drop k) (some tl) = some z.1 := by
    rw [← ez, headPtr_append]
    rfl
  rcases List.eq_nil_or_concat ((hd, default) :: cs.take k) with hnil | ⟨pre, y, hc⟩
  · simp at hnil
  rw [List.concat_eq_append] at hc
  have hchain := h.chain
  have hnd := h.nodup
  rw [nodes_split hd tl cs k, hz, hc] at hchain hnd
  have hzc : w.cells z.1 = some ⟨z.2, headPtr rest none, some y.1⟩ := by
    have := DSeg_mid _ _ _ hchain
    simpa using this
  have hyc : w.cells y.1 = some ⟨y.2, some z.1, lastPtr none pre⟩ := by
    have := hchain
    rw [List.append_assoc] at this
    exact DSeg_mid pre y (z :: rest) this
  have hyz : y.1 ≠ z.1 :=
    addrs_ne_of_nodup hnd (List.mem_append.2 (Or.inr (List.mem_singleton.2 rfl)))
      (List.mem_cons_self _ _)
  have hobj := h.obj
  have hw : w = ⟨w.cells, w.brk, w.objs⟩ := rfl
  simp only [LinkedList.eraseRange, ConstIterator.node, hpos, bind_run, M.bind, getCell, hzc,
    Node.connectWith, setNext, setPrev, putCell, hyc, Function.update, hyz, Ne.symm hyz,
    LinkedList.deleteNodesFrom, rounds, LinkedList.deleteLoop, modifyList, hobj, dite_true,
    dite_false, eq_rec_constant, ne_eq, not_true_eq_false, and_false, if_false, pure_run,
    Nat.sub_zero, reduceCtorEq, not_false_eq_true]
  conv_rhs => rw [hw]
  congr 2
  · funext a
    by_cases h1 : a = z.1
    · subst h1
      simp [hzc]
    · by_cases h2 : a = y.1
      · subst h2
        simp [h1, hyc]
      · simp [h1, h2]
  · funext o
    by_cases h1 : o = this
    · subst h1
      simp [hobj]
    · simp [h1]

/-- A list that shares no cell with the list being worked on stays well
formed. -/
theorem Wf_frame {w w2 : World T} {this other hd tl : Nat} {cs : List (Nat × T)}
    {fp : List Nat} (h : Wf w other hd tl cs) (hf : Frame w w2 this fp) (hne : other ≠ this)
    (hdis : List.Disjoint (addrs (nodes hd tl cs)) fp) : Wf w2 other hd tl cs := by
  refine ⟨by rw [hf.objs_eq other hne]; exact h.obj, h.nodup,
    fun a ha => lt_of_lt_of_le (h.bound a ha) hf.brk_le, ?_⟩
  exact DSeg_congr (fun a ha => hf.cells_eq a (fun hfp => hdis ha hfp) (h.bound a ha)) h.chain

/-- Reading a list that holds `xs`: its size and its elements by position. -/
theorem Repr.reads {w : World T} {this : Nat} {xs : List T} (h : Repr w this xs) :
    LinkedList.getSize this w = Res.ok xs.length w ∧
      ∀ i : Nat, i < xs.length →
        ∃ x, xs[i]? = some x ∧ LinkedList.index this (i : Int) w = Res.ok x w := by
  obtain ⟨hd, tl, cs, hwf, rfl⟩ := h
  refine ⟨by rw [getSize_spec hwf]; simp, fun i hi => ?_⟩
  have hi2 : i < cs.length := by simpa using hi
  refine ⟨(cs[i]).2, by simp [hi2], ?_⟩
  rw [index_spec hwf]
  simp [hi2]

theorem moveConstruct_spec {w : World T} {this other hd tl : Nat} {cs : List (Nat × T)}
    (h : Wf w other hd tl cs) (hne : this ≠ other) :
    ∃ w2, LinkedList.moveConstruct this other w = Res.ok () w2 ∧ Wf w2 this hd tl cs ∧
      w2.objs other = some ⟨none, none, cs.length⟩ ∧ w2.cells = w.cells ∧ w2.brk = w.brk := by
  refine ⟨⟨w.cells, w.brk, Function.update (Function.update w.objs this
    (some ⟨some hd, some tl, cs.length⟩)) other (some ⟨none, none, cs.length⟩)⟩, ?_,
    ⟨by simp [Function.update, hne], h.nodup, h.bound, h.chain⟩, by simp, rfl, rfl⟩
  simp [LinkedList.moveConstruct, M.bind, getList, modifyList, h.obj, Function.update, hne,
    Ne.symm hne]

theorem moveAssign_spec {w : World T} {this other hd1 tl1 hd2 tl2 : Nat}
    {cs1 cs2 : List (Nat × T)} (h1 : Wf w this hd1 tl1 cs1) (h2 : Wf w other hd2 tl2 cs2)
    (hne : this ≠ other)
    (hdis : List.Disjoint (addrs (nodes hd1 tl1 cs1)) (addrs (nodes hd2 tl2 cs2))) :
    ∃ w2, LinkedList.moveAssign this other w = Res.ok () w2 ∧ Wf w2 this hd2 tl2 cs2 ∧
      w2.objs other = some ⟨some hd1, some tl1, cs2.length⟩ ∧
      w2.cells hd1 = some ⟨default, some tl1, none⟩ ∧
      w2.cells tl1 = some ⟨default, none, some hd1⟩ ∧ w2.brk = w.brk := by
  have hnd := h1.nodup
  have hsplit : nodes hd1 tl1 cs1 = [(hd1, default)] ++ (cs1 ++ [(tl1, default)]) := rfl
  rw [hsplit] at hnd
  have hhd : hd1 ∉ addrs cs1 := fun hm => by
    obtain ⟨m, hm1, hm2⟩ := List.mem_map.1 hm
    exact addrs_ne_of_nodup hnd (List.mem_singleton.2 rfl)
      (List.mem_append.2 (Or.inl hm1)) hm2.symm
  have htl : tl1 ∉ addrs cs1 := fun hm => by
    obtain ⟨m, hm1, hm2⟩ := List.mem_map.1 hm
    exact addrs_ne_of_nodup (addrs_nodup_right hnd) hm1 (List.mem_singleton.2 rfl) hm2
  have hht : hd1 ≠ tl1 :=
    addrs_ne_of_nodup hnd (a := (hd1, default)) (b := (tl1, default))
      (List.mem_singleton.2 rfl) (List.mem_append.2 (Or.inr (List.mem_singleton.2 rfl)))
  have hcsnd : (addrs cs1).Nodup := by
    have := addrs_nodup_right hnd
    rw [addrs, List.map_append, List.nodup_append] at this
    exact this.1
  have hlen := h1.length_lt
  obtain ⟨w1, hrun1, hbrk1, hobjs1, hoth1⟩ :=
    deleteLoop_spec cs1 (some hd1) w 0 (w.brk + 1) h1.live_seg hcsnd htl (by omega)
  have hdel : LinkedList.deleteNodesFrom (headPtr cs1 (some tl1)) (some tl1) w =
      Res.ok (0 + cs1.length) w1 := hrun1
  obtain ⟨w2, hrun2, hbrk2, hobjs2, hcl2, hcr2, hoth2⟩ :=
    connectWith_run w1 hd1 tl1 _ _ (by rw [hoth1 _ hhd]; exact h1.head_cell)
      (by rw [hoth1 _ htl]; exact h1.tail_cell) hht
  have hobjA : w2.objs this = some ⟨some hd1, some tl1, cs1.length⟩ := by
    rw [hobjs2, hobjs1]
    exact h1.obj
  have hobjB : w2.objs other = some ⟨some hd2, some tl2, cs2.length⟩ := by
    rw [hobjs2, hobjs1]
    exact h2.obj
  refine ⟨⟨w2.cells, w2.brk, Function.update (Function.update w2.objs other
    (some ⟨some hd1, some tl1, cs2.length⟩)) this (some ⟨some hd2, some tl2, cs2.length⟩)⟩,
    ?_, ⟨?_, h2.nodup, ?_, ?_⟩, ?_, ?_, ?_, ?_⟩
  · simp only [LinkedList.moveAssign, hne, if_false, bind_run, bind_ok (getList_ok h1.obj),
      bind_ok (getCell_ok h1.head_cell), bind_ok hdel, bind_ok hrun2, bind_ok (getList_ok hobjB)]
    exact modifyList5_run hne hobjA hobjB
  · simp
  · intro a ha
    show a < w2.brk
    rw [hbrk2, hbrk1]
    exact h2.bound a ha
  · refine DSeg_congr (fun a ha => ?_) h2.chain
    show w2.cells a = w.cells a
    have hna : a ∉ addrs (nodes hd1 tl1 cs1) := fun hm => hdis hm ha
    have hnc : a ∉ addrs cs1 := fun hm => hna (by
      simp only [nodes, addrs, List.map_cons, List.map_append, List.mem_cons, List.mem_append]
      exact Or.inr (Or.inl hm))
    have hnh : a ≠ hd1 := by
      rintro rfl
      exact hna (by simp [nodes, addrs])
    have hnt : a ≠ tl1 := by
      rintro rfl
      exact hna (by simp [nodes, addrs])
    rw [hoth2 a hnh hnt, hoth1 a hnc]
  · simp [Function.update, hne, Ne.symm hne]
  · show w2.cells hd1 = _
    rw [hcl2]
  · show w2.cells tl1 = _
    rw [hcr2]
  · show w2.brk = w.brk
    rw [hbrk2, hbrk1]

theorem add_past_end {w : World T} {this hd tl : Nat} {cs : List (Nat × T)}
    (h : Wf w this hd tl cs) (k : Nat) (hk : cs.length < k) :
    ConstIterator.add ⟨headPtr cs (some tl)⟩ (k : Int) w = Res.throw Exc.outOfRange w := by
  simp only [bind_run, ConstIterator.add, Int.toNat_ofNat,
    bind_throw (addLoop_throw h.tail_cell cs (some hd) k h.live_seg hk)]

theorem mkStep {w w2 : World T} {this hd tl : Nat} {cs cs2 : List (Nat × T)}
    (hwf : Wf w2 this hd tl cs2) (hfr : Frame w w2 this (addrs (nodes hd tl cs)))
    (hsub : ∀ x ∈ cs2, x.1 ∈ addrs cs ∨ w.brk ≤ x.1) : Step w w2 this hd tl cs cs2 := by
  refine ⟨hwf, hfr, fun a ha => ?_⟩
  simp only [nodes, addrs, List.map_cons, List.map_append, List.mem_cons, List.mem_append,
    List.map_nil, List.not_mem_nil, or_false] at ha ⊢
  rcases ha with rfl | ha | rfl
  · exact Or.inl (Or.inl rfl)
  · obtain ⟨m, hm1, rfl⟩ := List.mem_map.1 ha
    rcases hsub m hm1 with h1 | h1
    · exact Or.inl (Or.inr (Or.inl h1))
    · exact Or.inr h1
  · exact Or.inl (Or.inr (Or.inr rfl))

theorem Step.same {w : World T} {this hd tl : Nat} {cs : List (Nat × T)}
    (h : Wf w this hd tl cs) : Step w w this hd tl cs cs :=
  ⟨h, Frame.refl _ _ _, fun _ ha => Or.inl ha⟩

theorem assign_spec {w : World T} {this hd tl : Nat} {cs : List (Nat × T)}
    (pre : List (Nat × T)) (x : Nat × T) (post : List (Nat × T))
    (h : Wf w this hd tl cs) (hcs : cs = pre ++ x :: post) (v : T) :
    ∃ w2, Iterator.assign ⟨some x.1⟩ v w = Res.ok () w2 ∧
      Wf w2 this hd tl (pre ++ (x.1, v) :: post) ∧
      Frame w w2 this (addrs (nodes hd tl cs)) := by
  subst hcs
  have hsplit : nodes hd tl (pre ++ x :: post) =
      ((hd, default) :: pre) ++ x :: (post ++ [(tl, default)]) := by
    simp [nodes]
  have hsplit2 : nodes hd tl (pre ++ (x.1, v) :: post) =
      ((hd, default) :: pre) ++ (x.1, v) :: (post ++ [(tl, default)]) := by
    simp [nodes]
  have haddrs : addrs (nodes hd tl (pre ++ (x.1, v) :: post)) =
      addrs (nodes hd tl (pre ++ x :: post)) := by
    simp [nodes, addrs]
  have hchain := h.chain
  have hnd := h.nodup
  rw [hsplit] at hchain hnd
  have hx := DSeg_mid _ _ _ hchain
  have hnext : headPtr (post ++ [(tl, default)]) none ≠ none := by
    cases post <;> simp
  refine ⟨⟨Function.update w.cells x.1
      (some ⟨v, headPtr (post ++ [(tl, default)]) none, lastPtr none ((hd, default) :: pre)⟩),
      w.brk, w.objs⟩, ?_, ⟨?_, ?_, ?_, ?_⟩, ?_⟩
  · simp only [Iterator.assign, bind_run, bind_ok (deref_ok hx hnext)]
    simp [setElem, putCell, hx]
  · simpa using h.obj
  · rw [haddrs]
    exact h.nodup
  · rw [haddrs]
    exact h.bound
  · rw [hsplit2]
    exact DSeg_setElem _ x _ v hchain hnd (by simp) (fun a ha => by simp [Function.update, ha])
  · refine ⟨le_refl _, fun _ _ => rfl, fun a ha _ => ?_⟩
    have : a ≠ x.1 := by
      rintro rfl
      apply ha
      rw [hsplit]
      simp [addrs]
    simp [Function.update, this]

theorem assign_end {w : World T} {this hd tl : Nat} {cs : List (Nat × T)}
    (h : Wf w this hd tl cs) (v : T) :
    Iterator.assign ⟨some tl⟩ v w = Res.throw Exc.outOfRange w := by
  simp only [Iterator.assign, bind_run, bind_throw (deref_no_next h.tail_cell)]

/-- Every mutating call on a well-formed list either returns or throws
`std::out_of_range`, and leaves a well-formed list without touching anything
outside it. -/
theorem mut_spec {w : World T} {this hd tl : Nat} {cs : List (Nat × T)} (m : Mut T)
    (hm : m.ordered) (h : Wf w this hd tl cs) :
    ∃ w2 cs2, (Mut.run this m w = Res.ok () w2 ∨
        Mut.run this m w = Res.throw Exc.outOfRange w2) ∧
      Step w w2 this hd tl cs cs2 := by
  cases m with
  | append v =>
    obtain ⟨w2, hrun, hwf, hfr⟩ := append_spec h v
    refine ⟨w2, _, Or.inl hrun, mkStep hwf hfr (fun x hx => ?_)⟩
    rcases List.mem_append.1 hx with hx | hx
    · exact Or.inl (List.mem_map_of_mem _ hx)
    · rw [List.mem_singleton.1 hx]
      exact Or.inr (le_refl _)
  | prepend v =>
    obtain ⟨w2, hrun, hwf, hfr⟩ := prepend_spec h v
    refine ⟨w2, _, Or.inl hrun, mkStep hwf hfr (fun x hx => ?_)⟩
    rcases List.mem_cons.1 hx with hx | hx
    · rw [hx]
      exact Or.inr (le_refl _)
    · exact Or.inl (List.mem_map_of_mem _ hx)
  | insert k v =>
    by_cases hk : k ≤ cs.length
    · obtain ⟨w2, hrun, hwf, hfr⟩ := insert_spec h k v
      refine ⟨w2, _, Or.inl ?_, mkStep hwf hfr (fun x hx => ?_)⟩
      · simp only [Mut.run, bind_run, bind_ok (begin_spec h), bind_ok (begin_add_spec h k hk)]
        exact hrun
      · rcases List.mem_append.1 hx with hx | hx
        · exact Or.inl (List.mem_map_of_mem _ (List.mem_of_mem_take hx))
        · rcases List.mem_cons.1 hx with hx | hx
          · rw [hx]
            exact Or.inr (le_refl _)
          · exact Or.inl (List.mem_map_of_mem _ (List.mem_of_mem_drop hx))
    · refine ⟨w, cs, Or.inr ?_, Step.same h⟩
      simp only [Mut.run, bind_run, bind_ok (begin_spec h),
        bind_throw (add_past_end h k (by omega))]
  | popFirst =>
    cases cs with
    | nil =>
      exact ⟨w, [], Or.inr (by simp only [Mut.run, bind_run, bind_throw (popFirst_empty h)]),
        Step.same h⟩
    | cons x post =>
      obtain ⟨w2, hrun, hwf, hfr⟩ := popFirst_spec x post h rfl
      exact ⟨w2, post, Or.inl (by simp only [Mut.run, bind_run, bind_ok hrun, pure_run]),
        mkStep hwf hfr (fun y hy => Or.inl (List.mem_map_of_mem _ (List.mem_cons_of_mem _ hy)))⟩
  | popLast =>
    rcases List.eq_nil_or_concat cs with rfl | ⟨pre, x, hc⟩
    · exact ⟨w, [], Or.inr (by simp only [Mut.run, bind_run, bind_throw (popLast_empty h)]),
        Step.same h⟩
    · rw [List.concat_eq_append] at hc
      subst hc
      obtain ⟨w2, hrun, hwf, hfr⟩ := popLast_spec pre x h rfl
      exact ⟨w2, pre, Or.inl (by simp only [Mut.run, bind_run, bind_ok hrun, pure_run]),
        mkStep hwf hfr (fun y hy =>
          Or.inl (List.mem_map_of_mem _ (List.mem_append.2 (Or.inl hy))))⟩
  | erase k =>
    rcases Nat.lt_trichotomy k cs.length with hk | hk | hk
    · have hdrop : cs.drop k = cs[k] :: cs.drop (k + 1) := List.drop_eq_getElem_cons hk
      have hcs : cs = cs.take k ++ cs[k] :: cs.drop (k + 1) := by
        rw [← hdrop, List.take_append_drop]
      obtain ⟨w2, hrun, hwf, hfr⟩ := erase_spec (cs.take k) cs[k] (cs.drop (k + 1)) h hcs
      refine ⟨w2, _, Or.inl ?_, mkStep hwf hfr (fun x hx => ?_)⟩
      · simp only [Mut.run, bind_run, bind_ok (begin_spec h),
          bind_ok (begin_add_spec h k (by omega)), hdrop, headPtr_cons]
        exact hrun
      · rcases List.mem_append.1 hx with hx | hx
        · exact Or.inl (List.mem_map_of_mem _ (List.mem_of_mem_take hx))
        · exact Or.inl (List.mem_map_of_mem _ (List.mem_of_mem_drop hx))
    · subst hk
      refine ⟨w, cs, Or.inr ?_, Step.same h⟩
      simp only [Mut.run, bind_run, bind_ok (begin_spec h),
        bind_ok (begin_add_spec h cs.length (le_refl _)), List.drop_length, headPtr_nil]
      cases cs with
      | nil => exact erase_empty h _
      | cons x post => exact erase_end h (by simp)
    · refine ⟨w, cs, Or.inr ?_, Step.same h⟩
      simp only [Mut.run, bind_run, bind_ok (begin_spec h),
        bind_throw (add_past_end h k hk)]
  | eraseRange i j =>
    have hij : i ≤ j := hm
    by_cases hj : j ≤ cs.length
    · have hmid := split_range cs i j hij
      have hcs : cs = cs.take i ++ ((cs.drop i).take (j - i) ++ cs.drop j) := by
        rw [← hmid, List.take_append_drop]
      obtain ⟨w2, hrun, hwf, hfr⟩ :=
        eraseRange_spec (cs.take i) ((cs.drop i).take (j - i)) (cs.drop j) h hcs
      rw [← hmid] at hrun
      refine ⟨w2, _, Or.inl ?_, mkStep hwf hfr (fun x hx => ?_)⟩
      · simp only [Mut.run, bind_run, bind_ok (begin_spec h),
          bind_ok (begin_add_spec h i (by omega)), bind_ok (begin_add_spec h j hj)]
        exact hrun
      · rcases List.mem_append.1 hx with hx | hx
        · exact Or.inl (List.mem_map_of_mem _ (List.mem_of_mem_take hx))
        · exact Or.inl (List.mem_map_of_mem _ (List.mem_of_mem_drop hx))
    · refine ⟨w, cs, Or.inr ?_, Step.same h⟩
      by_cases hi : i ≤ cs.length
      · simp only [Mut.run, bind_run, bind_ok (begin_spec h),
          bind_ok (begin_add_spec h i hi), bind_throw (add_past_end h j (by omega))]
      · simp only [Mut.run, bind_run, bind_ok (begin_spec h),
          bind_throw (add_past_end h i (by omega))]
  | write k v =>
    rcases Nat.lt_trichotomy k cs.length with hk | hk | hk
    · have hdrop : cs.drop k = cs[k] :: cs.drop (k + 1) := List.drop_eq_getElem_cons hk
      have hcs : cs = cs.take k ++ cs[k] :: cs.drop (k + 1) := by
        rw [← hdrop, List.take_append_drop]
      obtain ⟨w2, hrun, hwf, hfr⟩ := assign_spec (cs.take k) cs[k] (cs.drop (k + 1)) h hcs v
      refine ⟨w2, _, Or.inl ?_, mkStep hwf hfr (fun x hx => ?_)⟩
      · simp only [Mut.run, bind_run, bind_ok (begin_spec h),
          bind_ok (begin_add_spec h k (by omega)), hdrop, headPtr_cons]
        exact hrun
      · rcases List.mem_append.1 hx with hx | hx
        · exact Or.inl (List.mem_map_of_mem _ (List.mem_of_mem_take hx))
        · rcases List.mem_cons.1 hx with hx | hx
          · rw [hx]
            have : cs[k].1 ∈ addrs cs := List.mem_map_of_mem Prod.fst (List.getElem_mem hk)
            exact Or.inl this
          · exact Or.inl (List.mem_map_of_mem _ (List.mem_of_mem_drop hx))
    · subst hk
      refine ⟨w, cs, Or.inr ?_, Step.same h⟩
      simp only [Mut.run, bind_run, bind_ok (begin_spec h),
        bind_ok (begin_add_spec h cs.length (le_refl _)), List.drop_length, headPtr_nil]
      exact assign_end h v
    · refine ⟨w, cs, Or.inr ?_, Step.same h⟩
      simp only [Mut.run, bind_run, bind_ok (begin_spec h),
        bind_throw (add_past_end h k hk)]

/-- A step on one list leaves a separate list well formed and separate. -/
theorem sep_step {w w2 : World T} {dst src hd tl hs ts : Nat} {cs cs2 css : List (Nat × T)}
    (hstep : Step w w2 dst hd tl cs cs2) (hsrc : Wf w src hs ts css) (hne : dst ≠ src)
    (hdis : List.Disjoint (addrs (nodes hd tl cs)) (addrs (nodes hs ts css))) :
    Wf w2 src hs ts css ∧
      List.Disjoint (addrs (nodes hd tl cs2)) (addrs (nodes hs ts css)) := by
  refine ⟨Wf_frame hsrc hstep.2.1 (Ne.symm hne) hdis.symm, fun a ha hb => ?_⟩
  rcases hstep.2.2 a ha with h1 | h1
  · exact hdis h1 hb
  · exact absurd (hsrc.bound a hb) (not_lt.2 h1)

theorem runMuts_spec {dst src hd tl hs ts : Nat} {css : List (Nat × T)} (hne : dst ≠ src) :
    ∀ (ms : List (Mut T)), (∀ m ∈ ms, m.ordered) →
      ∀ (w : World T) (cs : List (Nat × T)), Wf w dst hd tl cs → Wf w src hs ts css →
        List.Disjoint (addrs (nodes hd tl cs)) (addrs (nodes hs ts css)) →
        ∃ w2 cs2, runMuts dst ms w = some w2 ∧ Wf w2 dst hd tl cs2 ∧ Wf w2 src hs ts css ∧
          List.Disjoint (addrs (nodes hd tl cs2)) (addrs (nodes hs ts css)) := by
  intro ms
  induction ms with
  | nil =>
    intro _ w cs h1 h2 hdis
    exact ⟨w, cs, rfl, h1, h2, hdis⟩
  | cons m rest ih =>
    intro hord w cs h1 h2 hdis
    obtain ⟨w1, cs1, hrun, hstep⟩ := mut_spec m (hord m (List.mem_cons_self _ _)) h1
    obtain ⟨h2b, hdisb⟩ := sep_step hstep h2 hne hdis
    obtain ⟨w2, cs2, hrun2, hr⟩ :=
      ih (fun x hx => hord x (List.mem_cons_of_mem _ hx)) w1 cs1 hstep.1 h2b hdisb
    refine ⟨w2, cs2, ?_, hr⟩
    rcases hrun with hrun | hrun <;> simp only [runMuts, hrun] <;> exact hrun2

/-- The loop of the copy operations: the cells `rest` of `other` still to be
visited are appended to `this` in order. -/
theorem appendAll_spec {this other hd tl hs ts : Nat} (hne : this ≠ other) :
    ∀ (rest done : List (Nat × T)) (w : World T) (cs : List (Nat × T)) (fuel : Nat),
      Wf w other hs ts (done ++ rest) → Wf w this hd tl cs →
      List.Disjoint (addrs (nodes hd tl cs)) (addrs (nodes hs ts (done ++ rest))) →
      rest.length < fuel →
      ∃ w2 cs2, LinkedList.appendAll this ⟨some ts⟩ fuel ⟨headPtr rest (some ts)⟩ w =
          Res.ok () w2 ∧
        Wf w2 this hd tl cs2 ∧ cs2.map Prod.snd = cs.map Prod.snd ++ rest.map Prod.snd ∧
        Wf w2 other hs ts (done ++ rest) ∧
        List.Disjoint (addrs (nodes hd tl cs2)) (addrs (nodes hs ts (done ++ rest))) := by
  intro rest
  induction rest with
  | nil =>
    intro done w cs fuel ho ht hdis hf
    obtain ⟨f, rfl⟩ : ∃ f, fuel = f + 1 := ⟨fuel - 1, by simp at hf; omega⟩
    exact ⟨w, cs, by simp [LinkedList.appendAll, ConstIterator.ne, ConstIterator.eq], ht,
      by simp, ho, hdis⟩
  | cons x rest ih =>
    intro done w cs fuel ho ht hdis hf
    obtain ⟨f, rfl⟩ : ∃ f, fuel = f + 1 := ⟨fuel - 1, by simp at hf; omega⟩
    have hdrop : (done ++ x :: rest).drop done.length = x :: rest := by simp
    have hx := ho.cell_at done.length x rest hdrop
    have hnext : headPtr rest (some ts) ≠ none := by cases rest <;> simp
    have hxts : x.1 ≠ ts := by
      have hnd := ho.nodup
      have e : nodes hs ts (done ++ x :: rest) =
          ((hs, default) :: done) ++ ([x] ++ (rest ++ [(ts, default)])) := by simp [nodes]
      rw [e] at hnd
      exact addrs_ne_of_nodup (addrs_nodup_right hnd) (a := x) (b := (ts, default))
        (List.mem_singleton.2 rfl) (List.mem_append.2 (Or.inr (List.mem_singleton.2 rfl)))
    obtain ⟨w1, hrun1, hwf1, hfr1⟩ := append_spec ht x.2
    have hstep : Step w w1 this hd tl cs (cs ++ [(w.brk, x.2)]) :=
      mkStep hwf1 hfr1 (fun y hy => by
        rcases List.mem_append.1 hy with hy | hy
        · exact Or.inl (List.mem_map_of_mem _ hy)
        · rw [List.mem_singleton.1 hy]
          exact Or.inr (le_refl _))
    obtain ⟨ho1, hdis1⟩ := sep_step hstep ho hne hdis
    have hx1 := ho1.cell_at done.length x rest hdrop
    have hassoc : done ++ x :: rest = (done ++ [x]) ++ rest := by simp
    rw [hassoc] at ho1 hdis1
    obtain ⟨w2, cs2, hrun2, hwf2, hmap, ho2, hdis2⟩ :=
      ih (done ++ [x]) w1 _ f ho1 hwf1 hdis1 (by simp at hf; omega)
    rw [← hassoc] at ho2 hdis2
    refine ⟨w2, cs2, ?_, hwf2, by simpa using hmap, ho2, hdis2⟩
    have hne2 : ConstIterator.ne ⟨some x.1⟩ ⟨some ts⟩ = true := by
      simp [ConstIterator.ne, ConstIterator.eq, hxts]
    simp only [LinkedList.appendAll, headPtr_cons, hne2, if_true, bind_run,
      bind_ok (deref_ok hx hnext), bind_ok hrun1, bind_ok (preInc_ok hx1 hnext)]
    exact hrun2

theorem copyConstruct_spec {w : World T} {this other hs ts : Nat} {css : List (Nat × T)}
    (ho : Wf w other hs ts css) (hne : this ≠ other) :
    ∃ w2 cs2, LinkedList.copyConstruct this other w = Res.ok () w2 ∧
      Wf w2 this w.brk (w.brk + 1) cs2 ∧ cs2.map Prod.snd = css.map Prod.snd ∧
      Wf w2 other hs ts css ∧
      List.Disjoint (addrs (nodes w.brk (w.brk + 1) cs2)) (addrs (nodes hs ts css)) := by
  obtain ⟨w1, hrun1, hwf1, hbrk1, hobjs1, hcells1⟩ := construct_spec w this
  have hfr : Frame w w1 this [] :=
    ⟨by omega, hobjs1, fun a _ ha => hcells1 a ha⟩
  have ho1 : Wf w1 other hs ts css := Wf_frame ho hfr (Ne.symm hne) (by simp [List.Disjoint])
  have hdis : List.Disjoint (addrs (nodes w.brk (w.brk + 1) ([] : List (Nat × T))))
      (addrs (nodes hs ts css)) := by
    intro a ha hb
    have := ho.bound a hb
    simp [nodes, addrs] at ha
    omega
  have hlen := ho1.length_lt
  obtain ⟨w2, cs2, hrun2, hwf2, hmap, ho2, hdis2⟩ :=
    appendAll_spec hne css [] w1 [] (w1.brk + 1) (by simpa using ho1) hwf1
      (by simpa using hdis) (by omega)
  refine ⟨w2, cs2, ?_, hwf2, by simpa using hmap, by simpa using ho2, by simpa using hdis2⟩
  simp only [LinkedList.copyConstruct, bind_run, bind_ok hrun1, bind_ok (begin_spec ho1),
    bind_ok (end_spec ho1), rounds]
  exact hrun2

/-- The first half of the assignment operators: the destination is emptied. -/
theorem clear_spec {w : World T} {this hd tl : Nat} {cs : List (Nat × T)}
    (h : Wf w this hd tl cs) :
    ∃ w1 w2 w3, LinkedList.deleteNodesFrom (headPtr cs (some tl)) (some tl) w =
        Res.ok (0 + cs.length) w1 ∧
      Node.connectWith (some hd) (some tl) w1 = Res.ok () w2 ∧
      modifyList this (fun l => { l with size := 0 }) w2 = Res.ok () w3 ∧
      Step w w3 this hd tl cs [] := by
  have hnd := h.nodup
  have hsplit : nodes hd tl cs = [(hd, default)] ++ (cs ++ [(tl, default)]) := rfl
  rw [hsplit] at hnd
  have hhd : hd ∉ addrs cs := fun hm => by
    obtain ⟨m, hm1, hm2⟩ := List.mem_map.1 hm
    exact addrs_ne_of_nodup hnd (List.mem_singleton.2 rfl)
      (List.mem_append.2 (Or.inl hm1)) hm2.symm
  have htl : tl ∉ addrs cs := fun hm => by
    obtain ⟨m, hm1, hm2⟩ := List.mem_map.1 hm
    exact addrs_ne_of_nodup (addrs_nodup_right hnd) hm1 (List.mem_singleton.2 rfl) hm2
  have hht : hd ≠ tl :=
    addrs_ne_of_nodup hnd (a := (hd, default)) (b := (tl, default))
      (List.mem_singleton.2 rfl) (List.mem_append.2 (Or.inr (List.mem_singleton.2 rfl)))
  have hcsnd : (addrs cs).Nodup := by
    have := addrs_nodup_right hnd
    rw [addrs, List.map_append, List.nodup_append] at this
    exact this.1
  have hlen := h.length_lt
  obtain ⟨w1, hrun1, hbrk1, hobjs1, hoth1⟩ :=
    deleteLoop_spec cs (some hd) w 0 (w.brk + 1) h.live_seg hcsnd htl (by omega)
  obtain ⟨w2, hrun2, hbrk2, hobjs2, hcl2, hcr2, hoth2⟩ :=
    connectWith_run w1 hd tl _ _ (by rw [hoth1 _ hhd]; exact h.head_cell)
      (by rw [hoth1 _ htl]; exact h.tail_cell) hht
  have hobj2 : w2.objs this = some ⟨some hd, some tl, cs.length⟩ := by
    rw [hobjs2, hobjs1]
    exact h.obj
  have hfin := unlink_tail ⟨w2.cells, w2.brk, Function.update w2.objs this
      (some ⟨some hd, some tl, 0⟩)⟩ [] [(hd, default)] cs [(tl, default)] h hsplit
    (by simp [nodes]) (by simp) (by simp) rfl rfl h.head_cell h.tail_cell
    (by simp [hbrk2, hbrk1]) (by simp [hobjs2, hobjs1]) hcl2 hcr2
    (fun a ha hal har => by
      show w2.cells a = _
      rw [hoth2 a hal har, hoth1 a ha])
  refine ⟨w1, w2, _, hrun1, hrun2, modifyList_ok _ hobj2, hfin.1, hfin.2, fun a ha => Or.inl ?_⟩
  simp only [nodes, addrs, List.map_cons, List.map_append, List.mem_cons, List.mem_append,
    List.map_nil, List.nil_append, List.not_mem_nil, or_false] at ha ⊢
  rcases ha with rfl | rfl
  · exact Or.inl rfl
  · exact Or.inr (Or.inr rfl)

theorem copyAssign_spec {w : World T} {this other hd tl hs ts : Nat}
    {cs css : List (Nat × T)} (ht : Wf w this hd tl cs) (ho : Wf w other hs ts css)
    (hne : this ≠ other)
    (hdis : List.Disjoint (addrs (nodes hd tl cs)) (addrs (nodes hs ts css))) :
    ∃ w2 cs2, LinkedList.copyAssign this other w = Res.ok () w2 ∧
      Wf w2 this hd tl cs2 ∧ cs2.map Prod.snd = css.map Prod.snd ∧
      Wf w2 other hs ts css ∧
      List.Disjoint (addrs (nodes hd tl cs2)) (addrs (nodes hs ts css)) := by
  obtain ⟨w1, w2, w3, hrun1, hrun2, hrun3, hstep⟩ := clear_spec ht
  obtain ⟨ho3, hdis3⟩ := sep_step hstep ho hne hdis
  have hlen := ho3.length_lt
  obtain ⟨w4, cs4, hrun4, hwf4, hmap, ho4, hdis4⟩ :=
    appendAll_spec hne css [] w3 [] (w3.brk + 1) (by simpa using ho3) hstep.1
      (by simpa using hdis3) (by omega)
  refine ⟨w4, cs4, ?_, hwf4, by simpa using hmap, by simpa using ho4, by simpa using hdis4⟩
  simp only [LinkedList.copyAssign, hne, if_false, bind_run, bind_ok (getList_ok ht.obj),
    bind_ok (getCell_ok ht.head_cell), bind_ok hrun1, bind_ok hrun2, bind_ok hrun3,
    bind_ok (begin_spec ho3), bind_ok (end_spec ho3), rounds]
  exact hrun4

/-- Any series of mutating calls on one of two separate lists leaves the
other list holding what it held. -/
theorem Repr2.muts {w : World T} {dst src : Nat} {ys xs : List T}
    (h : Repr2 w dst ys src xs) (ms : List (Mut T)) (hord : ∀ m ∈ ms, m.ordered) :
    ∃ w3 zs, runMuts dst ms w = some w3 ∧ Repr2 w3 dst zs src xs := by
  obtain ⟨hd1, tl1, cs1, hd2, tl2, cs2, hne, h1, h2, rfl, rfl, hdis⟩ := h
  obtain ⟨w3, cs3, hrun, h1b, h2b, hdisb⟩ := runMuts_spec hne ms hord w cs1 h1 h2 hdis
  exact ⟨w3, cs3.map Prod.snd, hrun, hd1, tl1, cs3, hd2, tl2, cs2, hne, h1b, h2b, rfl, rfl,
    hdisb⟩

theorem runCalls_spec (this hd tl : Nat) (calls : List (Call T)) :
    ∀ (w : World T) (cs : List (Nat × T)), Wf w this hd tl cs →
      ∃ w2 cs2, runCalls this calls w = Res.ok () w2 ∧ Wf w2 this hd tl cs2 ∧
        cs2.map Prod.snd = expected (cs.map Prod.snd) calls := by
  induction calls with
  | nil =>
    intro w cs h
    exact ⟨w, cs, rfl, h, rfl⟩
  | cons c rest ih =>
    intro w cs h
    cases c with
    | append v =>
      obtain ⟨w1, hrun, hwf, _⟩ := append_spec h v
      obtain ⟨w2, cs2, hrun2, hwf2, hc⟩ := ih w1 _ hwf
      refine ⟨w2, cs2, ?_, hwf2, ?_⟩
      · simp only [runCalls, Call.run, bind_run, bind_ok hrun]
        exact hrun2
      · simpa [expected, Call.apply] using hc
    | prepend v =>
      obtain ⟨w1, hrun, hwf, _⟩ := prepend_spec h v
      obtain ⟨w2, cs2, hrun2, hwf2, hc⟩ := ih w1 _ hwf
      refine ⟨w2, cs2, ?_, hwf2, ?_⟩
      · simp only [runCalls, Call.run, bind_run, bind_ok hrun]
        exact hrun2
      · simpa [expected, Call.apply] using hc

theorem runPops_spec (this hd tl : Nat) (pops : List Pop) :
    ∀ (w : World T) (cs : List (Nat × T)), Wf w this hd tl cs → pops.length ≤ cs.length →
      ∃ w2 cs2 vals, runPops this pops w = Res.ok vals w2 ∧ Wf w2 this hd tl cs2 ∧
        cs2.length = cs.length - pops.length ∧ vals.length = pops.length := by
  induction pops with
  | nil =>
    intro w cs h _
    exact ⟨w, cs, [], rfl, h, rfl, rfl⟩
  | cons p rest ih =>
    intro w cs h hlen
    simp only [List.length_cons] at hlen
    cases p with
    | first =>
      cases cs with
      | nil => simp at hlen
      | cons x post =>
        obtain ⟨w1, hrun, hwf, _⟩ := popFirst_spec x post h rfl
        obtain ⟨w2, cs2, vals, hrun2, hwf2, hl, hv⟩ :=
          ih w1 post hwf (by simp at hlen; omega)
        refine ⟨w2, cs2, x.2 :: vals, ?_, hwf2,
          by rw [hl]; simp only [List.length_cons, List.length_append, List.length_nil]; omega,
          by simp [hv]⟩
        simp only [runPops, Pop.run, bind_run, bind_ok hrun, bind_ok hrun2, pure_run]
    | last =>
      rcases List.eq_nil_or_concat cs with rfl | ⟨pre, x, hc⟩
      · simp at hlen
      · rw [List.concat_eq_append] at hc
        subst hc
        obtain ⟨w1, hrun, hwf, _⟩ := popLast_spec pre x h rfl
        obtain ⟨w2, cs2, vals, hrun2, hwf2, hl, hv⟩ :=
          ih w1 pre hwf (by simp at hlen; omega)
        refine ⟨w2, cs2, x.2 :: vals, ?_, hwf2,
          by rw [hl]; simp only [List.length_cons, List.length_append, List.length_nil]; omega,
          by simp [hv]⟩
        simp only [runPops, Pop.run, bind_run, bind_ok hrun, bind_ok hrun2, pure_run]

theorem demo_wf : Wf demo 0 0 1 [(2, 10), (3, 20)] :=
  ⟨rfl, by decide, by decide, by simp [nodes, DSeg_cons, demo]⟩

theorem demo_repr : Repr demo 0 [10, 20] := ⟨0, 1, _, demo_wf, rfl⟩

theorem demo2_wf0 : Wf demo2 0 0 1 [(2, 10), (3, 20)] :=
  ⟨rfl, by decide, by decide, by simp [nodes, DSeg_cons, demo2]⟩

theorem demo2_wf1 : Wf demo2 1 4 5 [(6, 30)] :=
  ⟨rfl, by decide, by decide, by simp [nodes, DSeg_cons, demo2]⟩

theorem demo2_repr : Repr demo2 0 [10, 20] := ⟨0, 1, _, demo2_wf0, rfl⟩

theorem demo2_repr2 : Repr2 demo2 1 [30] 0 [10, 20] :=
  ⟨4, 5, _, 0, 1, _, by decide, demo2_wf1, demo2_wf0, rfl, rfl,
    by simp [List.Disjoint, addrs, nodes]⟩

/-- The cell under the iterator `begin() + k`. -/
theorem Wf.pos_cell {w : World T} {this hd tl : Nat} {cs : List (Nat × T)}
    (h : Wf w this hd tl cs) (k : Nat) :
    ∃ z rest, cs.drop k ++ [(tl, default)] = z :: rest ∧
      headPtr (cs.drop k) (some tl) = some z.1 ∧
      w.cells z.1 = some ⟨z.2, headPtr rest none, lastPtr (some hd) (cs.take k)⟩ := by
  obtain ⟨z, rest, hz, ez⟩ :=
    headPtr_mem (T := T) none (l := cs.drop k ++ [(tl, default)]) (by simp)
  refine ⟨z, rest, hz, ?_, ?_⟩
  · rw [← ez, headPtr_append]
    rfl
  · have hchain := h.chain
    rw [nodes_split hd tl cs k, hz] at hchain
    simpa using DSeg_mid _ _ _ hchain

/-- The cell under `begin() + k` for `k` below the size is the `k`-th live
cell. -/
theorem Wf.pos_live {w : World T} {this hd tl : Nat} {cs : List (Nat × T)}
    (h : Wf w this hd tl cs) (k : Nat) (hk : k < cs.length) :
    headPtr (cs.drop k) (some tl) = some (cs[k]).1 ∧
      w.cells (cs[k]).1 = some ⟨(cs[k]).2, headPtr (cs.drop (k + 1)) (some tl),
        lastPtr (some hd) (cs.take k)⟩ := by
  have hdrop : cs.drop k = cs[k] :: cs.drop (k + 1) := List.drop_eq_getElem_cons hk
  exact ⟨by rw [hdrop]; rfl, h.cell_at k _ _ hdrop⟩


/-- The iterator `begin() + k` for `k` up to the size. -/
theorem begin_plus {w : World T} {this hd tl : Nat} {cs : List (Nat × T)}
    (h : Wf w this hd tl cs) (k : Nat) (hk : k ≤ cs.length) :
    (do let b ← LinkedList.begin this
        ConstIterator.add b (k : Int) : M (World T) ConstIterator) w =
      Res.ok ⟨headPtr (cs.drop k) (some tl)⟩ w := by
  simp only [bind_run, bind_ok (begin_spec h)]
  exact begin_add_spec h k hk

/-- The iterator `begin() + k` for `k` beyond the size. -/
theorem begin_plus_throw {w : World T} {this hd tl : Nat} {cs : List (Nat × T)}
    (h : Wf w this hd tl cs) (k : Nat) (hk : cs.length < k) :
    (do let b ← LinkedList.begin this
        ConstIterator.add b (k : Int) : M (World T) ConstIterator) w =
      Res.throw Exc.outOfRange w := by
  simp only [bind_run, bind_ok (begin_spec h)]
  exact add_past_end h k hk

/-- One step back from position `j + 1` leads to position `j`. -/
theorem Wf.back_cells {w : World T} {this hd tl : Nat} {cs : List (Nat × T)}
    (h : Wf w this hd tl cs) (j : Nat) (hj : j < cs.length) :
    ∃ a b n m, headPtr (cs.drop (j + 1)) (some tl) = some a ∧
      headPtr (cs.drop j) (some tl) = some b ∧ w.cells a = some n ∧ n.prev = some b ∧
      w.cells b = some m ∧ m.prev ≠ none := by
  obtain ⟨z, rest, _, hz1, hz2⟩ := h.pos_cell (j + 1)
  obtain ⟨hy1, hy2⟩ := h.pos_live j hj
  refine ⟨z.1, (cs[j]).1, _, _, hz1, hy1, hz2, ?_, hy2, lastPtr_ne_none _ _⟩
  show lastPtr (some hd) (cs.take (j + 1)) = some (cs[j]).1
  rw [lastPtr_take_succ (some hd) (some tl) cs j hj, hy1]

/-- The cell under `begin()` and the head sentinel before it. -/
theorem Wf.first_cells {w : World T} {this hd tl : Nat} {cs : List (Nat × T)}
    (h : Wf w this hd tl cs) :
    ∃ a n m, headPtr cs (some tl) = some a ∧ w.cells a = some n ∧ n.prev = some hd ∧
      w.cells hd = some m ∧ m.prev = none := by
  obtain ⟨z, rest, _, hz1, hz2⟩ := h.pos_cell 0
  exact ⟨z.1, _, _, by simpa using hz1, hz2, by simp, h.head_cell, rfl⟩

theorem subLoop_spec {w : World T} {this hd tl : Nat} {cs : List (Nat × T)}
    (h : Wf w this hd tl cs) :
    ∀ (d j : Nat), d ≤ j → j ≤ cs.length →
      ConstIterator.subLoop d (headPtr (cs.drop j) (some tl)) w =
        Res.ok (headPtr (cs.drop (j - d)) (some tl)) w := by
  intro d
  induction d with
  | zero =>
    intro j _ _
    simp [ConstIterator.subLoop]
  | succ d ih =>
    intro j hd hj
    obtain ⟨i, rfl⟩ : ∃ i, j = i + 1 := ⟨j - 1, by omega⟩
    obtain ⟨a, b, n, m, ha, hb, hca, hp, hcb, hm⟩ := h.back_cells i (by omega)
    rw [ha, subLoop_step d hca hp hcb hm, ← hb, ih i (by omega) (by omega)]
    congr 3
    omega

theorem sub_from_begin {w : World T} {this hd tl : Nat} {cs : List (Nat × T)}
    (h : Wf w this hd tl cs) (d : Int) (hd1 : 1 ≤ d) :
    ConstIterator.sub ⟨headPtr cs (some tl)⟩ d w = Res.throw Exc.outOfRange w := by
  obtain ⟨a, n, m, ha, hca, hp, hcm, hm⟩ := h.first_cells
  obtain ⟨k, hk⟩ : ∃ k, d.toNat = k + 1 := ⟨d.toNat - 1, by omega⟩
  simp only [ConstIterator.sub, bind_run, hk, ha, bind_throw (subLoop_first k hca hp hcm hm)]

theorem sub_spec {w : World T} {this hd tl : Nat} {cs : List (Nat × T)}
    (h : Wf w this hd tl cs) (d j : Nat) (hdj : d ≤ j) (hj : j ≤ cs.length) :
    ConstIterator.sub ⟨headPtr (cs.drop j) (some tl)⟩ (d : Int) w =
      Res.ok ⟨headPtr (cs.drop (j - d)) (some tl)⟩ w := by
  simp only [ConstIterator.sub, bind_run, Int.toNat_ofNat, bind_ok (subLoop_spec h d j hdj hj),
    pure_run]

/-- Backward steps past the first node throw. -/
theorem subLoop_past_begin {w : World T} {this hd tl : Nat} {cs : List (Nat × T)}
    (h : Wf w this hd tl cs) :
    ∀ (j d : Nat), j < d → j ≤ cs.length →
      ConstIterator.subLoop d (headPtr (cs.drop j) (some tl)) w =
        Res.throw Exc.outOfRange w := by
  intro j
  induction j with
  | zero =>
    intro d hd0 _
    obtain ⟨k, rfl⟩ : ∃ k, d = k + 1 := ⟨d - 1, by omega⟩
    obtain ⟨a, n, m, ha, hca, hp, hcm, hm⟩ := h.first_cells
    rw [List.drop_zero, ha]
    exact subLoop_first k hca hp hcm hm
  | succ i ih =>
    intro d hd0 hj
    obtain ⟨k, rfl⟩ : ∃ k, d = k + 1 := ⟨d - 1, by omega⟩
    obtain ⟨a, b, n, m, ha, hb, hca, hp, hcb, hm⟩ := h.back_cells i (by omega)
    rw [ha, subLoop_step k hca hp hcb hm, ← hb]
    exact ih k (by omega) (by omega)

/-- An offset backward by more than the position throws. -/
theorem sub_past_begin {w : World T} {this hd tl : Nat} {cs : List (Nat × T)}
    (h : Wf w this hd tl cs) (j d : Nat) (hjd : j < d) (hj : j ≤ cs.length) :
    ConstIterator.sub ⟨headPtr (cs.drop j) (some tl)⟩ (d : Int) w =
      Res.throw Exc.outOfRange w := by
  simp only [ConstIterator.sub, bind_run, Int.toNat_ofNat,
    bind_throw (subLoop_past_begin h j d hjd hj)]

/-- An offset forward from position `i`. -/
theorem add_from_spec {w : World T} {this hd tl : Nat} {cs : List (Nat × T)}
    (h : Wf w this hd tl cs) (i d : Nat) (hi : i ≤ cs.length) :
    ConstIterator.add ⟨headPtr (cs.drop i) (some tl)⟩ (d : Int) w =
      if i + d ≤ cs.length then Res.ok ⟨headPtr (cs.drop (i + d)) (some tl)⟩ w
      else Res.throw Exc.outOfRange w := by
  have hseg : DSeg w.cells (lastPtr (some hd) (cs.take i)) (cs.drop i) (some tl) := by
    have := h.live_seg
    rw [← List.take_append_drop i cs, DSeg_append] at this
    simpa using this.2
  by_cases hle : i + d ≤ cs.length
  · have := addLoop_spec d (cs.drop i) _ hseg (by simp; omega)
    simp only [ConstIterator.add, bind_run, Int.toNat_ofNat, bind_ok this, pure_run, hle,
      if_true, List.drop_drop]
  · have := addLoop_throw h.tail_cell (cs.drop i) _ d hseg (by simp; omega)
    simp only [ConstIterator.add, bind_run, Int.toNat_ofNat, bind_throw this, hle, if_false]

theorem visitLoop_spec {this hd tl : Nat} {w : World T} :
    ∀ (rest done : List (Nat × T)) (fuel : Nat),
      Wf w this hd tl (done ++ rest) → rest.length < fuel →
      LinkedList.visitLoop ⟨some tl⟩ fuel ⟨headPtr rest (some tl)⟩ w =
        Res.ok (rest.map (fun x => (some x.1, x.2))) w := by
  intro rest
  induction rest with
  | nil =>
    intro done fuel _ hf
    obtain ⟨f, rfl⟩ : ∃ f, fuel = f + 1 := ⟨fuel - 1, by simp at hf; omega⟩
    simp [LinkedList.visitLoop, ConstIterator.ne, ConstIterator.eq]
  | cons x rest ih =>
    intro done fuel h hf
    obtain ⟨f, rfl⟩ : ∃ f, fuel = f + 1 := ⟨fuel - 1, by simp at hf; omega⟩
    have hdrop : (done ++ x :: rest).drop done.length = x :: rest := by simp
    have hx := h.cell_at done.length x rest hdrop
    have hnext : headPtr rest (some tl) ≠ none := by cases rest <;> simp
    have hxtl : x.1 ≠ tl := by
      have hnd := h.nodup
      have e : nodes hd tl (done ++ x :: rest) =
          ((hd, default) :: done) ++ ([x] ++ (rest ++ [(tl, default)])) := by simp [nodes]
      rw [e] at hnd
      exact addrs_ne_of_nodup (addrs_nodup_right hnd) (a := x) (b := (tl, default))
        (List.mem_singleton.2 rfl) (List.mem_append.2 (Or.inr (List.mem_singleton.2 rfl)))
    have hassoc : done ++ x :: rest = (done ++ [x]) ++ rest := by simp
    have hrec := ih (done ++ [x]) f (by rw [← hassoc]; exact h) (by simp at hf; omega)
    have hne2 : ConstIterator.ne ⟨some x.1⟩ ⟨some tl⟩ = true := by
      simp [ConstIterator.ne, ConstIterator.eq, hxtl]
    simp only [LinkedList.visitLoop, headPtr_cons, hne2, if_true, bind_run,
      bind_ok (deref_ok hx hnext), bind_ok (preInc_ok hx hnext), bind_ok hrec, pure_run,
      ConstIterator.node, List.map_cons]

theorem forEach_spec {w : World T} {this hd tl : Nat} {cs : List (Nat × T)}
    (h : Wf w this hd tl cs) :
    LinkedList.forEach this w = Res.ok (cs.map (fun x => (some x.1, x.2))) w := by
  have hlen := h.length_lt
  simp only [LinkedList.forEach, bind_run, bind_ok (begin_spec h), bind_ok (end_spec h), rounds]
  have := visitLoop_spec (w := w) cs [] (w.brk + 1) (by simpa using h) (by omega)
  simpa [M.bind] using this

theorem Wf.sentinels_not_live {w : World T} {this hd tl : Nat} {cs : List (Nat × T)}
    (h : Wf w this hd tl cs) : hd ∉ addrs cs ∧ tl ∉ addrs cs := by
  have hnd := h.nodup
  simp only [nodes, addrs, List.map_cons, List.map_append, List.nodup_cons, List.nodup_append,
    List.mem_append, not_or, List.map_nil, List.mem_singleton] at hnd
  refine ⟨hnd.1.1, fun e => ?_⟩
  exact hnd.2.2.2 e (by simp)

/-- An iterator at a live cell of a well-formed list is `begin() + k` for some
`k` below the size, and its dereference returns the element of that cell. -/
theorem Wf.iter_at_cell {w : World T} {this hd tl : Nat} {cs : List (Nat × T)}
    (h : Wf w this hd tl cs) {x : Nat × T} (hx : x ∈ cs) :
    (∃ k : Nat, k < cs.length ∧
        (do let b ← LinkedList.begin this
            ConstIterator.add b (k : Int) : M (World T) ConstIterator) w =
          Res.ok ⟨some x.1⟩ w) ∧
      ConstIterator.deref ⟨some x.1⟩ w = Res.ok x.2 w := by
  obtain ⟨k, hk, rfl⟩ := List.getElem_of_mem hx
  obtain ⟨hp, hc⟩ := h.pos_live k hk
  have hnext : headPtr (cs.drop (k + 1)) (some tl) ≠ none := by
    cases cs.drop (k + 1) <;> simp
  exact ⟨⟨k, hk, by rw [begin_plus h k (by omega), hp]⟩, deref_ok hc hnext⟩

/-- The iterator `end()` is `begin() + size`. -/
theorem Wf.iter_at_end {w : World T} {this hd tl : Nat} {cs : List (Nat × T)}
    (h : Wf w this hd tl cs) :
    (do let b ← LinkedList.begin this
        ConstIterator.add b (cs.length : Int) : M (World T) ConstIterator) w =
      Res.ok ⟨some tl⟩ w := by
  rw [begin_plus h cs.length (le_refl _)]
  simp

/-- A well-formed list satisfies the representation invariant. -/
theorem Wf.repInv {w : World T} {this hd tl : Nat} {cs : List (Nat × T)}
    (h : Wf w this hd tl cs) : RepInv w this := by
  have hch := DSeg_chain _ h.chain
  have hmap : (nodes hd tl cs).map Prod.fst = hd :: (addrs cs ++ [tl]) := by
    simp [nodes, addrs]
  rw [hmap] at hch
  have hnd := h.nodup
  rw [addrs, hmap] at hnd
  obtain ⟨h1, h2⟩ := h.sentinels_not_live
  have hne : hd ≠ tl := by
    intro e
    simp only [List.nodup_cons, List.mem_append, List.mem_singleton, not_or] at hnd
    exact hnd.1.2 e
  refine ⟨_, hd, tl, addrs cs, h.obj, rfl, rfl, ⟨hch.imp (fun _ _ hab => hab.1), ?_, h1, ?_⟩,
    hch.imp (fun _ _ hab => ⟨fun _ => hab.2, fun _ => hab.1⟩), ?_, ?_⟩
  · simp only [List.mem_cons, not_or]
    exact ⟨fun e => hne e.symm, h2⟩
  · simp [addrs]
  · simp [prevOf, h.head_cell]
  · simp [nextOf, h.tail_cell]

/-- Two steps in a row make a step. -/
theorem Step.trans {w w1 w2 : World T} {this hd tl : Nat} {cs cs1 cs2 : List (Nat × T)}
    (h1 : Step w w1 this hd tl cs cs1) (h2 : Step w1 w2 this hd tl cs1 cs2) :
    Step w w2 this hd tl cs cs2 := by
  obtain ⟨_, hf1, hn1⟩ := h1
  obtain ⟨hw2, hf2, hn2⟩ := h2
  refine ⟨hw2, ⟨le_trans hf1.brk_le hf2.brk_le, fun o ho => ?_, fun a ha hab => ?_⟩,
    fun a ha => ?_⟩
  · rw [hf2.objs_eq o ho, hf1.objs_eq o ho]
  · rw [hf2.cells_eq a ?_ (lt_of_lt_of_le hab hf1.brk_le), hf1.cells_eq a ha hab]
    intro hm
    rcases hn1 a hm with h | h
    · exact ha h
    · exact absurd hab (not_lt.2 h)
  · rcases hn2 a ha with h | h
    · exact hn1 a h
    · exact Or.inr (le_trans hf1.brk_le h)

theorem runMuts_step {this hd tl : Nat} :
    ∀ (ms : List (Mut T)), (∀ m ∈ ms, m.ordered) →
      ∀ (w : World T) (cs : List (Nat × T)), Wf w this hd tl cs →
        ∃ w2 cs2, runMuts this ms w = some w2 ∧ Step w w2 this hd tl cs cs2 := by
  intro ms
  induction ms with
  | nil =>
    intro _ w cs h
    exact ⟨w, cs, rfl, Step.same h⟩
  | cons m rest ih =>
    intro hord w cs h
    obtain ⟨w1, cs1, hrun, hstep⟩ := mut_spec m (hord m (List.mem_cons_self _ _)) h
    obtain ⟨w2, cs2, hrun2, hstep2⟩ :=
      ih (fun x hx => hord x (List.mem_cons_of_mem _ hx)) w1 cs1 hstep.1
    refine ⟨w2, cs2, ?_, hstep.trans hstep2⟩
    rcases hrun with hrun | hrun <;> simp only [runMuts, hrun] <;> exact hrun2

theorem appendEach_spec {this hd tl : Nat} :
    ∀ (l : List T) (w : World T) (cs : List (Nat × T)), Wf w this hd tl cs →
      ∃ w2 cs2, LinkedList.appendEach this l w = Res.ok () w2 ∧
        Step w w2 this hd tl cs cs2 ∧ cs2.map Prod.snd = cs.map Prod.snd ++ l := by
  intro l
  induction l with
  | nil =>
    intro w cs h
    exact ⟨w, cs, rfl, Step.same h, by simp⟩
  | cons v rest ih =>
    intro w cs h
    obtain ⟨w1, hrun, hwf, hfr⟩ := append_spec h v
    have hstep : Step w w1 this hd tl cs (cs ++ [(w.brk, v)]) :=
      mkStep hwf hfr (fun y hy => by
        rcases List.mem_append.1 hy with hy | hy
        · exact Or.inl (List.mem_map_of_mem _ hy)
        · rw [List.mem_singleton.1 hy]
          exact Or.inr (le_refl _))
    obtain ⟨w2, cs2, hrun2, hstep2, hmap⟩ := ih w1 _ hwf
    refine ⟨w2, cs2, ?_, hstep.trans hstep2, by simpa using hmap⟩
    simp only [LinkedList.appendEach, bind_run, bind_ok hrun]
    exact hrun2

/-- The initializer-list constructor builds a well-formed list holding the
given elements and touches nothing that was allocated before. -/
theorem constructFrom_spec (w : World T) (this : Nat) (l : List T) :
    ∃ w2 cs, LinkedList.constructFrom this l w = Res.ok () w2 ∧
      Wf w2 this w.brk (w.brk + 1) cs ∧ cs.map Prod.snd = l ∧ Frame w w2 this [] ∧
      ∀ a ∈ addrs (nodes w.brk (w.brk + 1) cs), w.brk ≤ a := by
  obtain ⟨w1, hrun1, hwf1, hbrk1, hobjs1, hcells1⟩ := construct_spec w this
  obtain ⟨w2, cs2, hrun2, hstep, hmap⟩ := appendEach_spec l w1 [] hwf1
  refine ⟨w2, cs2, ?_, hstep.1, by simpa using hmap, ⟨?_, fun o ho => ?_, fun a _ hab => ?_⟩,
    fun a ha => ?_⟩
  · simp only [LinkedList.constructFrom, bind_run, bind_ok hrun1]
    exact hrun2
  · have := hstep.2.1.brk_le
    omega
  · rw [hstep.2.1.objs_eq o ho, hobjs1 o ho]
  · rw [hstep.2.1.cells_eq a ?_ (by omega), hcells1 a hab]
    intro hm
    simp [nodes, addrs] at hm
    omega
  · rcases hstep.2.2 a ha with h | h
    · simp [nodes, addrs] at h
      omega
    · omega

/-- A list built by a constructor is separate from every list that was there
before. -/
theorem fresh_sep {w w2 : World T} {this src hd tl hs ts : Nat} {cs css : List (Nat × T)}
    (hsrc : Wf w src hs ts css) (hne : this ≠ src) (hfr : Frame w w2 this [])
    (hfresh : ∀ a ∈ addrs (nodes hd tl cs), w.brk ≤ a) :
    Wf w2 src hs ts css ∧
      List.Disjoint (addrs (nodes hd tl cs)) (addrs (nodes hs ts css)) := by
  refine ⟨Wf_frame hsrc hfr (Ne.symm hne) (by simp [List.Disjoint]), fun a ha hb => ?_⟩
  exact absurd (hsrc.bound a hb) (not_lt.2 (hfresh a ha))

theorem runOps_spec {this src hd tl hs ts : Nat} {css : List (Nat × T)} (hne : this ≠ src) :
    ∀ (ops : List (Op T)), (∀ o ∈ ops, o.ordered) →
      ∀ (w : World T) (cs : List (Nat × T)), Wf w this hd tl cs → Wf w src hs ts css →
        List.Disjoint (addrs (nodes hd tl cs)) (addrs (nodes hs ts css)) →
        ∃ w2 cs2, runOps this src ops w = some w2 ∧ Wf w2 this hd tl cs2 ∧
          Wf w2 src hs ts css ∧
          List.Disjoint (addrs (nodes hd tl cs2)) (addrs (nodes hs ts css)) := by
  intro ops
  induction ops with
  | nil =>
    intro _ w cs h1 h2 hdis
    exact ⟨w, cs, rfl, h1, h2, hdis⟩
  | cons o rest ih =>
    intro hord w cs h1 h2 hdis
    have hrest : ∀ x ∈ rest, x.ordered := fun x hx => hord x (List.mem_cons_of_mem _ hx)
    cases o with
    | call m =>
      obtain ⟨w1, cs1, hrun, hstep⟩ := mut_spec m (hord _ (List.mem_cons_self _ _)) h1
      obtain ⟨h2b, hdisb⟩ := sep_step hstep h2 hne hdis
      obtain ⟨w2, cs2, hrun2, hr⟩ := ih hrest w1 cs1 hstep.1 h2b hdisb
      refine ⟨w2, cs2, ?_, hr⟩
      rcases hrun with hrun | hrun <;> simp only [runOps, Op.run, hrun] <;> exact hrun2
    | copyFrom =>
      obtain ⟨w1, cs1, hrun, hwf1, _, h2b, hdisb⟩ := copyAssign_spec h1 h2 hne hdis
      obtain ⟨w2, cs2, hrun2, hr⟩ := ih hrest w1 cs1 hwf1 h2b hdisb
      refine ⟨w2, cs2, ?_, hr⟩
      simp only [runOps, Op.run, hrun]
      exact hrun2

theorem constructFrom_nil (w : World T) (this : Nat) :
    LinkedList.constructFrom this [] w = LinkedList.construct this w := by
  obtain ⟨w1, hrun, _⟩ := construct_spec w this
  simp only [LinkedList.constructFrom, bind_run, bind_ok hrun, LinkedList.appendEach, pure_run,
    hrun]

end WfLemmas

/-! ## The claims -/

section Claims
variable {T : Type} [Inhabited T]

/-- C1. Any finite sequence of `append` and `prepend` calls on a
default-constructed list returns normally; afterwards `getSize()` is the
number of calls and `operator[](i)` returns, for every `i` below the size, the
`i`-th element of the sequence built by putting appended values at the back
and prepended values at the front. -/
theorem C1_append_prepend_sequence (w : World T) (this : Nat) (calls : List (Call T)) :
    ∃ w2, (do LinkedList.construct this; runCalls this calls : M (World T) Unit) w
        = Res.ok () w2 ∧
      LinkedList.getSize this w2 = Res.ok calls.length w2 ∧
      ∀ i : Nat, i < calls.length →
        ∃ x, (expected [] calls)[i]? = some x ∧
          LinkedList.index this (i : Int) w2 = Res.ok x w2 := by
  obtain ⟨w1, hrun1, hwf1, _⟩ := construct_spec w this
  obtain ⟨w2, cs2, hrun2, hwf2, hc⟩ := runCalls_spec this _ _ calls w1 [] hwf1
  have hlen : cs2.length = calls.length := by
    have := congrArg List.length hc
    simpa [expected_length] using this
  refine ⟨w2, ?_, ?_, fun i hi => ?_⟩
  · simp only [bind_run, bind_ok hrun1]
    exact hrun2
  · rw [getSize_spec hwf2, hlen]
  · have hi2 : i < cs2.length := by omega
    refine ⟨(cs2[i]).2, ?_, ?_⟩
    · have : (expected [] calls)[i]? = (cs2.map Prod.snd)[i]? := by rw [hc]; rfl
      rw [this]
      simp [hi2]
    · rw [index_spec hwf2]
      simp [hi2]

/-- C2. On a list holding `xs`, `operator[](pos)` throws `std::out_of_range`
exactly when `pos < 0` or `pos >= getSize()`; for every other `pos` it returns
the element at position `pos` of the chain that starts at `head.next`, and the
state is not changed. -/
theorem C2_index_bounds (w : World T) (this : Nat) (xs : List T) (h : Repr w this xs)
    (pos : Int) :
    LinkedList.getSize this w = Res.ok xs.length w ∧
      ((LinkedList.index this pos w).exc? = some Exc.outOfRange ↔
        (pos < 0 ∨ (xs.length : Int) ≤ pos)) ∧
      (0 ≤ pos → pos < (xs.length : Int) →
        ∃ x, xs[pos.toNat]? = some x ∧ LinkedList.index this pos w = Res.ok x w) := by
  obtain ⟨hd, tl, cs, hwf, rfl⟩ := h
  refine ⟨by rw [getSize_spec hwf]; simp, ?_, ?_⟩
  · rw [index_spec hwf]
    by_cases h0 : 0 ≤ pos
    · by_cases h1 : pos.toNat < cs.length
      · have : ¬ ((cs.length : Int) ≤ pos) := by omega
        simp [h0, h1, Res.exc?, this]
      · have : (cs.length : Int) ≤ pos := by omega
        simp [h0, List.getElem?_eq_none (Nat.le_of_not_lt h1), Res.exc?, this]
    · have : pos < 0 := by omega
      simp [h0, Res.exc?, this]
  · intro h0 h1
    have h2 : pos.toNat < cs.length := by
      simp only [List.length_map] at h1
      omega
    refine ⟨(cs[pos.toNat]).2, by simp [h2], ?_⟩
    rw [index_spec hwf]
    simp [h0, h2]

/-- Witness for C2 on the sample list `[10, 20]` at index `1`. -/
theorem C2_index_bounds_witness :
    Repr demo 0 [10, 20] ∧
      (LinkedList.getSize 0 demo = Res.ok [10, 20].length demo ∧
        ((LinkedList.index 0 1 demo).exc? = some Exc.outOfRange ↔
          ((1 : Int) < 0 ∨ (([10, 20] : List Nat).length : Int) ≤ 1)) ∧
        ((0 : Int) ≤ 1 → (1 : Int) < (([10, 20] : List Nat).length : Int) →
          ∃ x, ([10, 20] : List Nat)[(1 : Int).toNat]? = some x ∧
            LinkedList.index 0 1 demo = Res.ok x demo)) :=
  ⟨demo_repr, C2_index_bounds demo 0 [10, 20] demo_repr 1⟩

/-- C3. On a list holding `xs`, `insert(begin()+k, v)` with `0 ≤ k ≤ size`
returns and leaves the list holding the first `k` elements of `xs`, then `v`,
then the other elements, with `getSize()` one larger; and `insert(end(), v)`
ends in the very same state as `append(v)`. -/
theorem C3_insert_at (w : World T) (this : Nat) (xs : List T) (h : Repr w this xs)
    (k : Nat) (hk : k ≤ xs.length) (v : T) :
    (∃ w2, (do
          let b ← LinkedList.begin this
          let p ← ConstIterator.add b (k : Int)
          LinkedList.insert this p v : M (World T) Unit) w = Res.ok () w2 ∧
        Repr w2 this (xs.take k ++ v :: xs.drop k) ∧
        LinkedList.getSize this w2 = Res.ok (xs.length + 1) w2) ∧
      (do let e ← LinkedList.end this; LinkedList.insert this e v : M (World T) Unit) w =
        LinkedList.append this v w := by
  obtain ⟨hd, tl, cs, hwf, rfl⟩ := h
  simp only [List.length_map] at hk
  refine ⟨?_, insert_end_eq_append hwf v⟩
  obtain ⟨w2, hrun, hwf2, _⟩ := insert_spec hwf k v
  refine ⟨w2, ?_, ⟨hd, tl, _, hwf2, by simp [List.map_take, List.map_drop]⟩, ?_⟩
  · simp only [bind_run, bind_ok (begin_spec hwf), bind_ok (begin_add_spec hwf k hk)]
    exact hrun
  · rw [getSize_spec hwf2]
    simp
    omega

/-- Witness for C3: inserting `99` at `begin()+1` into the sample list. -/
theorem C3_insert_at_witness :
    (Repr demo 0 [10, 20] ∧ 1 ≤ ([10, 20] : List Nat).length) ∧
      ((∃ w2, (do
            let b ← LinkedList.begin 0
            let p ← ConstIterator.add b ((1 : Nat) : Int)
            LinkedList.insert 0 p 99 : M (World Nat) Unit) demo = Res.ok () w2 ∧
          Repr w2 0 (([10, 20] : List Nat).take 1 ++ 99 :: ([10, 20] : List Nat).drop 1) ∧
          LinkedList.getSize 0 w2 = Res.ok (([10, 20] : List Nat).length + 1) w2) ∧
        (do let e ← LinkedList.end 0; LinkedList.insert 0 e 99 : M (World Nat) Unit) demo =
          LinkedList.append 0 99 demo) :=
  ⟨⟨demo_repr, by decide⟩, C3_insert_at demo 0 [10, 20] demo_repr 1 (by decide) 99⟩

/-- C4. On a list holding `xs`, `erase(begin()+i, begin()+j)` with
`0 ≤ i ≤ j ≤ size` returns and removes exactly the `j - i` elements at the
positions `i .. j-1`: the list then holds the first `i` elements of `xs`
followed by the elements from position `j` on, `getSize()` has dropped by
`j - i`, and for `i = j` the call changes nothing: the state after it is the
state before it. -/
theorem C4_erase_range (w : World T) (this : Nat) (xs : List T) (h : Repr w this xs)
    (i j : Nat) (hij : i ≤ j) (hj : j ≤ xs.length) :
    ∃ w2, (do
          let b ← LinkedList.begin this
          let first ← ConstIterator.add b (i : Int)
          let b2 ← LinkedList.begin this
          let last ← ConstIterator.add b2 (j : Int)
          LinkedList.eraseRange this first last : M (World T) Unit) w = Res.ok () w2 ∧
      Repr w2 this (xs.take i ++ xs.drop j) ∧
      LinkedList.getSize this w2 = Res.ok (xs.length - (j - i)) w2 ∧
      (i = j → w2 = w) := by
  obtain ⟨hd, tl, cs, hwf, rfl⟩ := h
  simp only [List.length_map] at hj
  have hmid := split_range cs i j hij
  have hcs : cs = cs.take i ++ ((cs.drop i).take (j - i) ++ cs.drop j) := by
    rw [← hmid, List.take_append_drop]
  obtain ⟨w2, hrun, hwf2, _⟩ :=
    eraseRange_spec (cs.take i) ((cs.drop i).take (j - i)) (cs.drop j) hwf hcs
  rw [← hmid] at hrun
  have hrepr : Repr w2 this ((cs.map Prod.snd).take i ++ (cs.map Prod.snd).drop j) :=
    ⟨hd, tl, _, hwf2, by simp [List.map_take, List.map_drop]⟩
  refine ⟨w2, ?_, hrepr, ?_, ?_⟩
  · simp only [bind_run, bind_ok (begin_spec hwf), bind_ok (begin_add_spec hwf i (by omega)),
      bind_ok (begin_add_spec hwf j hj)]
    exact hrun
  · rw [getSize_spec hwf2]
    simp only [List.length_append, List.length_take, List.length_drop, List.length_map]
    congr 1
    omega
  · rintro rfl
    have hsame := eraseRange_same hwf i
    rw [hrun] at hsame
    cases hsame
    rfl

/-- Witness for C4: erasing positions `0 .. 0` of the sample list. -/
theorem C4_erase_range_witness :
    (Repr demo 0 [10, 20] ∧ 0 ≤ 1 ∧ 1 ≤ ([10, 20] : List Nat).length) ∧
      ∃ w2, (do
            let b ← LinkedList.begin 0
            let first ← ConstIterator.add b ((0 : Nat) : Int)
            let b2 ← LinkedList.begin 0
            let last ← ConstIterator.add b2 ((1 : Nat) : Int)
            LinkedList.eraseRange 0 first last : M (World Nat) Unit) demo = Res.ok () w2 ∧
        Repr w2 0 (([10, 20] : List Nat).take 0 ++ ([10, 20] : List Nat).drop 1) ∧
        LinkedList.getSize 0 w2 = Res.ok (([10, 20] : List Nat).length - (1 - 0)) w2 ∧
        (0 = 1 → w2 = demo) :=
  ⟨⟨demo_repr, by decide, by decide⟩,
    C4_erase_range demo 0 [10, 20] demo_repr 0 1 (by decide) (by decide)⟩

/-- C5. On a non-empty list holding `xs`, `erase(begin()+k)` with
`0 ≤ k < size` returns and removes exactly the element at position `k`: the
list then holds `xs` without that position, the other elements in their
order, and `getSize()` is one smaller. -/
theorem C5_erase_at (w : World T) (this : Nat) (xs : List T) (h : Repr w this xs)
    (k : Nat) (hk : k < xs.length) :
    ∃ w2, (do
          let b ← LinkedList.begin this
          let p ← ConstIterator.add b (k : Int)
          LinkedList.erase this p : M (World T) Unit) w = Res.ok () w2 ∧
      Repr w2 this (xs.eraseIdx k) ∧
      LinkedList.getSize this w2 = Res.ok (xs.length - 1) w2 := by
  obtain ⟨hd, tl, cs, hwf, rfl⟩ := h
  simp only [List.length_map] at hk
  have hdrop : cs.drop k = cs[k] :: cs.drop (k + 1) := List.drop_eq_getElem_cons hk
  have hcs : cs = cs.take k ++ cs[k] :: cs.drop (k + 1) := by
    rw [← hdrop, List.take_append_drop]
  obtain ⟨w2, hrun, hwf2, _⟩ := erase_spec (cs.take k) cs[k] (cs.drop (k + 1)) hwf hcs
  refine ⟨w2, ?_, ⟨hd, tl, _, hwf2, ?_⟩, ?_⟩
  · simp only [bind_run, bind_ok (begin_spec hwf), bind_ok (begin_add_spec hwf k (by omega)),
      hdrop, headPtr_cons]
    exact hrun
  · rw [List.eraseIdx_eq_take_drop_succ]
    simp [List.map_take, List.map_drop]
  · rw [getSize_spec hwf2]
    simp only [List.length_append, List.length_take, List.length_drop, List.length_map]
    congr 1
    omega

/-- Witness for C5: erasing position `1` of the sample list. -/
theorem C5_erase_at_witness :
    (Repr demo 0 [10, 20] ∧ 1 < ([10, 20] : List Nat).length) ∧
      ∃ w2, (do
            let b ← LinkedList.begin 0
            let p ← ConstIterator.add b ((1 : Nat) : Int)
            LinkedList.erase 0 p : M (World Nat) Unit) demo = Res.ok () w2 ∧
        Repr w2 0 (([10, 20] : List Nat).eraseIdx 1) ∧
        LinkedList.getSize 0 w2 = Res.ok (([10, 20] : List Nat).length - 1) w2 :=
  ⟨⟨demo_repr, by decide⟩, C5_erase_at demo 0 [10, 20] demo_repr 1 (by decide)⟩

/-- C6. `erase(pos)` throws `std::out_of_range` on an empty list, whatever
`pos` is, and on a non-empty list when `pos` is `end()`; the state at the
throw is the state before the call, so contents, links and size are as they
were. -/
theorem C6_erase_refused (w : World T) (this : Nat) (xs : List T) (h : Repr w this xs) :
    (xs = [] → ∀ pos : ConstIterator,
        LinkedList.erase this pos w = Res.throw Exc.outOfRange w) ∧
      (xs ≠ [] →
        (do let e ← LinkedList.end this; LinkedList.erase this e : M (World T) Unit) w =
          Res.throw Exc.outOfRange w) := by
  obtain ⟨hd, tl, cs, hwf, rfl⟩ := h
  refine ⟨fun he pos => ?_, fun hne => ?_⟩
  · have : cs = [] := by simpa using he
    subst this
    exact erase_empty hwf pos
  · have : cs ≠ [] := by simpa using hne
    simp only [bind_run, bind_ok (end_spec hwf)]
    exact erase_end hwf this

/-- Witness for C6 on the sample list. -/
theorem C6_erase_refused_witness :
    Repr demo 0 [10, 20] ∧
      ((([10, 20] : List Nat) = [] → ∀ pos : ConstIterator,
          LinkedList.erase 0 pos demo = Res.throw Exc.outOfRange demo) ∧
        (([10, 20] : List Nat) ≠ [] →
          (do let e ← LinkedList.end 0; LinkedList.erase 0 e : M (World Nat) Unit) demo =
            Res.throw Exc.outOfRange demo)) :=
  ⟨demo_repr, C6_erase_refused demo 0 [10, 20] demo_repr⟩

/-- C7. On a non-empty list holding `xs`, `popFirst()` returns the first
element and leaves the rest, `popLast()` returns the last element and leaves
the elements before it; in both cases `getSize()` is one smaller. -/
theorem C7_pop_values (w : World T) (this : Nat) (xs : List T) (h : Repr w this xs)
    (hne : xs ≠ []) :
    (∃ x w2, xs[0]? = some x ∧ LinkedList.popFirst this w = Res.ok x w2 ∧
        Repr w2 this (xs.drop 1) ∧
        LinkedList.getSize this w2 = Res.ok (xs.length - 1) w2) ∧
      (∃ x w2, xs[xs.length - 1]? = some x ∧ LinkedList.popLast this w = Res.ok x w2 ∧
        Repr w2 this (xs.take (xs.length - 1)) ∧
        LinkedList.getSize this w2 = Res.ok (xs.length - 1) w2) := by
  obtain ⟨hd, tl, cs, hwf, rfl⟩ := h
  have hcne : cs ≠ [] := by simpa using hne
  constructor
  · obtain ⟨x, post, rfl⟩ := List.exists_cons_of_ne_nil hcne
    obtain ⟨w2, hrun, hwf2, _⟩ := popFirst_spec x post hwf rfl
    exact ⟨x.2, w2, by simp, hrun, ⟨hd, tl, post, hwf2, by simp⟩,
      by rw [getSize_spec hwf2]; simp⟩
  · rcases List.eq_nil_or_concat cs with rfl | ⟨pre, x, hc⟩
    · exact absurd rfl hcne
    · rw [List.concat_eq_append] at hc
      subst hc
      obtain ⟨w2, hrun, hwf2, _⟩ := popLast_spec pre x hwf rfl
      exact ⟨x.2, w2, by simp, hrun, ⟨hd, tl, pre, hwf2, by simp⟩,
        by rw [getSize_spec hwf2]; simp⟩

/-- Witness for C7 on the sample list. -/
theorem C7_pop_values_witness :
    (Repr demo 0 [10, 20] ∧ ([10, 20] : List Nat) ≠ []) ∧
      ((∃ x w2, ([10, 20] : List Nat)[0]? = some x ∧
          LinkedList.popFirst 0 demo = Res.ok x w2 ∧
          Repr w2 0 (([10, 20] : List Nat).drop 1) ∧
          LinkedList.getSize 0 w2 = Res.ok (([10, 20] : List Nat).length - 1) w2) ∧
        (∃ x w2, ([10, 20] : List Nat)[([10, 20] : List Nat).length - 1]? = some x ∧
          LinkedList.popLast 0 demo = Res.ok x w2 ∧
          Repr w2 0 (([10, 20] : List Nat).take (([10, 20] : List Nat).length - 1)) ∧
          LinkedList.getSize 0 w2 = Res.ok (([10, 20] : List Nat).length - 1) w2)) :=
  ⟨⟨demo_repr, by decide⟩, C7_pop_values demo 0 [10, 20] demo_repr (by decide)⟩

/-- C8. On a list of size `n`, any `n` pops, each one `popFirst()` or
`popLast()`, all return; afterwards `getSize()` is `0`, `isEmpty()` is true,
and a further `popFirst()` or `popLast()` throws `std::out_of_range` from a
state it has not changed. -/
theorem C8_pop_until_empty (w : World T) (this : Nat) (xs : List T) (h : Repr w this xs)
    (pops : List Pop) (hlen : pops.length = xs.length) :
    ∃ vals w2, runPops this pops w = Res.ok vals w2 ∧ vals.length = xs.length ∧
      Repr w2 this [] ∧
      LinkedList.getSize this w2 = Res.ok 0 w2 ∧
      LinkedList.isEmpty this w2 = Res.ok true w2 ∧
      LinkedList.popFirst this w2 = Res.throw Exc.outOfRange w2 ∧
      LinkedList.popLast this w2 = Res.throw Exc.outOfRange w2 := by
  obtain ⟨hd, tl, cs, hwf, rfl⟩ := h
  simp only [List.length_map] at hlen
  obtain ⟨w2, cs2, vals, hrun, hwf2, hl, hv⟩ :=
    runPops_spec this hd tl pops w cs hwf (by omega)
  have : cs2 = [] := List.length_eq_zero.1 (by omega)
  subst this
  exact ⟨vals, w2, hrun, by simp [hv, hlen], ⟨hd, tl, [], hwf2, rfl⟩, getSize_spec hwf2,
    isEmpty_spec hwf2, popFirst_empty hwf2, popLast_empty hwf2⟩

/-- Witness for C8: popping last and then first from the sample list. -/
theorem C8_pop_until_empty_witness :
    (Repr demo 0 [10, 20] ∧
        ([Pop.last, Pop.first] : List Pop).length = ([10, 20] : List Nat).length) ∧
      ∃ vals w2, runPops 0 [Pop.last, Pop.first] demo = Res.ok vals w2 ∧
        vals.length = ([10, 20] : List Nat).length ∧
        Repr w2 0 [] ∧
        LinkedList.getSize 0 w2 = Res.ok 0 w2 ∧
        LinkedList.isEmpty 0 w2 = Res.ok true w2 ∧
        LinkedList.popFirst 0 w2 = Res.throw Exc.outOfRange w2 ∧
        LinkedList.popLast 0 w2 = Res.throw Exc.outOfRange w2 :=
  ⟨⟨demo_repr, by decide⟩, C8_pop_until_empty demo 0 [10, 20] demo_repr _ (by decide)⟩

/-- C9. Copying a list `src` that holds `xs` into `dst`, by the copy
constructor or by copy assignment over a destination with any prior contents
`ys`, returns; afterwards `dst` holds `xs`, `src` still holds `xs`, and the
two lists share no cell. From there any series of mutating calls on `dst`
(`append`, `prepend`, `insert`, `popFirst`, `popLast`, both forms of `erase`,
a write through an iterator; calls that throw included, a range erase being
given its iterators in order) ends with `src` still holding `xs`. Copy
assignment of a list to itself does nothing. -/
theorem C9_copy_independent (w : World T) (src dst : Nat) (xs : List T)
    (hsrc : Repr w src xs) (hne : dst ≠ src) :
    (∃ w2, LinkedList.copyConstruct dst src w = Res.ok () w2 ∧ Repr2 w2 dst xs src xs ∧
        ∀ ms : List (Mut T), (∀ m ∈ ms, m.ordered) →
          ∃ w3 zs, runMuts dst ms w2 = some w3 ∧ Repr2 w3 dst zs src xs) ∧
      (∀ ys, Repr2 w dst ys src xs →
        ∃ w2, LinkedList.copyAssign dst src w = Res.ok () w2 ∧ Repr2 w2 dst xs src xs ∧
          ∀ ms : List (Mut T), (∀ m ∈ ms, m.ordered) →
            ∃ w3 zs, runMuts dst ms w2 = some w3 ∧ Repr2 w3 dst zs src xs) ∧
      LinkedList.copyAssign src src w = Res.ok () w := by
  refine ⟨?_, fun ys h => ?_, by simp [LinkedList.copyAssign]⟩
  · obtain ⟨hs, ts, css, ho, rfl⟩ := hsrc
    obtain ⟨w2, cs2, hrun, hwf2, hmap, ho2, hdis2⟩ := copyConstruct_spec ho hne
    have hr : Repr2 w2 dst (css.map Prod.snd) src (css.map Prod.snd) :=
      ⟨_, _, cs2, hs, ts, css, hne, hwf2, ho2, hmap, rfl, hdis2⟩
    exact ⟨w2, hrun, hr, fun ms hord => hr.muts ms hord⟩
  · obtain ⟨hd, tl, cs, hs, ts, css, hne2, ht, ho, _, rfl, hdis⟩ := h
    obtain ⟨w2, cs2, hrun, hwf2, hmap, ho2, hdis2⟩ := copyAssign_spec ht ho hne2 hdis
    have hr : Repr2 w2 dst (css.map Prod.snd) src (css.map Prod.snd) :=
      ⟨hd, tl, cs2, hs, ts, css, hne2, hwf2, ho2, hmap, rfl, hdis2⟩
    exact ⟨w2, hrun, hr, fun ms hord => hr.muts ms hord⟩

/-- Witness for C9: copying the sample list `[10, 20]` into the object `1`,
which held `[30]`, and then overwriting, popping and erasing in the copy. -/
theorem C9_copy_independent_witness :
    (Repr demo2 0 [10, 20] ∧ (1 : Nat) ≠ 0 ∧ Repr2 demo2 1 [30] 0 [10, 20] ∧
        ∀ m ∈ [Mut.write 0 7, Mut.popLast, Mut.eraseRange 0 1, Mut.append (5 : Nat)],
          m.ordered) ∧
      ((∃ w2, LinkedList.copyConstruct 1 0 demo2 = Res.ok () w2 ∧
          Repr2 w2 1 [10, 20] 0 [10, 20] ∧
          ∃ w3 zs, runMuts 1 [Mut.write 0 7, Mut.popLast, Mut.eraseRange 0 1, Mut.append 5] w2
              = some w3 ∧ Repr2 w3 1 zs 0 [10, 20]) ∧
        (∃ w2, LinkedList.copyAssign 1 0 demo2 = Res.ok () w2 ∧
          Repr2 w2 1 [10, 20] 0 [10, 20] ∧
          ∃ w3 zs, runMuts 1 [Mut.write 0 7, Mut.popLast, Mut.eraseRange 0 1, Mut.append 5] w2
              = some w3 ∧ Repr2 w3 1 zs 0 [10, 20]) ∧
        LinkedList.copyAssign 0 0 demo2 = Res.ok () demo2) := by
  have hord : ∀ m ∈ [Mut.write 0 7, Mut.popLast, Mut.eraseRange 0 1, Mut.append (5 : Nat)],
      m.ordered := by
    simp [Mut.ordered]
  have h := C9_copy_independent demo2 0 1 [10, 20] demo2_repr (by decide)
  refine ⟨⟨demo2_repr, by decide, demo2_repr2, hord⟩, ?_, ?_, h.2.2⟩
  · obtain ⟨w2, h1, h2, h3⟩ := h.1
    exact ⟨w2, h1, h2, h3 _ hord⟩
  · obtain ⟨w2, h1, h2, h3⟩ := h.2.1 [30] demo2_repr2
    exact ⟨w2, h1, h2, h3 _ hord⟩

/-- C10. Moving a list that holds `xs` into `dst`, by the move constructor
or by move assignment over a destination with any prior contents `ys`,
returns and leaves `dst` holding `xs`: `getSize()` is `|xs|` and
`operator[](i)` is `xs[i]` for every `i` below it. Move assignment of a list
to itself does nothing. -/
theorem C10_move_keeps_elements (w : World T) (src dst : Nat) (xs : List T)
    (hsrc : Repr w src xs) (hne : dst ≠ src) :
    (∃ w2, LinkedList.moveConstruct dst src w = Res.ok () w2 ∧
        LinkedList.getSize dst w2 = Res.ok xs.length w2 ∧
        ∀ i : Nat, i < xs.length →
          ∃ x, xs[i]? = some x ∧ LinkedList.index dst (i : Int) w2 = Res.ok x w2) ∧
      (∀ ys, Repr2 w dst ys src xs →
        ∃ w2, LinkedList.moveAssign dst src w = Res.ok () w2 ∧
          LinkedList.getSize dst w2 = Res.ok xs.length w2 ∧
          ∀ i : Nat, i < xs.length →
            ∃ x, xs[i]? = some x ∧ LinkedList.index dst (i : Int) w2 = Res.ok x w2) ∧
      LinkedList.moveAssign src src w = Res.ok () w := by
  refine ⟨?_, fun ys h => ?_, by simp [LinkedList.moveAssign]⟩
  · obtain ⟨hd, tl, cs, hwf, rfl⟩ := hsrc
    obtain ⟨w2, hrun, hwf2, _⟩ := moveConstruct_spec hwf hne
    exact ⟨w2, hrun, Repr.reads ⟨hd, tl, cs, hwf2, rfl⟩⟩
  · obtain ⟨hd1, tl1, cs1, hd2, tl2, cs2, hne, h1, h2, _, rfl, hdis⟩ := h
    obtain ⟨w2, hrun, hwf2, _⟩ := moveAssign_spec h1 h2 hne hdis
    exact ⟨w2, hrun, Repr.reads ⟨hd2, tl2, cs2, hwf2, rfl⟩⟩

/-- Witness for C10: moving the sample list `[10, 20]` into the object `1`,
which held `[30]`. -/
theorem C10_move_keeps_elements_witness :
    (Repr demo2 0 [10, 20] ∧ (1 : Nat) ≠ 0 ∧ Repr2 demo2 1 [30] 0 [10, 20]) ∧
      ((∃ w2, LinkedList.moveConstruct 1 0 demo2 = Res.ok () w2 ∧
          LinkedList.getSize 1 w2 = Res.ok ([10, 20] : List Nat).length w2 ∧
          ∀ i : Nat, i < ([10, 20] : List Nat).length →
            ∃ x, ([10, 20] : List Nat)[i]? = some x ∧
              LinkedList.index 1 (i : Int) w2 = Res.ok x w2) ∧
        (∃ w2, LinkedList.moveAssign 1 0 demo2 = Res.ok () w2 ∧
          LinkedList.getSize 1 w2 = Res.ok ([10, 20] : List Nat).length w2 ∧
          ∀ i : Nat, i < ([10, 20] : List Nat).length →
            ∃ x, ([10, 20] : List Nat)[i]? = some x ∧
              LinkedList.index 1 (i : Int) w2 = Res.ok x w2) ∧
        LinkedList.moveAssign 0 0 demo2 = Res.ok () demo2) :=
  ⟨⟨demo2_repr, by decide, demo2_repr2⟩,
    (C10_move_keeps_elements demo2 0 1 [10, 20] demo2_repr (by decide)).1,
    (C10_move_keeps_elements demo2 0 1 [10, 20] demo2_repr (by decide)).2.1 [30] demo2_repr2,
    (C10_move_keeps_elements demo2 0 1 [10, 20] demo2_repr (by decide)).2.2⟩

/-- C11 as stated fails: after the move construction of the object `2` from
the sample list `0`, `operator[](0)` on the moved-from list throws
`std::runtime_error`, which is not `std::out_of_range`. -/
theorem C11_moved_from_access_counterexample :
    ∃ w2, LinkedList.moveConstruct 2 0 demo2 = Res.ok () w2 ∧
      (LinkedList.index 0 0 w2).exc? = some Exc.runtimeError ∧
      (LinkedList.index 0 0 w2).exc? ≠ some Exc.outOfRange := by
  obtain ⟨w2, hrun, _, hobj, _⟩ := moveConstruct_spec demo2_wf0 (by decide : (2 : Nat) ≠ 0)
  refine ⟨w2, hrun, ?_, ?_⟩ <;> rw [index_null_head hobj] <;> simp [Res.exc?]

/-- C11, amended. After a list holding `xs` has been moved from, `operator[](i)`
on it throws for every index `i` and changes nothing: `std::runtime_error`
after move construction, `std::out_of_range` after move assignment. -/
theorem C11_moved_from_access (w : World T) (src dst : Nat) (xs : List T)
    (hsrc : Repr w src xs) (hne : dst ≠ src) (i : Int) :
    (∃ w2, LinkedList.moveConstruct dst src w = Res.ok () w2 ∧
        LinkedList.index src i w2 = Res.throw Exc.runtimeError w2) ∧
      (∀ ys, Repr2 w dst ys src xs →
        ∃ w2, LinkedList.moveAssign dst src w = Res.ok () w2 ∧
          LinkedList.index src i w2 = Res.throw Exc.outOfRange w2) := by
  refine ⟨?_, fun ys h => ?_⟩
  · obtain ⟨hd, tl, cs, hwf, rfl⟩ := hsrc
    obtain ⟨w2, hrun, _, hobj, _⟩ := moveConstruct_spec hwf hne
    exact ⟨w2, hrun, index_null_head hobj i⟩
  · obtain ⟨hd1, tl1, cs1, hd2, tl2, cs2, hne2, h1, h2, _, _, hdis⟩ := h
    obtain ⟨w2, hrun, _, hobj, hc, _⟩ := moveAssign_spec h1 h2 hne2 hdis
    exact ⟨w2, hrun, index_empty_chain hobj hc i⟩

/-- Witness for the amended C11: the sample list `[10, 20]` moved into the
object `1`, read at index `0`. -/
theorem C11_moved_from_access_witness :
    (Repr demo2 0 [10, 20] ∧ (1 : Nat) ≠ 0 ∧ Repr2 demo2 1 [30] 0 [10, 20]) ∧
      ((∃ w2, LinkedList.moveConstruct 1 0 demo2 = Res.ok () w2 ∧
          LinkedList.index 0 0 w2 = Res.throw Exc.runtimeError w2) ∧
        (∃ w2, LinkedList.moveAssign 1 0 demo2 = Res.ok () w2 ∧
          LinkedList.index 0 0 w2 = Res.throw Exc.outOfRange w2)) :=
  ⟨⟨demo2_repr, by decide, demo2_repr2⟩,
    (C11_moved_from_access demo2 0 1 [10, 20] demo2_repr (by decide) 0).1,
    (C11_moved_from_access demo2 0 1 [10, 20] demo2_repr (by decide) 0).2 [30] demo2_repr2⟩

/-- C12. On a list holding `xs`, empty or not: dereferencing an iterator
equal to `end()` (or `cend()`) throws `std::out_of_range`, and so do its pre-
and post-increment, which leave the iterator where it was; at every live
position `k` the dereference returns `xs[k]` and both increments return and
move the iterator to position `k + 1`. -/
theorem C12_end_boundary (w : World T) (this : Nat) (xs : List T) (h : Repr w this xs) :
    (∃ e, LinkedList.end this w = Res.ok e w ∧
        ∀ it : ConstIterator, it.eq e = true →
          ConstIterator.deref it w = (Res.throw Exc.outOfRange w : Res (World T) T) ∧
          ConstIterator.preInc (it, w) = Res.throw Exc.outOfRange (it, w) ∧
          ConstIterator.postInc (it, w) = Res.throw Exc.outOfRange (it, w)) ∧
      ∀ k : Nat, k < xs.length →
        ∃ it nxt x,
          (do let b ← LinkedList.begin this
              ConstIterator.add b (k : Int) : M (World T) ConstIterator) w = Res.ok it w ∧
          (do let b ← LinkedList.begin this
              ConstIterator.add b ((k + 1 : Nat) : Int) : M (World T) ConstIterator) w =
            Res.ok nxt w ∧
          xs[k]? = some x ∧
          ConstIterator.deref it w = Res.ok x w ∧
          ConstIterator.preInc (it, w) = Res.ok nxt (nxt, w) ∧
          ConstIterator.postInc (it, w) = Res.ok it (nxt, w) := by
  obtain ⟨hd, tl, cs, hwf, rfl⟩ := h
  refine ⟨⟨⟨some tl⟩, end_spec hwf, fun it hit => ?_⟩, fun k hk => ?_⟩
  · have : it = ⟨some tl⟩ := by
      cases it
      simpa [ConstIterator.eq] using hit
    subst this
    exact ⟨deref_no_next hwf.tail_cell, preInc_run_end hwf.tail_cell,
      postInc_run_end hwf.tail_cell⟩
  · have hk2 : k < cs.length := by simpa using hk
    obtain ⟨hp, hc⟩ := hwf.pos_live k hk2
    have hnext : headPtr (cs.drop (k + 1)) (some tl) ≠ none := by
      cases cs.drop (k + 1) <;> simp
    refine ⟨⟨some (cs[k]).1⟩, ⟨headPtr (cs.drop (k + 1)) (some tl)⟩, (cs[k]).2, ?_, ?_,
      by simp [hk2], deref_ok hc hnext, preInc_run_ok hc hnext, postInc_run_ok hc hnext⟩
    · rw [begin_plus hwf k (by omega), hp]
    · exact begin_plus hwf (k + 1) (by omega)

/-- Witness for C12 on the sample list, at position `1`. -/
theorem C12_end_boundary_witness :
    Repr demo 0 [10, 20] ∧
      ((∃ e, LinkedList.end 0 demo = Res.ok e demo ∧
          ∀ it : ConstIterator, it.eq e = true →
            ConstIterator.deref it demo = (Res.throw Exc.outOfRange demo : Res (World Nat) Nat) ∧
            ConstIterator.preInc (it, demo) = Res.throw Exc.outOfRange (it, demo) ∧
            ConstIterator.postInc (it, demo) = Res.throw Exc.outOfRange (it, demo)) ∧
        ∀ k : Nat, k < ([10, 20] : List Nat).length →
          ∃ it nxt x,
            (do let b ← LinkedList.begin 0
                ConstIterator.add b (k : Int) : M (World Nat) ConstIterator) demo =
              Res.ok it demo ∧
            (do let b ← LinkedList.begin 0
                ConstIterator.add b ((k + 1 : Nat) : Int) : M (World Nat) ConstIterator) demo =
              Res.ok nxt demo ∧
            ([10, 20] : List Nat)[k]? = some x ∧
            ConstIterator.deref it demo = Res.ok x demo ∧
            ConstIterator.preInc (it, demo) = Res.ok nxt (nxt, demo) ∧
            ConstIterator.postInc (it, demo) = Res.ok it (nxt, demo)) :=
  ⟨demo_repr, C12_end_boundary demo 0 [10, 20] demo_repr⟩

/-- C13. On a list holding `xs`, empty or not: the pre- and post-decrement of
an iterator equal to `begin()` throw `std::out_of_range` and leave the
iterator where it was, and `begin() - d` throws for every `d ≥ 1`; on an empty
list `begin()` is `end()`. At every position `k ≥ 1`, `end()` included, both
decrements and the offset `- 1` return and lead to position `k - 1`; more
generally the offset `- d` leads to position `k - d` for `d ≤ k` and throws
`std::out_of_range` for `d > k`. -/
theorem C13_begin_boundary (w : World T) (this : Nat) (xs : List T) (h : Repr w this xs) :
    (∃ b, LinkedList.begin this w = Res.ok b w ∧
        (∀ it : ConstIterator, it.eq b = true →
          ConstIterator.preDec (it, w) = Res.throw Exc.outOfRange (it, w) ∧
          ConstIterator.postDec (it, w) = Res.throw Exc.outOfRange (it, w) ∧
          ∀ d : Int, 1 ≤ d → ConstIterator.sub it d w = Res.throw Exc.outOfRange w) ∧
        (xs = [] → ∃ e, LinkedList.end this w = Res.ok e w ∧ b.eq e = true)) ∧
      ∀ k : Nat, 1 ≤ k → k ≤ xs.length →
        ∃ it prv,
          (do let b ← LinkedList.begin this
              ConstIterator.add b (k : Int) : M (World T) ConstIterator) w = Res.ok it w ∧
          (do let b ← LinkedList.begin this
              ConstIterator.add b ((k - 1 : Nat) : Int) : M (World T) ConstIterator) w =
            Res.ok prv w ∧
          ConstIterator.preDec (it, w) = Res.ok prv (prv, w) ∧
          ConstIterator.postDec (it, w) = Res.ok it (prv, w) ∧
          ConstIterator.sub it 1 w = Res.ok prv w ∧
          (∀ d : Nat, d ≤ k → ∃ r,
            (do let b ← LinkedList.begin this
                ConstIterator.add b ((k - d : Nat) : Int) : M (World T) ConstIterator) w =
              Res.ok r w ∧
            ConstIterator.sub it (d : Int) w = Res.ok r w) ∧
          ∀ d : Nat, k < d → ConstIterator.sub it (d : Int) w = Res.throw Exc.outOfRange w := by
  obtain ⟨hd, tl, cs, hwf, rfl⟩ := h
  refine ⟨⟨⟨headPtr cs (some tl)⟩, begin_spec hwf, fun it hit => ?_, fun he => ?_⟩,
    fun k hk1 hk => ?_⟩
  · have : it = ⟨headPtr cs (some tl)⟩ := by
      cases it
      simpa [ConstIterator.eq] using hit
    subst this
    obtain ⟨a, n, m, ha, hca, hp, hcm, hm⟩ := hwf.first_cells
    refine ⟨?_, ?_, fun d hd1 => sub_from_begin hwf d hd1⟩
    · rw [ha]
      exact preDec_run_first hca hp hcm hm
    · rw [ha]
      exact postDec_run_first hca hp hcm hm
  · have : cs = [] := by simpa using he
    subst this
    exact ⟨⟨some tl⟩, end_spec hwf, by simp [ConstIterator.eq]⟩
  · have hk2 : k ≤ cs.length := by simpa using hk
    obtain ⟨j, rfl⟩ : ∃ j, k = j + 1 := ⟨k - 1, by omega⟩
    obtain ⟨a, b, n, m, ha, hb, hca, hp, hcb, hm⟩ := hwf.back_cells j (by omega)
    refine ⟨⟨some a⟩, ⟨some b⟩, ?_, ?_, preDec_run_ok hca hp hcb hm,
      postDec_run_ok hca hp hcb hm, ?_, fun d hd => ?_, fun d hd => ?_⟩
    · rw [begin_plus hwf (j + 1) hk2, ha]
    · rw [Nat.add_sub_cancel, begin_plus hwf j (by omega), hb]
    · have := sub_spec hwf 1 (j + 1) (by omega) hk2
      rw [ha, Nat.add_sub_cancel, hb] at this
      exact this
    · refine ⟨_, begin_plus hwf (j + 1 - d) (by omega), ?_⟩
      have := sub_spec hwf d (j + 1) hd hk2
      rw [ha] at this
      exact this
    · have := sub_past_begin hwf (j + 1) d hd hk2
      rw [ha] at this
      exact this

/-- Witness for C13 on the sample list. -/
theorem C13_begin_boundary_witness :
    Repr demo 0 [10, 20] ∧
      ((∃ b, LinkedList.begin 0 demo = Res.ok b demo ∧
          (∀ it : ConstIterator, it.eq b = true →
            ConstIterator.preDec (it, demo) = Res.throw Exc.outOfRange (it, demo) ∧
            ConstIterator.postDec (it, demo) = Res.throw Exc.outOfRange (it, demo) ∧
            ∀ d : Int, 1 ≤ d → ConstIterator.sub it d demo = Res.throw Exc.outOfRange demo) ∧
          (([10, 20] : List Nat) = [] →
            ∃ e, LinkedList.end 0 demo = Res.ok e demo ∧ b.eq e = true)) ∧
        ∀ k : Nat, 1 ≤ k → k ≤ ([10, 20] : List Nat).length →
          ∃ it prv,
            (do let b ← LinkedList.begin 0
                ConstIterator.add b (k : Int) : M (World Nat) ConstIterator) demo =
              Res.ok it demo ∧
            (do let b ← LinkedList.begin 0
                ConstIterator.add b ((k - 1 : Nat) : Int) : M (World Nat) ConstIterator) demo =
              Res.ok prv demo ∧
            ConstIterator.preDec (it, demo) = Res.ok prv (prv, demo) ∧
            ConstIterator.postDec (it, demo) = Res.ok it (prv, demo) ∧
            ConstIterator.sub it 1 demo = Res.ok prv demo ∧
            (∀ d : Nat, d ≤ k → ∃ r,
              (do let b ← LinkedList.begin 0
                  ConstIterator.add b ((k - d : Nat) : Int) : M (World Nat) ConstIterator) demo =
                Res.ok r demo ∧
              ConstIterator.sub it (d : Int) demo = Res.ok r demo) ∧
            ∀ d : Nat, k < d →
              ConstIterator.sub it (d : Int) demo = Res.throw Exc.outOfRange demo) :=
  ⟨demo_repr, C13_begin_boundary demo 0 [10, 20] demo_repr⟩

/-- C14. On a list holding `xs` of size `n`: for `k < n` the dereference of
`begin() + k` returns what `operator[](k)` returns, namely `xs[k]`;
`begin() + n` is `end()`; `begin() + k` throws `std::out_of_range` for every
`k > n`; and the loop from `begin()` to `end()` by increments returns after
reading exactly the elements `xs`, in order, at nodes that are neither `_head`
nor `_tail`. -/
theorem C14_offsets_and_iteration (w : World T) (this : Nat) (xs : List T)
    (h : Repr w this xs) :
    (∀ k : Nat, k < xs.length →
        ∃ it x,
          (do let b ← LinkedList.begin this
              ConstIterator.add b (k : Int) : M (World T) ConstIterator) w = Res.ok it w ∧
          xs[k]? = some x ∧ ConstIterator.deref it w = Res.ok x w ∧
          LinkedList.index this (k : Int) w = Res.ok x w) ∧
      (∃ it e,
          (do let b ← LinkedList.begin this
              ConstIterator.add b (xs.length : Int) : M (World T) ConstIterator) w =
            Res.ok it w ∧
          LinkedList.end this w = Res.ok e w ∧ it.eq e = true) ∧
      (∀ k : Nat, xs.length < k →
        (do let b ← LinkedList.begin this
            ConstIterator.add b (k : Int) : M (World T) ConstIterator) w =
          Res.throw Exc.outOfRange w) ∧
      ∃ visited, LinkedList.forEach this w = Res.ok visited w ∧
        visited.map Prod.snd = xs ∧
        ∀ l, w.objs this = some l →
          l.head ∉ visited.map Prod.fst ∧ l.tail ∉ visited.map Prod.fst := by
  obtain ⟨hd, tl, cs, hwf, rfl⟩ := h
  refine ⟨fun k hk => ?_, ?_, fun k hk => ?_, ?_⟩
  · have hk2 : k < cs.length := by simpa using hk
    obtain ⟨hp, hc⟩ := hwf.pos_live k hk2
    have hnext : headPtr (cs.drop (k + 1)) (some tl) ≠ none := by
      cases cs.drop (k + 1) <;> simp
    refine ⟨⟨some (cs[k]).1⟩, (cs[k]).2, ?_, by simp [hk2], deref_ok hc hnext, ?_⟩
    · rw [begin_plus hwf k (by omega), hp]
    · rw [index_spec hwf]
      simp [hk2]
  · refine ⟨⟨some tl⟩, ⟨some tl⟩, ?_, end_spec hwf, by simp [ConstIterator.eq]⟩
    rw [List.length_map, begin_plus hwf cs.length (le_refl _)]
    simp
  · exact begin_plus_throw hwf k (by simpa using hk)
  · refine ⟨_, forEach_spec hwf, by simp, fun l hl => ?_⟩
    rw [hwf.obj] at hl
    cases hl
    obtain ⟨h1, h2⟩ := hwf.sentinels_not_live
    simp only [List.map_map, List.mem_map, Function.comp, Option.some.injEq, not_exists, not_and]
    exact ⟨fun x hx e => h1 (e ▸ List.mem_map_of_mem Prod.fst hx),
      fun x hx e => h2 (e ▸ List.mem_map_of_mem Prod.fst hx)⟩

/-- Witness for C14 on the sample list. -/
theorem C14_offsets_and_iteration_witness :
    Repr demo 0 [10, 20] ∧
      ((∀ k : Nat, k < ([10, 20] : List Nat).length →
          ∃ it x,
            (do let b ← LinkedList.begin 0
                ConstIterator.add b (k : Int) : M (World Nat) ConstIterator) demo =
              Res.ok it demo ∧
            ([10, 20] : List Nat)[k]? = some x ∧ ConstIterator.deref it demo = Res.ok x demo ∧
            LinkedList.index 0 (k : Int) demo = Res.ok x demo) ∧
        (∃ it e,
            (do let b ← LinkedList.begin 0
                ConstIterator.add b (([10, 20] : List Nat).length : Int) :
                  M (World Nat) ConstIterator) demo = Res.ok it demo ∧
            LinkedList.end 0 demo = Res.ok e demo ∧ it.eq e = true) ∧
        (∀ k : Nat, ([10, 20] : List Nat).length < k →
          (do let b ← LinkedList.begin 0
              ConstIterator.add b (k : Int) : M (World Nat) ConstIterator) demo =
            Res.throw Exc.outOfRange demo) ∧
        ∃ visited, LinkedList.forEach 0 demo = Res.ok visited demo ∧
          visited.map Prod.snd = [10, 20] ∧
          ∀ l, demo.objs 0 = some l →
            l.head ∉ visited.map Prod.fst ∧ l.tail ∉ visited.map Prod.fst) :=
  ⟨demo_repr, C14_offsets_and_iteration demo 0 [10, 20] demo_repr⟩

/-- C15. On a list holding `xs`, let `p` be the iterator at the live position
`kp` and `q` the iterator at another position `kq`, live or `end()`. After
`erase(p)`, and likewise after `insert(p, v)`, `q` is again an iterator of the
list, reached from `begin()` by some offset up to the size; when `q` was at a
live position its dereference returns the same value `xs[kq]` as before; and
the comparison of `q` with `end()` gives what it gave before. -/
theorem C15_other_iterators_survive (w : World T) (this : Nat) (xs : List T)
    (h : Repr w this xs) (kp kq : Nat) (hp : kp < xs.length) (hq : kq ≤ xs.length)
    (hne : kq ≠ kp) (p q : ConstIterator) (v : T)
    (hpit : (do let b ← LinkedList.begin this
                ConstIterator.add b (kp : Int) : M (World T) ConstIterator) w = Res.ok p w)
    (hqit : (do let b ← LinkedList.begin this
                ConstIterator.add b (kq : Int) : M (World T) ConstIterator) w = Res.ok q w) :
    (∃ w2 n2 e, LinkedList.erase this p w = Res.ok () w2 ∧
        LinkedList.getSize this w2 = Res.ok n2 w2 ∧
        (∃ k : Nat, k ≤ n2 ∧
          (do let b ← LinkedList.begin this
              ConstIterator.add b (k : Int) : M (World T) ConstIterator) w2 = Res.ok q w2) ∧
        (kq < xs.length → ∃ x, xs[kq]? = some x ∧ ConstIterator.deref q w = Res.ok x w ∧
          ConstIterator.deref q w2 = Res.ok x w2) ∧
        LinkedList.end this w = Res.ok e w ∧ LinkedList.end this w2 = Res.ok e w2) ∧
      (∃ w2 n2 e, LinkedList.insert this p v w = Res.ok () w2 ∧
        LinkedList.getSize this w2 = Res.ok n2 w2 ∧
        (∃ k : Nat, k ≤ n2 ∧
          (do let b ← LinkedList.begin this
              ConstIterator.add b (k : Int) : M (World T) ConstIterator) w2 = Res.ok q w2) ∧
        (kq < xs.length → ∃ x, xs[kq]? = some x ∧ ConstIterator.deref q w = Res.ok x w ∧
          ConstIterator.deref q w2 = Res.ok x w2) ∧
        LinkedList.end this w = Res.ok e w ∧ LinkedList.end this w2 = Res.ok e w2) := by
  obtain ⟨hd, tl, cs, hwf, rfl⟩ := h
  simp only [List.length_map] at hp hq
  rw [begin_plus hwf kp (by omega)] at hpit
  rw [begin_plus hwf kq hq] at hqit
  cases hpit
  cases hqit
  have hdrop : cs.drop kp = cs[kp] :: cs.drop (kp + 1) := List.drop_eq_getElem_cons hp
  have hcs : cs = cs.take kp ++ cs[kp] :: cs.drop (kp + 1) := by
    rw [← hdrop, List.take_append_drop]
  have hcsnd : cs.Nodup := by
    have := hwf.nodup
    simp only [nodes, addrs, List.map_cons, List.map_append, List.nodup_cons,
      List.nodup_append] at this
    exact List.Nodup.of_map _ this.2.1
  obtain ⟨w2, hrun, hwf2, _⟩ := erase_spec (cs.take kp) cs[kp] (cs.drop (kp + 1)) hwf hcs
  obtain ⟨w3, hrun3, hwf3, _⟩ := insert_spec hwf kp v
  have hposp : headPtr (cs.drop kp) (some tl) = some (cs[kp]).1 := by rw [hdrop]; rfl
  rw [hposp] at hrun3 ⊢
  refine ⟨⟨w2, _, ⟨some tl⟩, hrun, getSize_spec hwf2, ?_, ?_, end_spec hwf, end_spec hwf2⟩,
    ⟨w3, _, ⟨some tl⟩, hrun3, getSize_spec hwf3, ?_, ?_, end_spec hwf, end_spec hwf3⟩⟩
  · rcases Nat.lt_or_ge kq cs.length with hlt | hge
    · have hx : cs[kq] ∈ cs.take kp ++ cs.drop (kp + 1) :=
        mem_erase_split cs kp hp (List.getElem_mem hlt)
          (fun e => hne ((hcsnd.getElem_inj_iff).1 e))
      obtain ⟨⟨k, hk, hit⟩, _⟩ := hwf2.iter_at_cell hx
      rw [(hwf.pos_live kq hlt).1]
      exact ⟨k, by omega, hit⟩
    · have : kq = cs.length := by omega
      subst this
      refine ⟨_, le_refl _, ?_⟩
      rw [hwf2.iter_at_end]
      simp
  · intro hlt
    simp only [List.length_map] at hlt
    have hx : cs[kq] ∈ cs.take kp ++ cs.drop (kp + 1) :=
      mem_erase_split cs kp hp (List.getElem_mem hlt)
        (fun e => hne ((hcsnd.getElem_inj_iff).1 e))
    rw [(hwf.pos_live kq hlt).1]
    exact ⟨(cs[kq]).2, by simp [hlt], (hwf.iter_at_cell (List.getElem_mem hlt)).2,
      (hwf2.iter_at_cell hx).2⟩
  · rcases Nat.lt_or_ge kq cs.length with hlt | hge
    · have hx : cs[kq] ∈ cs.take kp ++ (w.brk, v) :: cs.drop kp :=
        mem_insert_split cs kp _ (List.getElem_mem hlt)
      obtain ⟨⟨k, hk, hit⟩, _⟩ := hwf3.iter_at_cell hx
      rw [(hwf.pos_live kq hlt).1]
      exact ⟨k, by omega, hit⟩
    · have : kq = cs.length := by omega
      subst this
      refine ⟨_, le_refl _, ?_⟩
      rw [hwf3.iter_at_end]
      simp
  · intro hlt
    simp only [List.length_map] at hlt
    have hx : cs[kq] ∈ cs.take kp ++ (w.brk, v) :: cs.drop kp :=
      mem_insert_split cs kp _ (List.getElem_mem hlt)
    rw [(hwf.pos_live kq hlt).1]
    exact ⟨(cs[kq]).2, by simp [hlt], (hwf.iter_at_cell (List.getElem_mem hlt)).2,
      (hwf3.iter_at_cell hx).2⟩

/-- Witness for C15 on the sample list: `p` at position `0`, `q` at position
`1`. -/
theorem C15_other_iterators_survive_witness :
    (Repr demo 0 [10, 20] ∧ 0 < ([10, 20] : List Nat).length ∧
        1 ≤ ([10, 20] : List Nat).length ∧ (1 : Nat) ≠ 0 ∧
        (do let b ← LinkedList.begin 0
            ConstIterator.add b ((0 : Nat) : Int) : M (World Nat) ConstIterator) demo =
          Res.ok ⟨some 2⟩ demo ∧
        (do let b ← LinkedList.begin 0
            ConstIterator.add b ((1 : Nat) : Int) : M (World Nat) ConstIterator) demo =
          Res.ok ⟨some 3⟩ demo) ∧
      ((∃ w2 n2 e, LinkedList.erase 0 ⟨some 2⟩ demo = Res.ok () w2 ∧
          LinkedList.getSize 0 w2 = Res.ok n2 w2 ∧
          (∃ k : Nat, k ≤ n2 ∧
            (do let b ← LinkedList.begin 0
                ConstIterator.add b (k : Int) : M (World Nat) ConstIterator) w2 =
              Res.ok ⟨some 3⟩ w2) ∧
          (1 < ([10, 20] : List Nat).length → ∃ x, ([10, 20] : List Nat)[1]? = some x ∧
            ConstIterator.deref ⟨some 3⟩ demo = Res.ok x demo ∧
            ConstIterator.deref ⟨some 3⟩ w2 = Res.ok x w2) ∧
          LinkedList.end 0 demo = Res.ok e demo ∧ LinkedList.end 0 w2 = Res.ok e w2) ∧
        (∃ w2 n2 e, LinkedList.insert 0 ⟨some 2⟩ 99 demo = Res.ok () w2 ∧
          LinkedList.getSize 0 w2 = Res.ok n2 w2 ∧
          (∃ k : Nat, k ≤ n2 ∧
            (do let b ← LinkedList.begin 0
                ConstIterator.add b (k : Int) : M (World Nat) ConstIterator) w2 =
              Res.ok ⟨some 3⟩ w2) ∧
          (1 < ([10, 20] : List Nat).length → ∃ x, ([10, 20] : List Nat)[1]? = some x ∧
            ConstIterator.deref ⟨some 3⟩ demo = Res.ok x demo ∧
            ConstIterator.deref ⟨some 3⟩ w2 = Res.ok x w2) ∧
          LinkedList.end 0 demo = Res.ok e demo ∧ LinkedList.end 0 w2 = Res.ok e w2)) :=
  ⟨⟨demo_repr, by decide, by decide, by decide, rfl, rfl⟩,
    C15_other_iterators_survive demo 0 [10, 20] demo_repr 0 1 (by decide) (by decide)
      (by decide) ⟨some 2⟩ ⟨some 3⟩ 99 rfl rfl⟩

/-- C16. The end-to-end scenario, run from the state with no list and no
node: after the default constructor, `append(1)`, `append(2)`, `append(3)`
the size is 3 and the list holds `[1, 2, 3]`; `popFirst()` returns `1` and the
size is 2; `insert(begin()+1, 99)` gives `[2, 99, 3]`;
`erase(begin(), begin()+2)` gives `[3]`; `popLast()` returns `3` and the size
is 0; one more `popLast()` throws `std::out_of_range`. -/
theorem C16_end_to_end :
    ∃ w1 w2 w3 w4 w5 : World Nat,
      (do LinkedList.construct 0
          LinkedList.append 0 1
          LinkedList.append 0 2
          LinkedList.append 0 3 : M (World Nat) Unit) World.empty = Res.ok () w1 ∧
      LinkedList.getSize 0 w1 = Res.ok 3 w1 ∧ Repr w1 0 [1, 2, 3] ∧
      LinkedList.popFirst 0 w1 = Res.ok 1 w2 ∧
      LinkedList.getSize 0 w2 = Res.ok 2 w2 ∧ Repr w2 0 [2, 3] ∧
      (do let b ← LinkedList.begin 0
          let p ← ConstIterator.add b 1
          LinkedList.insert 0 p 99 : M (World Nat) Unit) w2 = Res.ok () w3 ∧
      Repr w3 0 [2, 99, 3] ∧
      (do let b ← LinkedList.begin 0
          let b2 ← LinkedList.begin 0
          let last ← ConstIterator.add b2 2
          LinkedList.eraseRange 0 b last : M (World Nat) Unit) w3 = Res.ok () w4 ∧
      Repr w4 0 [3] ∧
      LinkedList.popLast 0 w4 = Res.ok 3 w5 ∧
      LinkedList.getSize 0 w5 = Res.ok 0 w5 ∧
      LinkedList.popLast 0 w5 = Res.throw Exc.outOfRange w5 := by
  obtain ⟨wa, ha, hwa, _⟩ := construct_spec (World.empty : World Nat) 0
  obtain ⟨wb, hb, hwb, _⟩ := append_spec hwa 1
  obtain ⟨wc, hc, hwc, _⟩ := append_spec hwb 2
  obtain ⟨w1, h1, hw1, _⟩ := append_spec hwc 3
  simp only [List.nil_append, List.singleton_append, List.cons_append] at hw1
  obtain ⟨w2, h2, hw2, _⟩ := popFirst_spec _ _ hw1 rfl
  obtain ⟨w3, h3, hw3, _⟩ := insert_spec hw2 1 99
  simp only [List.take_succ_cons, List.take_zero, List.drop_succ_cons, List.drop_zero,
    List.singleton_append, headPtr_cons] at hw3 h3
  obtain ⟨w4, h4, hw4, _⟩ := eraseRange_spec [] [_, _] [_] hw3 rfl
  simp only [List.nil_append, List.cons_append, headPtr_cons] at hw4 h4
  obtain ⟨w5, h5, hw5, _⟩ := popLast_spec [] _ hw4 rfl
  refine ⟨w1, w2, w3, w4, w5, ?_, getSize_spec hw1, ⟨_, _, _, hw1, rfl⟩, h2, getSize_spec hw2,
    ⟨_, _, _, hw2, rfl⟩, ?_, ⟨_, _, _, hw3, rfl⟩, ?_, ⟨_, _, _, hw4, rfl⟩, h5,
    getSize_spec hw5, popLast_empty hw5⟩
  · simp only [bind_run, bind_ok ha, bind_ok hb, bind_ok hc]
    exact h1
  · have := begin_plus hw2 1 (by simp)
    simp only [bind_run, bind_ok (begin_spec hw2), Nat.cast_one] at this ⊢
    rw [bind_ok this]
    exact h3
  · have := begin_plus hw3 2 (by simp)
    simp only [bind_run, bind_ok (begin_spec hw3), Nat.cast_ofNat] at this ⊢
    rw [bind_ok this]
    exact h4

/-- C17. The representation invariant — (1) following `next` from `_head`
reaches `_tail` through exactly `_size` nodes, (2) every adjacent pair of that
chain is linked both ways, (3) `_head->prev` and `_tail->next` are null —
holds in every list produced by the default, the initializer-list or the copy
constructor and after every series of calls of `append`, `prepend`, `insert`,
`popFirst`, `popLast`, `erase(pos)`, `erase(first, last)` with `first` not
after `last`, and copy assignment, whether the calls return or throw. -/
theorem C17_representation_invariant (w : World T) (this : Nat) :
    (∀ (l : List T) (ms : List (Mut T)), (∀ m ∈ ms, m.ordered) →
        (∃ w1 w2, LinkedList.construct this w = Res.ok () w1 ∧
          runMuts this ms w1 = some w2 ∧ RepInv w2 this) ∧
        (∃ w1 w2, LinkedList.constructFrom this l w = Res.ok () w1 ∧
          runMuts this ms w1 = some w2 ∧ RepInv w2 this)) ∧
      (∀ (src : Nat) (xs l : List T) (ops : List (Op T)), Repr w src xs → this ≠ src →
        (∀ o ∈ ops, o.ordered) →
        (∃ w1 w2, LinkedList.construct this w = Res.ok () w1 ∧
          runOps this src ops w1 = some w2 ∧ RepInv w2 this) ∧
        (∃ w1 w2, LinkedList.constructFrom this l w = Res.ok () w1 ∧
          runOps this src ops w1 = some w2 ∧ RepInv w2 this) ∧
        (∃ w1 w2, LinkedList.copyConstruct this src w = Res.ok () w1 ∧
          runOps this src ops w1 = some w2 ∧ RepInv w2 this)) := by
  have single : ∀ (l : List T) (ms : List (Mut T)), (∀ m ∈ ms, m.ordered) →
      ∃ w1 w2, LinkedList.constructFrom this l w = Res.ok () w1 ∧
        runMuts this ms w1 = some w2 ∧ RepInv w2 this := by
    intro l ms hord
    obtain ⟨w1, cs, hrun, hwf, _⟩ := constructFrom_spec w this l
    obtain ⟨w2, cs2, hrun2, hstep⟩ := runMuts_step ms hord w1 cs hwf
    exact ⟨w1, w2, hrun, hrun2, hstep.1.repInv⟩
  have double : ∀ (src : Nat) (xs l : List T) (ops : List (Op T)), Repr w src xs →
      this ≠ src → (∀ o ∈ ops, o.ordered) →
      ∃ w1 w2, LinkedList.constructFrom this l w = Res.ok () w1 ∧
        runOps this src ops w1 = some w2 ∧ RepInv w2 this := by
    intro src xs l ops hsrc hne hord
    obtain ⟨hs, ts, css, ho, _⟩ := hsrc
    obtain ⟨w1, cs, hrun, hwf, _, hfr, hfresh⟩ := constructFrom_spec w this l
    obtain ⟨ho1, hdis⟩ := fresh_sep ho hne hfr hfresh
    obtain ⟨w2, cs2, hrun2, hwf2, _⟩ := runOps_spec hne ops hord w1 cs hwf ho1 hdis
    exact ⟨w1, w2, hrun, hrun2, hwf2.repInv⟩
  refine ⟨fun l ms hord => ⟨?_, single l ms hord⟩, fun src xs l ops hsrc hne hord =>
    ⟨?_, double src xs l ops hsrc hne hord, ?_⟩⟩
  · rw [← constructFrom_nil]
    exact single [] ms hord
  · rw [← constructFrom_nil]
    exact double src xs [] ops hsrc hne hord
  · obtain ⟨hs, ts, css, ho, _⟩ := hsrc
    obtain ⟨w1, cs, hrun, hwf, _, ho1, hdis⟩ := copyConstruct_spec ho hne
    obtain ⟨w2, cs2, hrun2, hwf2, _⟩ := runOps_spec hne ops hord w1 cs hwf ho1 hdis
    exact ⟨w1, w2, hrun, hrun2, hwf2.repInv⟩

/-- Witness for C17: a list built as the object `2` beside the sample list
`0`, then popped, range-erased, copy-assigned and inserted into. -/
theorem C17_representation_invariant_witness :
    (Repr demo2 0 [10, 20] ∧ (2 : Nat) ≠ 0 ∧
        (∀ m ∈ [Mut.popLast, Mut.eraseRange 0 1, Mut.insert 5 (7 : Nat)], m.ordered) ∧
        ∀ o ∈ [Op.call Mut.popFirst, Op.copyFrom, Op.call (Mut.insert 1 (7 : Nat))],
          o.ordered) ∧
      ((∃ w1 w2, LinkedList.constructFrom 2 [1, 2, 3] demo2 = Res.ok () w1 ∧
          runMuts 2 [Mut.popLast, Mut.eraseRange 0 1, Mut.insert 5 7] w1 = some w2 ∧
          RepInv w2 2) ∧
        (∃ w1 w2, LinkedList.copyConstruct 2 0 demo2 = Res.ok () w1 ∧
          runOps 2 0 [Op.call Mut.popFirst, Op.copyFrom, Op.call (Mut.insert 1 7)] w1 =
            some w2 ∧ RepInv w2 2)) := by
  have hm : ∀ m ∈ [Mut.popLast, Mut.eraseRange 0 1, Mut.insert 5 (7 : Nat)], m.ordered := by
    simp [Mut.ordered]
  have ho : ∀ o ∈ [Op.call Mut.popFirst, Op.copyFrom, Op.call (Mut.insert 1 (7 : Nat))],
      o.ordered := by
    simp [Op.ordered, Mut.ordered]
  exact ⟨⟨demo2_repr, by decide, hm, ho⟩,
    ((C17_representation_invariant demo2 2).1 [1, 2, 3] _ hm).2,
    ((C17_representation_invariant demo2 2).2 0 [10, 20] [] _ demo2_repr (by decide) ho).2.2⟩

/-- C18 fails on the code: after the sample list `[10, 20]` (object `0`) has
been moved from, by the move constructor into a new object `2` or by move
assignment into the object `1`, its `getSize()` still returns `2` and its
`isEmpty()` returns false. -/
theorem C18_moved_from_keeps_size :
    (∃ w2, LinkedList.moveConstruct 2 0 demo2 = Res.ok () w2 ∧
        LinkedList.getSize 0 w2 = Res.ok 2 w2 ∧ LinkedList.isEmpty 0 w2 = Res.ok false w2) ∧
      (∃ w2, LinkedList.moveAssign 1 0 demo2 = Res.ok () w2 ∧
        LinkedList.getSize 0 w2 = Res.ok 2 w2 ∧ LinkedList.isEmpty 0 w2 = Res.ok false w2) := by
  constructor
  · obtain ⟨w2, hrun, _, hobj, _⟩ := moveConstruct_spec demo2_wf0 (by decide : (2 : Nat) ≠ 0)
    exact ⟨w2, hrun, getSize_of_obj hobj, isEmpty_of_obj hobj⟩
  · obtain ⟨w2, hrun, _, hobj, _⟩ :=
      moveAssign_spec demo2_wf1 demo2_wf0 (by decide) (by simp [List.Disjoint, addrs, nodes])
    exact ⟨w2, hrun, getSize_of_obj hobj, isEmpty_of_obj hobj⟩

/-- C19. On a list holding `xs`, for an iterator `it` at a live position or at
`end()` and an offset `d ≥ 0` for which `it + d` returns, `(it + d) - d`
returns as well and is the iterator `it` again, at the same node. -/
theorem C19_add_sub_roundtrip (w : World T) (this : Nat) (xs : List T) (h : Repr w this xs)
    (i : Nat) (hi : i ≤ xs.length) (d : Int) (hd0 : 0 ≤ d) (it it2 : ConstIterator)
    (hit : (do let b ← LinkedList.begin this
               ConstIterator.add b (i : Int) : M (World T) ConstIterator) w = Res.ok it w)
    (hadd : (ConstIterator.add it d w).value? = some it2) :
    ∃ r, ConstIterator.sub it2 d w = Res.ok r w ∧ r.eq it = true := by
  obtain ⟨hd, tl, cs, hwf, rfl⟩ := h
  have hi2 : i ≤ cs.length := by simpa using hi
  obtain ⟨n, rfl⟩ := Int.eq_ofNat_of_zero_le hd0
  rw [begin_plus hwf i hi2] at hit
  cases hit
  rw [add_from_spec hwf i n hi2] at hadd
  by_cases hle : i + n ≤ cs.length
  · simp only [hle, if_true, Res.value?, Option.some.injEq] at hadd
    subst hadd
    refine ⟨_, sub_spec hwf n (i + n) (by omega) hle, ?_⟩
    simp [ConstIterator.eq]
  · simp [hle, Res.value?] at hadd

/-- Witness for C19: from `begin()` of the sample list, two steps forward
reach `end()` and two steps back return. -/
theorem C19_add_sub_roundtrip_witness :
    (Repr demo 0 [10, 20] ∧ 0 ≤ ([10, 20] : List Nat).length ∧ (0 : Int) ≤ 2 ∧
        (do let b ← LinkedList.begin 0
            ConstIterator.add b ((0 : Nat) : Int) : M (World Nat) ConstIterator) demo =
          Res.ok ⟨some 2⟩ demo ∧
        (ConstIterator.add ⟨some 2⟩ 2 demo).value? = some ⟨some 1⟩) ∧
      ∃ r, ConstIterator.sub ⟨some 1⟩ 2 demo = Res.ok r demo ∧ r.eq ⟨some 2⟩ = true :=
  ⟨⟨demo_repr, by decide, by decide, rfl, rfl⟩,
    C19_add_sub_roundtrip demo 0 [10, 20] demo_repr 0 (by decide) 2 (by decide) ⟨some 2⟩
      ⟨some 1⟩ rfl rfl⟩

/-- C20 as stated fails: on the sample list, `disconnect` on the tail sentinel
(cell `1`) throws `std::out_of_range` itself, not an error of another kind,
and `disconnect` on the head sentinel (cell `0`) throws nothing: it runs into
a null dereference. -/
theorem C20_disconnect_sentinel_counterexample :
    demo.objs 0 = some ⟨some 0, some 1, 2⟩ ∧
      (Node.disconnect (some 1) demo).exc? = some Exc.outOfRange ∧
      Node.disconnect (some 0) demo = Res.ub := by
  refine ⟨rfl, ?_, ?_⟩
  · rw [disconnect_no_next demo_wf.tail_cell]
    rfl
  · exact disconnect_no_prev demo_wf.head_cell

/-- C20, amended. On a list holding `xs`, `disconnect` on the tail sentinel
throws `std::out_of_range`, the same kind as every other range error of the
class, and changes nothing. -/
theorem C20_disconnect_tail (w : World T) (this : Nat) (xs : List T) (h : Repr w this xs) :
    ∃ l, w.objs this = some l ∧
      Node.disconnect l.tail w = (Res.throw Exc.outOfRange w : Res (World T) Unit) := by
  obtain ⟨hd, tl, cs, hwf, rfl⟩ := h
  exact ⟨_, hwf.obj, disconnect_no_next hwf.tail_cell⟩

/-- Witness for the amended C20 on the sample list. -/
theorem C20_disconnect_tail_witness :
    Repr demo 0 [10, 20] ∧
      ∃ l, demo.objs 0 = some l ∧
        Node.disconnect l.tail demo = (Res.throw Exc.outOfRange demo : Res (World Nat) Unit) :=
  ⟨demo_repr, C20_disconnect_tail demo 0 [10, 20] demo_repr⟩

end Claims

end aisdi
